import Mathlib

/-!
The depth-first maze solver of `maze.c`.

A shallow embedding of the grid model (`maze_t`), of the search `solveMazeDFS`,
of the loader `createMaze` and of the printer `printMaze`, and their
properties: frame, marking discipline, termination, reachability and work
bounds of the search; header, dimensions, marker coordinates and rendering of
the loader and the printer.

Conventions of the embedding:
* C `int` coordinates and dimensions are `Int`; the search only ever adds or
  subtracts one from an in-bounds coordinate, so no overflow arises.
* `maze->cells` (a `char **`) is a list of rows, each a list of characters.
* The `int` result of `solveMazeDFS` (always 0 or 1) is a `Bool`: `true` is 1.
* The C function mutates the maze in place; here it returns the final maze
  together with the result.
* Recursion is bounded by a fuel argument (the permitted recursion depth); the
  result `none` means that the depth did not suffice, or that a cell outside the
  allocated buffer would have been read.
* A file is the list of its characters. The library calls of `createMaze`
  follow the C standard: `fscanf` with the format `"%d %d\n"`, `fgetc`, and
  `malloc`, whose success is given by the environment of the call. Where the
  standard leaves the result open, an integer of the header that does not fit
  `int`, the model follows the C library (glibc with a 64-bit `long`), which
  stores the low 32 bits of the converted `long`.
* `printMaze` returns the characters it writes to the console.
-/

namespace Maze

/-- Modelled from the spec: the structure `maze_t`, which is declared in the
header `maze.h` and not in `maze.c`. Its fields are the ones `maze.c` reads and
writes: the dimensions, the cell buffer and the start and end coordinates of
section 3 of the specification. -/
structure maze_t where
  width : Int
  height : Int
  cells : List (List Char)
  startColumn : Int
  startRow : Int
  endColumn : Int
  endRow : Int
deriving DecidableEq, Repr

/-- The read `maze->cells[row][col]`; `none` outside the allocated buffer. -/
def cellAt (maze : maze_t) (col row : Int) : Option Char :=
  if 0 ≤ col ∧ 0 ≤ row then
    match maze.cells[row.toNat]? with
    | some r => r[col.toNat]?
    | none => none
  else none

/-- The assignment `maze->cells[row][col] = ch`; no effect outside the buffer
(the solver only assigns to a cell it has just read). -/
def setCell (maze : maze_t) (col row : Int) (ch : Char) : maze_t :=
  if 0 ≤ col ∧ 0 ≤ row then
    match maze.cells[row.toNat]? with
    | some r => { maze with cells := maze.cells.set row.toNat (r.set col.toNat ch) }
    | none => maze
  else maze

/-- Result of a call: `none` when the recursion depth did not suffice,
otherwise the returned value and the maze as the call left it. -/
abbrev Outcome := Option (Bool × maze_t)

/-- The short-circuit `||` of two calls on a shared maze: the second call runs
only when the first returned 0, and it runs on the maze the first one left. -/
def orElse (first second : maze_t → Outcome) (maze : maze_t) : Outcome :=
  match first maze with
  | none => none
  | some (true, m) => some (true, m)
  | some (false, m) => second m

/-- The function `solveMazeDFS` of `maze.c`, lines 138-177. -/
def solveMazeDFS : Nat → maze_t → Int → Int → Outcome
  | 0, _, _, _ => none
  | fuel + 1, maze, col, row =>
    if col < 0 ∨ col ≥ maze.width ∨ row < 0 ∨ row ≥ maze.height then
      some (false, maze)
    else
      match cellAt maze col row with
      | none => none
      | some current =>
        if current = 'E' then
          some (true, maze)
        else if current ≠ ' ' ∧ current ≠ 'S' then
          some (false, maze)
        else
          let marked := if current ≠ 'S' then setCell maze col row '*' else maze
          match orElse (fun m => solveMazeDFS fuel m (col + 1) row)
                  (orElse (fun m => solveMazeDFS fuel m col (row + 1))
                    (orElse (fun m => solveMazeDFS fuel m (col - 1) row)
                      (fun m => solveMazeDFS fuel m col (row - 1)))) marked with
          | none => none
          | some (true, m) => some (true, m)
          | some (false, m) =>
            some (false, if current ≠ 'S' then setCell m col row '~' else m)

/-- What an instrumented run records: a visit is an invocation that passed the
bounds, goal and passability checks; a write records the character the cell
held when it was overwritten and the character written. -/
inductive Event where
  | visit (col row : Int)
  | write (col row : Int) (old : Option Char) (new : Char)
deriving DecidableEq, Repr

/-- Result of an instrumented call: returned value, final maze, event log. -/
abbrev Traced := Option (Bool × maze_t × List Event)

/-- The short-circuit `||` of two instrumented calls; logs are concatenated. -/
def orElseTraced (first second : maze_t → Traced) (maze : maze_t) : Traced :=
  match first maze with
  | none => none
  | some (true, m, log) => some (true, m, log)
  | some (false, m, log) =>
    match second m with
    | none => none
    | some (b, m2, log2) => some (b, m2, log ++ log2)

/-- The function `solveMazeDFS` with a log of its visits and cell writes. It
takes the same decisions and makes the same assignments as `solveMazeDFS`. -/
def solveMazeDFSTraced : Nat → maze_t → Int → Int → Traced
  | 0, _, _, _ => none
  | fuel + 1, maze, col, row =>
    if col < 0 ∨ col ≥ maze.width ∨ row < 0 ∨ row ≥ maze.height then
      some (false, maze, [])
    else
      match cellAt maze col row with
      | none => none
      | some current =>
        if current = 'E' then
          some (true, maze, [])
        else if current ≠ ' ' ∧ current ≠ 'S' then
          some (false, maze, [])
        else
          let marked := if current ≠ 'S' then setCell maze col row '*' else maze
          let markLog :=
            if current ≠ 'S' then [Event.write col row (some current) '*'] else []
          match orElseTraced (fun m => solveMazeDFSTraced fuel m (col + 1) row)
                  (orElseTraced (fun m => solveMazeDFSTraced fuel m col (row + 1))
                    (orElseTraced (fun m => solveMazeDFSTraced fuel m (col - 1) row)
                      (fun m => solveMazeDFSTraced fuel m col (row - 1)))) marked with
          | none => none
          | some (true, m, log) => some (true, m, Event.visit col row :: markLog ++ log)
          | some (false, m, log) =>
            some (false, if current ≠ 'S' then setCell m col row '~' else m,
              Event.visit col row :: markLog ++ log ++
                if current ≠ 'S' then [Event.write col row (cellAt m col row) '~'] else [])

/-- The buffer matches the dimensions: `height` rows of `width` characters. -/
def WellFormed (maze : maze_t) : Prop :=
  (maze.cells.length : Int) = maze.height ∧ ∀ r ∈ maze.cells, (r.length : Int) = maze.width

instance (maze : maze_t) : Decidable (WellFormed maze) := by
  unfold WellFormed; infer_instance

/-- Number of cells of the buffer that hold the character `ch`. -/
def countChar (maze : maze_t) (ch : Char) : Nat :=
  (maze.cells.map (List.count ch)).sum

/-- Horizontal or vertical adjacency of two (column, row) positions. -/
def adjacent (p q : Int × Int) : Prop :=
  (p.2 = q.2 ∧ (q.1 = p.1 + 1 ∨ q.1 = p.1 - 1)) ∨
  (p.1 = q.1 ∧ (q.2 = p.2 + 1 ∨ q.2 = p.2 - 1))

instance (p q : Int × Int) : Decidable (adjacent p q) := by
  unfold adjacent; infer_instance

/-- A sequence of cells from `p` to `q`, consecutive cells adjacent, every
intermediate cell open (`' '`) in `maze`. -/
def OpenRoute (maze : maze_t) (p q : Int × Int) : Prop :=
  ∃ mid : List (Int × Int),
    (∀ x ∈ mid, cellAt maze x.1 x.2 = some ' ') ∧ List.Chain adjacent p (mid ++ [q])

/-- Number of visits of the cell `(col, row)` in a log. -/
def visitCount (log : List Event) (col row : Int) : Nat :=
  log.count (Event.visit col row)

/-- Whether an event is a visit. -/
def Event.isVisit : Event → Bool
  | Event.visit _ _ => true
  | Event.write _ _ _ _ => false

/-- Total number of visits in a log. -/
def totalVisits (log : List Event) : Nat :=
  (log.filter Event.isVisit).length

/-- The writes to the cell `(col, row)` in a log, in order: old and new character. -/
def writesTo (log : List Event) (col row : Int) : List (Option Char × Char) :=
  log.filterMap fun e =>
    match e with
    | Event.write c r old new => if c = col ∧ r = row then some (old, new) else none
    | Event.visit _ _ => none

/-- A maze built from its rows given as strings (coordinates of start and end
are not read by the solver and are left at 0). -/
def ofRows (w h : Int) (rows : List String) : maze_t :=
  { width := w, height := h, cells := rows.map String.toList,
    startColumn := 0, startRow := 0, endColumn := 0, endRow := 0 }

/-! ## Auxiliary definitions of the proofs -/

/-- The bounds test of `solveMazeDFS` passes. -/
def InBounds (m : maze_t) (c r : Int) : Prop :=
  0 ≤ c ∧ c < m.width ∧ 0 ≤ r ∧ r < m.height

instance (m : maze_t) (c r : Int) : Decidable (InBounds m c r) := by
  unfold InBounds; infer_instance

/-- The four recursive calls of one invocation, at recursion depth `fuel`. -/
def tryAll (fuel : Nat) (c r : Int) : maze_t → Traced :=
  orElseTraced (fun m => solveMazeDFSTraced fuel m (c + 1) r)
    (orElseTraced (fun m => solveMazeDFSTraced fuel m c (r + 1))
      (orElseTraced (fun m => solveMazeDFSTraced fuel m (c - 1) r)
        (fun m => solveMazeDFSTraced fuel m c (r - 1))))

/-- The cells tried from `(c, r)`, in the order of the source: right, down, left, up. -/
def dirs (c r : Int) : List (Int × Int) :=
  [(c + 1, r), (c, r + 1), (c - 1, r), (c, r - 1)]

/-- Trying cells in order until a call returns 1: `Tried Q ps m b m2 log` says that
the calls on the cells `ps`, started on maze `m`, each satisfying `Q`, stop with
result `b`, maze `m2` and combined log `log`. -/
inductive Tried (Q : maze_t → Int → Int → Bool → maze_t → List Event → Prop) :
    List (Int × Int) → maze_t → Bool → maze_t → List Event → Prop
  | nil (m : maze_t) : Tried Q [] m false m []
  | found {p : Int × Int} {ps : List (Int × Int)} {m m2 : maze_t} {log : List Event} :
      Q m p.1 p.2 true m2 log → Tried Q (p :: ps) m true m2 log
  | next {p : Int × Int} {ps : List (Int × Int)} {m m1 m2 : maze_t} {b : Bool}
      {log1 log2 : List Event} :
      Q m p.1 p.2 false m1 log1 → Tried Q ps m1 b m2 log2 →
      Tried Q (p :: ps) m b m2 (log1 ++ log2)

/-- Some recursion depth makes the call return `b`, maze `m2` and log `log`. -/
def Returns (m : maze_t) (c r : Int) (b : Bool) (m2 : maze_t) (log : List Event) : Prop :=
  ∃ fuel, solveMazeDFSTraced fuel m c r = some (b, m2, log)

/-- Forgetting the log of an instrumented result. -/
def eraseLog : Traced → Outcome
  | none => none
  | some (b, m, _) => some (b, m)

/-- The frame of a call with result `b`: dimensions and start/end coordinates are
kept, and a cell either keeps its character or was open and now holds `'~'`, or,
when the result is 1, `'*'`. -/
structure Changes (b : Bool) (m m2 : maze_t) : Prop where
  width : m2.width = m.width
  height : m2.height = m.height
  startColumn : m2.startColumn = m.startColumn
  startRow : m2.startRow = m.startRow
  endColumn : m2.endColumn = m.endColumn
  endRow : m2.endRow = m.endRow
  cell : ∀ c r, cellAt m2 c r = cellAt m c r ∨
    (cellAt m c r = some ' ' ∧
      (cellAt m2 c r = some '~' ∨ (b = true ∧ cellAt m2 c r = some '*')))

/-- Every in-bounds cell is inside the buffer. -/
def Inside (m : maze_t) : Prop :=
  ∀ c r, InBounds m c r → ∃ a, cellAt m c r = some a

/-- At most one cell holds `'S'`. -/
def UniqueStart (m : maze_t) : Prop :=
  ∀ c r c2 r2, cellAt m c r = some 'S' → cellAt m c2 r2 = some 'S' → c2 = c ∧ r2 = r

/-- The invariant the termination argument carries through the calls. -/
def Bounded (k : Nat) (m : maze_t) : Prop :=
  Inside m ∧ UniqueStart m ∧ countChar m ' ' ≤ k

/-- A walk from `p` to `q` in which every cell but the last can be stepped on:
it is open or it is the start cell. -/
inductive Walk (m : maze_t) : Int × Int → Int × Int → Prop
  | here (p : Int × Int) : Walk m p p
  | step {p x q : Int × Int} :
      (cellAt m p.1 p.2 = some ' ' ∨ cellAt m p.1 p.2 = some 'S') →
      adjacent p x → Walk m x q → Walk m p q

/-- The call reached an end cell along a walk of the entry maze. -/
def Reaches (m : maze_t) (p : Int × Int) : Prop :=
  ∃ q : Int × Int, cellAt m q.1 q.2 = some 'E' ∧ Walk m p q

/-- The buffer is no larger than the dimensions say. -/
def Fits (m : maze_t) : Prop :=
  ∀ c r a, cellAt m c r = some a → InBounds m c r

/-- Nothing continues through the cell: it is neither open nor an end cell. -/
def Dead (m : maze_t) (p : Int × Int) : Prop :=
  cellAt m p.1 p.2 ≠ some ' ' ∧ cellAt m p.1 p.2 ≠ some 'E'

/-- Every cell rejected between `m` and `m2` has nothing but dead cells around it. -/
def Closed (m m2 : maze_t) : Prop :=
  ∀ x : Int × Int, cellAt m x.1 x.2 = some ' ' → cellAt m2 x.1 x.2 = some '~' →
    ∀ y, adjacent x y → Dead m2 y

/-- What a call that returns 0 leaves behind. -/
def Exhausted (m : maze_t) (c r : Int) (m2 : maze_t) : Prop :=
  Closed m m2 ∧ Dead m2 (c, r) ∧
    (cellAt m c r = some 'S' → ∀ y, adjacent (c, r) y → Dead m2 y)

/-- The writes a call makes to one cell, with the cell before and after: none,
or `'*'` over `' '`, or that followed by `'~'` over `'*'`. -/
def WriteOrder (m m2 : maze_t) (log : List Event) : Prop :=
  ∀ c r,
    (writesTo log c r = [] ∧ cellAt m2 c r = cellAt m c r) ∨
    (writesTo log c r = [(some ' ', '*')] ∧
      cellAt m c r = some ' ' ∧ cellAt m2 c r = some '*') ∨
    (writesTo log c r = [(some ' ', '*'), (some '*', '~')] ∧
      cellAt m c r = some ' ' ∧ cellAt m2 c r = some '~')

/-- Number of writes of `'*'` over `' '` to a cell in a log. -/
def starWrites (log : List Event) (c r : Int) : Nat :=
  (writesTo log c r).count (some ' ', '*')

/-- Visits, in a log, of the four cells around `(sc, sr)`. -/
def nbrVisits (log : List Event) (sc sr : Int) : Nat :=
  visitCount log (sc + 1) sr + visitCount log sc (sr + 1)
    + visitCount log (sc - 1) sr + visitCount log sc (sr - 1)

/-- The cell `(sc, sr)` holds `'S'` and no other cell does. -/
def StartAt (m : maze_t) (sc sr : Int) : Prop :=
  cellAt m sc sr = some 'S' ∧ ∀ c r, cellAt m c r = some 'S' → c = sc ∧ r = sr

/-- Visits of a cell that is not a start cell are as many as the writes of `'*'` to it. -/
def VisitsMarked (m : maze_t) (log : List Event) : Prop :=
  ∀ c r, cellAt m c r ≠ some 'S' → visitCount log c r = starWrites log c r

/-- Every visit that is not a visit of the start cell turned one open cell. -/
def VisitsPaid (sc sr : Int) (m m2 : maze_t) (log : List Event) : Prop :=
  totalVisits log + countChar m2 ' ' = countChar m ' ' + visitCount log sc sr

/-- Visits of the start cell are bounded by the visits of its neighbours, plus
one when the call itself is on the start cell. -/
def StartVisits (sc sr : Int) (extra : Nat) (log : List Event) : Prop :=
  visitCount log sc sr ≤ nbrVisits log sc sr + extra

/-- The 3x3 maze with a wall in the middle. -/
def mazeAround : maze_t := ofRows 3 3 ["S  ", " # ", "  E"]

/-- The 3x1 maze whose start and end are separated by a wall. -/
def mazeWalled : maze_t := ofRows 3 1 ["S#E"]

/-- A 2x3 maze: the cell right of the start is a dead end, the end is below. -/
def mazeSpur : maze_t := ofRows 2 3 ["S ", " #", "E#"]

/-- The maze `mazeSpur` as the search leaves it. -/
def mazeSpurSolved : maze_t := ofRows 2 3 ["S*", "*#", "E#"]

/-- The 2x1 maze with the start and one open cell. -/
def mazePair : maze_t := ofRows 2 1 ["S "]

/-- A walk from `p` to `q` in which every cell but the last was open in `m` and
holds `'*'` in `m2`, or is a start cell. -/
inductive MarkedWalk (m m2 : maze_t) : Int × Int → Int × Int → Prop
  | here (p : Int × Int) : MarkedWalk m m2 p p
  | step {p x q : Int × Int} :
      ((cellAt m p.1 p.2 = some ' ' ∧ cellAt m2 p.1 p.2 = some '*') ∨
        cellAt m p.1 p.2 = some 'S') →
      adjacent p x → MarkedWalk m m2 x q → MarkedWalk m m2 p q

/-- A sequence of cells from `p` to `q`, consecutive cells adjacent, every
intermediate cell open in `m` and holding `'*'` in `m2`. -/
def MarkedRoute (m m2 : maze_t) (p q : Int × Int) : Prop :=
  ∃ mid : List (Int × Int),
    (∀ x ∈ mid, cellAt m x.1 x.2 = some ' ' ∧ cellAt m2 x.1 x.2 = some '*') ∧
    List.Chain adjacent p (mid ++ [q])

/-- White space as `isspace` classifies it in the C locale: space, `\t`, `\n`,
`\v`, `\f`, `\r`. -/
def isSpace (c : Char) : Bool :=
  c = ' ' ∨ c = '\t' ∨ c = '\n' ∨ c = Char.ofNat 11 ∨ c = Char.ofNat 12 ∨ c = '\r'

/-- The decimal digits `'0'` to `'9'`. -/
def isDigit (c : Char) : Bool :=
  48 ≤ c.toNat ∧ c.toNat ≤ 57

/-- Value of a string of decimal digits. -/
def decimalValue (ds : List Char) : Nat :=
  ds.foldl (fun acc d => 10 * acc + (d.toNat - 48)) 0

/-- A white-space directive of a `fscanf` format (C standard, 7.21.6.2): input
is read up to the first character that is not white space, which stays unread. -/
def skipSpace (s : List Char) : List Char :=
  s.dropWhile isSpace

/-- The digits of a `%d` conversion: the longest run of digits, at least one. -/
def scanDigits (s : List Char) : Option (Nat × List Char) :=
  if s.takeWhile isDigit = [] then none
  else some (decimalValue (s.takeWhile isDigit), s.dropWhile isDigit)

/-- The conversion `%d` of `fscanf`: white space is skipped, then an optional
sign and the longest run of digits are read; `none` is a matching failure. -/
def scanInt (s : List Char) : Option (Int × List Char) :=
  match skipSpace s with
  | '-' :: t =>
    match scanDigits t with
    | some (v, rest) => some (-(v : Int), rest)
    | none => none
  | '+' :: t =>
    match scanDigits t with
    | some (v, rest) => some ((v : Int), rest)
    | none => none
  | t =>
    match scanDigits t with
    | some (v, rest) => some ((v : Int), rest)
    | none => none

/-- The value fits the C type `int` (32 bits). -/
def fitsInt (v : Int) : Prop :=
  -2147483648 ≤ v ∧ v ≤ 2147483647

instance (v : Int) : Decidable (fitsInt v) := by
  unfold fitsInt; infer_instance

/-- The value that a `%d` conversion stores in the `int` for the integer `v`
read from the input, as the C library of the platform does (glibc, 64-bit
`long`): the digits are converted to a `long`, saturating at its least and
greatest value, and the assignment to the `int` keeps the low 32 bits. An
integer that fits `int` is stored as it is. -/
def storeInt (v : Int) : Int :=
  (max (-9223372036854775808) (min v 9223372036854775807) + 2147483648) % 4294967296
    - 2147483648

/-- Outcome of the call `fscanf(fp, "%d %d\n", &width, &height)`: `read` when
the call returns 2, `mismatch` otherwise. -/
inductive Header where
  | mismatch
  | read (width height : Int) (rest : List Char)
deriving DecidableEq, Repr

/-- The call `fscanf(fp, "%d %d\n", &maze->width, &maze->height)`: two `%d`
conversions separated by a white-space directive and followed by another one,
which reads all the white space after the second integer. The result is
`read` exactly when the call returns 2. -/
def scanHeader (s : List Char) : Header :=
  match scanInt s with
  | none => Header.mismatch
  | some (w, s1) =>
    match scanInt (skipSpace s1) with
    | none => Header.mismatch
    | some (h, s2) => Header.read (storeInt w) (storeInt h) (skipSpace s2)

/-- The character the C `char` holds after `fgetc` returned `EOF` (-1). -/
def eofChar : Char := Char.ofNat 255

/-- The call `fgetc(fp)`, as a character and the rest of the stream. -/
def fgetc : List Char → Char × List Char
  | [] => (eofChar, [])
  | c :: s => (c, s)

/-- What `createMaze` gets from its environment: the contents of the file that
`fopen` opens (`none` when it fails), the contents of the structure that
`malloc(sizeof(maze_t))` returns (`none` when it fails; the contents are
indeterminate), and whether `malloc` succeeds for the row index of `height`
elements and for row `i` of `width` elements. -/
structure Env where
  fopen : String → Option (List Char)
  mallocMaze : Option maze_t
  mallocCells : Int → Bool
  mallocRow : Int → Int → Bool

/-- What a call of `createMaze` returns: `NULL` or a maze. -/
inductive Loaded where
  | null
  | grid (maze : maze_t)
deriving DecidableEq, Repr

/-- The checks for the start and the end position of `createMaze` (lines
68-77), on the character `ch` just stored in row `i`, column `j`. -/
def noteCell (maze : maze_t) (i j : Int) (ch : Char) : maze_t :=
  if ch = 'S' then { maze with startColumn := j, startRow := i }
  else if ch = 'E' then { maze with endColumn := j, endRow := i }
  else maze

/-- The inner loop of `createMaze` (lines 65-78), for row `i` from column `j`
with `n` columns still to read: the characters read, the maze with start and
end coordinates updated, and the rest of the stream. -/
def readCells (i : Int) : Nat → Int → maze_t → List Char → List Char × maze_t × List Char
  | 0, _, maze, s => ([], maze, s)
  | n + 1, j, maze, s =>
    let ch := (fgetc s).1
    let rest := readCells i n (j + 1) (noteCell maze i j ch) (fgetc s).2
    (ch :: rest.1, rest.2.1, rest.2.2)

/-- The outer loop of `createMaze` (lines 51-81), from row `i` with `n` rows
still to read: each row is allocated, read, and its terminator skipped. -/
def readRows (env : Env) : Nat → Int → maze_t → List Char → Loaded
  | 0, _, maze, _ => Loaded.grid maze
  | n + 1, i, maze, s =>
    if env.mallocRow i maze.width then
      let cellsRead := readCells i maze.width.toNat 0 maze s
      readRows env n (i + 1)
        { cellsRead.2.1 with cells := cellsRead.2.1.cells ++ [cellsRead.1] }
        (fgetc cellsRead.2.2).2
    else Loaded.null

/-- The function `createMaze` of `maze.c`, lines 21-85. -/
def createMaze (env : Env) (fileName : String) : Loaded :=
  match env.fopen fileName with
  | none => Loaded.null
  | some input =>
    match env.mallocMaze with
    | none => Loaded.null
    | some fresh =>
      match scanHeader input with
      | Header.mismatch => Loaded.null
      | Header.read w h s =>
        if env.mallocCells h then
          readRows env h.toNat 0 { fresh with width := w, height := h, cells := [] } s
        else Loaded.null

/-- One line of `printMaze` (lines 122-125): row `i` from column `j`, with `n`
columns still to print, then the newline; `none` when a cell outside the
buffer would be read. -/
def printRow (maze : maze_t) (i : Int) : Nat → Int → Option (List Char)
  | 0, _ => some ['\n']
  | n + 1, j =>
    match cellAt maze j i with
    | none => none
    | some ch =>
      match printRow maze i n (j + 1) with
      | none => none
      | some out => some (ch :: out)

/-- The outer loop of `printMaze` (lines 121-126), from row `i` with `n` rows
still to print. -/
def printRows (maze : maze_t) : Nat → Int → Option (List Char)
  | 0, _ => some []
  | n + 1, i =>
    match printRow maze i maze.width.toNat 0 with
    | none => none
    | some out =>
      match printRows maze n (i + 1) with
      | none => none
      | some more => some (out ++ more)

/-- The function `printMaze` of `maze.c`, lines 117-127: the characters written
to the console; nothing for `NULL`. -/
def printMaze : Option maze_t → Option (List Char)
  | none => some []
  | some maze => printRows maze maze.height.toNat 0

/-- The text of the rows of a maze file: each row followed by a newline. -/
def rowsText : List (List Char) → List Char
  | [] => []
  | r :: rows => r ++ '\n' :: rowsText rows

/-- The text of a maze file: the digits of the width, a space, the digits of
the height, a newline, and the rows. -/
def fileText (ds1 ds2 : List Char) (rows : List (List Char)) : List Char :=
  ds1 ++ ' ' :: (ds2 ++ '\n' :: rowsText rows)

/-- An environment in which `fopen` yields `input`, every allocation of a
non-negative number of elements succeeds and one of a negative number fails,
and the fresh structure holds zeros. -/
def envOf (input : String) : Env :=
  { fopen := fun _ => some input.toList,
    mallocMaze := some (ofRows 0 0 []),
    mallocCells := fun n => decide (0 ≤ n),
    mallocRow := fun _ n => decide (0 ≤ n) }

/-- The text of a decimal integer with value `v`: an optional sign and at least
one digit. -/
def IntegerText (t : List Char) (v : Int) : Prop :=
  ∃ ds : List Char, ds ≠ [] ∧ (∀ d ∈ ds, isDigit d = true) ∧
    ((t = ds ∧ v = (decimalValue ds : Int)) ∨
     (t = '+' :: ds ∧ v = (decimalValue ds : Int)) ∨
     (t = '-' :: ds ∧ v = -(decimalValue ds : Int)))

/-- The text does not go on with a digit. -/
def NoDigitAhead (s : List Char) : Prop :=
  ∀ c cs, s = c :: cs → isDigit c = false

/-- The beginning of the input parses as two decimal integers `w` and `h`: white
space, the text of `w`, white space, the text of `h`, each text as long as it
can be. -/
def BeginsWithTwoIntegers (input : List Char) (w h : Int) : Prop :=
  ∃ ws1 t1 ws2 t2 rest : List Char,
    input = ws1 ++ (t1 ++ (ws2 ++ (t2 ++ rest))) ∧
    (∀ c ∈ ws1, isSpace c = true) ∧ (∀ c ∈ ws2, isSpace c = true) ∧
    IntegerText t1 w ∧ IntegerText t2 h ∧
    NoDigitAhead (ws2 ++ t2) ∧ NoDigitAhead rest

/-- The character `ch` is at index `c` of the row and nowhere after it. -/
def LastInRow (ch : Char) (r : List Char) (c : Nat) : Prop :=
  r[c]? = some ch ∧ ∀ c2, c < c2 → r[c2]? ≠ some ch

/-- The character `ch` is at column `c` of row `k` and nowhere after it in
row-major order. -/
def LastInRows (ch : Char) (rows : List (List Char)) (k c : Nat) : Prop :=
  ∃ r, rows[k]? = some r ∧ LastInRow ch r c ∧
    ∀ k2 r2, k < k2 → rows[k2]? = some r2 → ch ∉ r2

/-- The maze `mazeAround` as the search leaves it. -/
def mazeAroundSolved : maze_t := ofRows 3 3 ["S**", " #*", "  E"]

/-- The text of the 3x3 maze file of the specification. -/
def fileAround : String := "3 3\nS  \n # \n  E\n"

/-- The text of a maze file whose width is written as `4294967299`. -/
def fileWide : String := "4294967299 1\nS E\n"

/-! ## Reading and writing cells -/

theorem cellAt_nonneg {m : maze_t} {c r : Int} {a : Char} (h : cellAt m c r = some a) :
    0 ≤ c ∧ 0 ≤ r := by
  unfold cellAt at h
  by_contra hn
  rw [if_neg hn] at h
  cases h

theorem cellAt_rows {m : maze_t} {c r : Int} {a : Char} (h : cellAt m c r = some a) :
    ∃ cs, m.cells[r.toNat]? = some cs ∧ cs[c.toNat]? = some a := by
  have hn := cellAt_nonneg h
  unfold cellAt at h
  rw [if_pos hn] at h
  cases hrow : m.cells[r.toNat]? with
  | none => rw [hrow] at h; cases h
  | some cs => rw [hrow] at h; exact ⟨cs, rfl, h⟩

theorem cellAt_of_rows {m : maze_t} {c r : Int} {cs : List Char} (hc : 0 ≤ c) (hr : 0 ≤ r)
    (hrow : m.cells[r.toNat]? = some cs) : cellAt m c r = cs[c.toNat]? := by
  unfold cellAt
  rw [if_pos ⟨hc, hr⟩, hrow]

theorem setCell_cells {m : maze_t} {c r : Int} {cs : List Char} (ch : Char)
    (hc : 0 ≤ c) (hr : 0 ≤ r) (hrow : m.cells[r.toNat]? = some cs) :
    (setCell m c r ch).cells = m.cells.set r.toNat (cs.set c.toNat ch) := by
  unfold setCell
  rw [if_pos ⟨hc, hr⟩, hrow]

theorem setCell_width (m : maze_t) (c r : Int) (ch : Char) :
    (setCell m c r ch).width = m.width := by
  unfold setCell
  split
  · split <;> rfl
  · rfl

theorem setCell_height (m : maze_t) (c r : Int) (ch : Char) :
    (setCell m c r ch).height = m.height := by
  unfold setCell
  split
  · split <;> rfl
  · rfl

theorem setCell_startColumn (m : maze_t) (c r : Int) (ch : Char) :
    (setCell m c r ch).startColumn = m.startColumn := by
  unfold setCell
  split
  · split <;> rfl
  · rfl

theorem setCell_startRow (m : maze_t) (c r : Int) (ch : Char) :
    (setCell m c r ch).startRow = m.startRow := by
  unfold setCell
  split
  · split <;> rfl
  · rfl

theorem setCell_endColumn (m : maze_t) (c r : Int) (ch : Char) :
    (setCell m c r ch).endColumn = m.endColumn := by
  unfold setCell
  split
  · split <;> rfl
  · rfl

theorem setCell_endRow (m : maze_t) (c r : Int) (ch : Char) :
    (setCell m c r ch).endRow = m.endRow := by
  unfold setCell
  split
  · split <;> rfl
  · rfl

theorem cellAt_setCell_same {m : maze_t} {c r : Int} {a : Char} (ch : Char)
    (h : cellAt m c r = some a) : cellAt (setCell m c r ch) c r = some ch := by
  obtain ⟨hc, hr⟩ := cellAt_nonneg h
  obtain ⟨cs, hrow, hcol⟩ := cellAt_rows h
  have hlen : r.toNat < m.cells.length := (List.getElem?_eq_some_iff.1 hrow).1
  have hlen2 : c.toNat < cs.length := (List.getElem?_eq_some_iff.1 hcol).1
  have h1 : (setCell m c r ch).cells[r.toNat]? = some (cs.set c.toNat ch) := by
    rw [setCell_cells ch hc hr hrow]
    exact List.getElem?_set_self hlen
  rw [cellAt_of_rows hc hr h1]
  exact List.getElem?_set_self hlen2

theorem cellAt_setCell_other {m : maze_t} {c r c' r' : Int} (ch : Char)
    (hc : 0 ≤ c) (hr : 0 ≤ r) (hne : c' ≠ c ∨ r' ≠ r) :
    cellAt (setCell m c r ch) c' r' = cellAt m c' r' := by
  by_cases hn : 0 ≤ c' ∧ 0 ≤ r'
  · cases hrow : m.cells[r.toNat]? with
    | none =>
      unfold setCell
      rw [if_pos ⟨hc, hr⟩, hrow]
    | some cs =>
      unfold cellAt
      rw [if_pos hn, if_pos hn, setCell_cells ch hc hr hrow]
      by_cases hrr : r' = r
      · subst hrr
        have hcc : c.toNat ≠ c'.toNat := by
          rcases hne with h | h
          · omega
          · exact absurd rfl h
        have hlen : r'.toNat < m.cells.length := (List.getElem?_eq_some_iff.1 hrow).1
        rw [List.getElem?_set_self hlen, hrow]
        exact List.getElem?_set_ne hcc
      · have hrn : r.toNat ≠ r'.toNat := by omega
        rw [List.getElem?_set_ne hrn]
  · unfold cellAt
    rw [if_neg hn, if_neg hn]

/-! ## Counting characters -/

theorem count_set_row (x ch : Char) :
    ∀ (cs : List Char) (j : Nat) (a : Char), cs[j]? = some a →
      (cs.set j ch).count x + (if a = x then 1 else 0)
        = cs.count x + (if ch = x then 1 else 0) := by
  intro cs
  induction cs with
  | nil => intro j a h; simp at h
  | cons y ys ih =>
    intro j a h
    cases j with
    | zero =>
      simp at h
      subst h
      simp only [List.set_cons_zero, List.count_cons, beq_iff_eq]
      omega
    | succ j =>
      simp at h
      have := ih j a h
      simp only [List.set_cons_succ, List.count_cons, beq_iff_eq]
      omega

theorem sum_map_set (f : List Char → Nat) :
    ∀ (l : List (List Char)) (i : Nat) (cs cs' : List Char), l[i]? = some cs →
      ((l.set i cs').map f).sum + f cs = (l.map f).sum + f cs' := by
  intro l
  induction l with
  | nil => intro i cs cs' h; simp at h
  | cons y ys ih =>
    intro i cs cs' h
    cases i with
    | zero =>
      simp at h
      subst h
      simp only [List.set_cons_zero, List.map_cons, List.sum_cons]
      omega
    | succ i =>
      simp at h
      have := ih i cs cs' h
      simp only [List.set_cons_succ, List.map_cons, List.sum_cons]
      omega

theorem countChar_setCell {m : maze_t} {c r : Int} {a : Char} (x ch : Char)
    (h : cellAt m c r = some a) :
    countChar (setCell m c r ch) x + (if a = x then 1 else 0)
      = countChar m x + (if ch = x then 1 else 0) := by
  obtain ⟨hc, hr⟩ := cellAt_nonneg h
  obtain ⟨cs, hrow, hcol⟩ := cellAt_rows h
  unfold countChar
  rw [setCell_cells ch hc hr hrow]
  have h1 := sum_map_set (List.count x) m.cells r.toNat cs (cs.set c.toNat ch) hrow
  have h2 := count_set_row x ch cs c.toNat a hcol
  omega

theorem one_le_count_row (x : Char) (cs : List Char) (j : Nat) (h : cs[j]? = some x) :
    1 ≤ cs.count x := by
  have hmem : x ∈ cs := List.getElem?_mem h
  exact List.count_pos_iff.2 hmem

theorem one_le_countChar {m : maze_t} {c r : Int} {x : Char} (h : cellAt m c r = some x) :
    1 ≤ countChar m x := by
  obtain ⟨cs, hrow, hcol⟩ := cellAt_rows h
  have h1 := one_le_count_row x cs c.toNat hcol
  have hmem : cs ∈ m.cells := List.getElem?_mem hrow
  unfold countChar
  have : List.count x cs ≤ (m.cells.map (List.count x)).sum :=
    List.single_le_sum (by intro y _; exact Nat.zero_le y) _ (List.mem_map_of_mem _ hmem)
  omega

/-- Two cells holding a character that occurs exactly once are the same cell. -/
theorem unique_of_countChar_one {m : maze_t} {x : Char} (hone : countChar m x = 1)
    {c r c' r' : Int} (h : cellAt m c r = some x) (h' : cellAt m c' r' = some x) :
    c' = c ∧ r' = r := by
  by_contra hne
  have hne' : c' ≠ c ∨ r' ≠ r := by
    by_cases hc : c' = c
    · right; intro hr; exact hne ⟨hc, hr⟩
    · left; exact hc
  obtain ⟨hc, hr⟩ := cellAt_nonneg h
  -- overwrite the first cell with a different character
  let y : Char := if x = '#' then '.' else '#'
  have hy : y ≠ x := by
    show (if x = '#' then '.' else '#') ≠ x
    split
    · rename_i hx; rw [hx]; decide
    · rename_i hx; exact fun e => hx e.symm
  have hcnt := countChar_setCell x y h
  rw [if_pos rfl, if_neg hy] at hcnt
  have hother : cellAt (setCell m c r y) c' r' = some x := by
    rw [cellAt_setCell_other y hc hr hne']; exact h'
  have := one_le_countChar hother
  omega

/-! ## Size of the buffer -/

theorem sum_count_le (x : Char) (l : List (List Char)) :
    (l.map (List.count x)).sum ≤ (l.map List.length).sum := by
  induction l with
  | nil => simp
  | cons y ys ih =>
    simp only [List.map_cons, List.sum_cons]
    have := List.count_le_length x y
    omega

theorem sum_length_const (w : Nat) (l : List (List Char)) (h : ∀ cs ∈ l, cs.length = w) :
    (l.map List.length).sum = l.length * w := by
  induction l with
  | nil => simp
  | cons y ys ih =>
    simp only [List.map_cons, List.sum_cons, List.length_cons]
    rw [ih (fun cs hcs => h cs (List.mem_cons_of_mem _ hcs)), h y (List.mem_cons_self _ _)]
    ring

theorem countChar_le_area {m : maze_t} (hwf : WellFormed m) (x : Char) :
    (countChar m x : Int) ≤ m.width * m.height := by
  obtain ⟨hh, hw⟩ := hwf
  by_cases hempty : m.cells = []
  · unfold countChar
    rw [hempty] at hh ⊢
    simp at hh
    simp [← hh]
  · obtain ⟨y, hy⟩ := List.exists_mem_of_ne_nil _ hempty
    have hwy := hw y hy
    have hconst : ∀ cs ∈ m.cells, cs.length = y.length := by
      intro cs hcs
      have := hw cs hcs
      omega
    have h1 := sum_count_le x m.cells
    have h2 := sum_length_const y.length m.cells hconst
    unfold countChar
    have h3 : (m.cells.map (List.count x)).sum ≤ m.cells.length * y.length := h2 ▸ h1
    have h4 : (((m.cells.map (List.count x)).sum : Nat) : Int)
        ≤ ((m.cells.length * y.length : Nat) : Int) := Int.ofNat_le.2 h3
    rw [← hwy, ← hh]
    rw [Nat.cast_mul] at h4
    linarith [mul_comm (m.cells.length : Int) (y.length : Int)]

/-- In a well-formed maze every in-bounds cell is inside the buffer. -/
theorem cellAt_isSome_of_wellFormed {m : maze_t} (hwf : WellFormed m) {c r : Int}
    (hc : 0 ≤ c) (hcw : c < m.width) (hr : 0 ≤ r) (hrh : r < m.height) :
    ∃ a, cellAt m c r = some a := by
  obtain ⟨hh, hw⟩ := hwf
  have hlen : r.toNat < m.cells.length := by omega
  have hrow : m.cells[r.toNat]? = some (m.cells[r.toNat]) := List.getElem?_eq_getElem hlen
  have hmem : m.cells[r.toNat] ∈ m.cells := List.getElem_mem hlen
  have hwl := hw _ hmem
  have hlen2 : c.toNat < (m.cells[r.toNat]).length := by omega
  refine ⟨(m.cells[r.toNat])[c.toNat], ?_⟩
  rw [cellAt_of_rows hc hr hrow]
  exact List.getElem?_eq_getElem hlen2

theorem not_oob_of_inBounds {m : maze_t} {c r : Int} (h : InBounds m c r) :
    ¬ (c < 0 ∨ c ≥ m.width ∨ r < 0 ∨ r ≥ m.height) := by
  unfold InBounds at h; omega

theorem traced_oob (fuel : Nat) {m : maze_t} {c r : Int}
    (h : c < 0 ∨ c ≥ m.width ∨ r < 0 ∨ r ≥ m.height) :
    solveMazeDFSTraced (fuel + 1) m c r = some (false, m, []) := by
  rw [solveMazeDFSTraced, if_pos h]

theorem traced_goal (fuel : Nat) {m : maze_t} {c r : Int} (hin : InBounds m c r)
    (h : cellAt m c r = some 'E') :
    solveMazeDFSTraced (fuel + 1) m c r = some (true, m, []) := by
  rw [solveMazeDFSTraced, if_neg (not_oob_of_inBounds hin), h]
  rfl

theorem traced_blocked (fuel : Nat) {m : maze_t} {c r : Int} {cur : Char}
    (hin : InBounds m c r) (h : cellAt m c r = some cur)
    (hE : cur ≠ 'E') (hO : cur ≠ ' ') (hS : cur ≠ 'S') :
    solveMazeDFSTraced (fuel + 1) m c r = some (false, m, []) := by
  rw [solveMazeDFSTraced, if_neg (not_oob_of_inBounds hin), h]
  simp only [if_neg hE, if_pos (And.intro hO hS)]

theorem traced_open (fuel : Nat) {m : maze_t} {c r : Int} (hin : InBounds m c r)
    (h : cellAt m c r = some ' ') :
    solveMazeDFSTraced (fuel + 1) m c r =
      match tryAll fuel c r (setCell m c r '*') with
      | none => none
      | some (true, m2, log) =>
        some (true, m2, Event.visit c r :: Event.write c r (some ' ') '*' :: log)
      | some (false, m2, log) =>
        some (false, setCell m2 c r '~',
          Event.visit c r :: Event.write c r (some ' ') '*' ::
            (log ++ [Event.write c r (cellAt m2 c r) '~'])) := by
  rw [solveMazeDFSTraced, if_neg (not_oob_of_inBounds hin), h]
  simp only [tryAll, ne_eq, Char.reduceEq, not_false_eq_true, not_true_eq_false, and_false,
    and_true, and_self, ↓reduceIte, List.singleton_append, List.nil_append, List.append_nil,
    List.cons_append]

theorem traced_start (fuel : Nat) {m : maze_t} {c r : Int} (hin : InBounds m c r)
    (h : cellAt m c r = some 'S') :
    solveMazeDFSTraced (fuel + 1) m c r =
      match tryAll fuel c r m with
      | none => none
      | some (b, m2, log) => some (b, m2, Event.visit c r :: log) := by
  rw [solveMazeDFSTraced, if_neg (not_oob_of_inBounds hin), h]
  simp only [tryAll, ne_eq, Char.reduceEq, not_false_eq_true, not_true_eq_false, and_false,
    and_true, and_self, ↓reduceIte, List.singleton_append, List.nil_append, List.append_nil,
    List.cons_append]
  all_goals
    generalize orElseTraced _ _ _ = x
    rcases x with _ | ⟨_ | _, m2, log⟩ <;> rfl

theorem tried_last {Q : maze_t → Int → Int → Bool → maze_t → List Event → Prop}
    {last : maze_t → Traced} {p : Int × Int}
    (hl : ∀ m b m2 log, last m = some (b, m2, log) → Q m p.1 p.2 b m2 log)
    {m : maze_t} {b : Bool} {m2 : maze_t} {log : List Event}
    (h : last m = some (b, m2, log)) : Tried Q [p] m b m2 log := by
  cases b with
  | true => exact Tried.found (hl _ _ _ _ h)
  | false =>
    have := Tried.next (hl _ _ _ _ h) (Tried.nil (Q := Q) m2)
    rwa [List.append_nil] at this

theorem tried_orElse {Q : maze_t → Int → Int → Bool → maze_t → List Event → Prop}
    {first second : maze_t → Traced} {p : Int × Int} {ps : List (Int × Int)}
    (hf : ∀ m b m2 log, first m = some (b, m2, log) → Q m p.1 p.2 b m2 log)
    (hs : ∀ m b m2 log, second m = some (b, m2, log) → Tried Q ps m b m2 log)
    {m : maze_t} {b : Bool} {m2 : maze_t} {log : List Event}
    (h : orElseTraced first second m = some (b, m2, log)) :
    Tried Q (p :: ps) m b m2 log := by
  unfold orElseTraced at h
  rcases h1 : first m with _ | ⟨_ | _, m1, log1⟩
  · rw [h1] at h; cases h
  · rw [h1] at h
    simp only at h
    rcases h2 : second m1 with _ | ⟨b2, m3, log2⟩
    · rw [h2] at h; cases h
    · rw [h2] at h
      simp only [Option.some.injEq, Prod.mk.injEq] at h
      obtain ⟨rfl, rfl, rfl⟩ := h
      exact Tried.next (hf _ _ _ _ h1) (hs _ _ _ _ h2)
  · rw [h1] at h
    simp only [Option.some.injEq, Prod.mk.injEq] at h
    obtain ⟨rfl, rfl, rfl⟩ := h
    exact Tried.found (hf _ _ _ _ h1)

theorem tried_tryAll {Q : maze_t → Int → Int → Bool → maze_t → List Event → Prop}
    {fuel : Nat}
    (ih : ∀ m c r b m2 log, solveMazeDFSTraced fuel m c r = some (b, m2, log) →
      Q m c r b m2 log)
    {c r : Int} {m : maze_t} {b : Bool} {m2 : maze_t} {log : List Event}
    (h : tryAll fuel c r m = some (b, m2, log)) : Tried Q (dirs c r) m b m2 log := by
  unfold tryAll at h
  unfold dirs
  refine tried_orElse (p := (c + 1, r)) (fun m b m2 log h => ih _ _ _ _ _ _ h) ?_ h
  intro m b m2 log h
  refine tried_orElse (p := (c, r + 1)) (fun m b m2 log h => ih _ _ _ _ _ _ h) ?_ h
  intro m b m2 log h
  refine tried_orElse (p := (c - 1, r)) (fun m b m2 log h => ih _ _ _ _ _ _ h) ?_ h
  intro m b m2 log h
  exact tried_last (p := (c, r - 1)) (fun m b m2 log h => ih _ _ _ _ _ _ h) h

/-- Induction over the calls of the instrumented solver: a property `Q` of
(entry maze, cell, result, exit maze, log) that holds at the three immediate
returns, and holds at a visit of an open cell and of a start cell whenever it
holds for the calls made from there, holds for every call that returns. -/
theorem solve_induction
    (Q : maze_t → Int → Int → Bool → maze_t → List Event → Prop)
    (oob : ∀ m c r, (c < 0 ∨ c ≥ m.width ∨ r < 0 ∨ r ≥ m.height) → Q m c r false m [])
    (goal : ∀ m c r, InBounds m c r → cellAt m c r = some 'E' → Q m c r true m [])
    (blocked : ∀ m c r cur, InBounds m c r → cellAt m c r = some cur →
      cur ≠ 'E' → cur ≠ ' ' → cur ≠ 'S' → Q m c r false m [])
    (found : ∀ m c r m2 log, InBounds m c r → cellAt m c r = some ' ' →
      Tried (fun m c r b m2 log => Returns m c r b m2 log ∧ Q m c r b m2 log)
        (dirs c r) (setCell m c r '*') true m2 log →
      Q m c r true m2 (Event.visit c r :: Event.write c r (some ' ') '*' :: log))
    (failed : ∀ m c r m2 log, InBounds m c r → cellAt m c r = some ' ' →
      Tried (fun m c r b m2 log => Returns m c r b m2 log ∧ Q m c r b m2 log)
        (dirs c r) (setCell m c r '*') false m2 log →
      Q m c r false (setCell m2 c r '~')
        (Event.visit c r :: Event.write c r (some ' ') '*' ::
          (log ++ [Event.write c r (cellAt m2 c r) '~'])))
    (start : ∀ m c r b m2 log, InBounds m c r → cellAt m c r = some 'S' →
      Tried (fun m c r b m2 log => Returns m c r b m2 log ∧ Q m c r b m2 log)
        (dirs c r) m b m2 log →
      Q m c r b m2 (Event.visit c r :: log)) :
    ∀ fuel m c r b m2 log, solveMazeDFSTraced fuel m c r = some (b, m2, log) →
      Q m c r b m2 log := by
  intro fuel
  induction fuel with
  | zero => intro m c r b m2 log h; simp [solveMazeDFSTraced] at h
  | succ fuel ih =>
    intro m c r b m2 log h
    have ih2 : ∀ m c r b m2 log, solveMazeDFSTraced fuel m c r = some (b, m2, log) →
        Returns m c r b m2 log ∧ Q m c r b m2 log :=
      fun m c r b m2 log h => ⟨⟨fuel, h⟩, ih m c r b m2 log h⟩
    by_cases hoob : c < 0 ∨ c ≥ m.width ∨ r < 0 ∨ r ≥ m.height
    · rw [traced_oob fuel hoob] at h
      simp only [Option.some.injEq, Prod.mk.injEq] at h
      obtain ⟨rfl, rfl, rfl⟩ := h
      exact oob _ _ _ hoob
    · have hin : InBounds m c r := by unfold InBounds; omega
      rcases hcell : cellAt m c r with _ | cur
      · rw [solveMazeDFSTraced, if_neg hoob, hcell] at h
        cases h
      · by_cases hE : cur = 'E'
        · subst hE
          rw [traced_goal fuel hin hcell] at h
          simp only [Option.some.injEq, Prod.mk.injEq] at h
          obtain ⟨rfl, rfl, rfl⟩ := h
          exact goal _ _ _ hin hcell
        · by_cases hO : cur = ' '
          · subst hO
            rw [traced_open fuel hin hcell] at h
            rcases hall : tryAll fuel c r (setCell m c r '*') with _ | ⟨_ | _, m3, log3⟩
            · rw [hall] at h; cases h
            · rw [hall] at h
              simp only [Option.some.injEq, Prod.mk.injEq] at h
              obtain ⟨rfl, rfl, rfl⟩ := h
              exact failed _ _ _ _ _ hin hcell (tried_tryAll ih2 hall)
            · rw [hall] at h
              simp only [Option.some.injEq, Prod.mk.injEq] at h
              obtain ⟨rfl, rfl, rfl⟩ := h
              exact found _ _ _ _ _ hin hcell (tried_tryAll ih2 hall)
          · by_cases hS : cur = 'S'
            · subst hS
              rw [traced_start fuel hin hcell] at h
              rcases hall : tryAll fuel c r m with _ | ⟨b3, m3, log3⟩
              · rw [hall] at h; cases h
              · rw [hall] at h
                simp only [Option.some.injEq, Prod.mk.injEq] at h
                obtain ⟨rfl, rfl, rfl⟩ := h
                exact start _ _ _ _ _ _ hin hcell (tried_tryAll ih2 hall)
            · rw [traced_blocked fuel hin hcell hE hO hS] at h
              simp only [Option.some.injEq, Prod.mk.injEq] at h
              obtain ⟨rfl, rfl, rfl⟩ := h
              exact blocked _ _ _ _ hin hcell hE hO hS

/-! ## The instrumented solver computes what the solver computes -/

theorem orElse_eraseLog (first second : maze_t → Traced) :
    orElse (fun x => eraseLog (first x)) (fun x => eraseLog (second x))
      = fun m => eraseLog (orElseTraced first second m) := by
  funext m
  simp only [orElse, orElseTraced]
  rcases h1 : first m with _ | ⟨_ | _, m1, log1⟩
  · simp [eraseLog]
  · rcases h2 : second m1 with _ | ⟨b2, m3, log2⟩ <;> simp [eraseLog, h2]
  · simp [eraseLog]

theorem solveMazeDFS_eq_eraseLog :
    ∀ fuel m c r, solveMazeDFS fuel m c r = eraseLog (solveMazeDFSTraced fuel m c r) := by
  intro fuel
  induction fuel with
  | zero => intro m c r; rfl
  | succ fuel ih =>
    intro m c r
    rw [solveMazeDFS, solveMazeDFSTraced]
    split
    · rfl
    · rcases hcell : cellAt m c r with _ | cur
      · rfl
      · simp only
        split
        · rfl
        · split
          · rfl
          · have e : ∀ c r, (fun x => solveMazeDFS fuel x c r)
                = fun x => eraseLog (solveMazeDFSTraced fuel x c r) := by
              intro c r; funext x; exact ih x c r
            simp only [e, orElse_eraseLog]
            generalize orElseTraced _ _ _ = x
            rcases x with _ | ⟨_ | _, m2, log⟩ <;> simp [eraseLog]

/-- A result of the solver is a result of the instrumented solver, with some log. -/
theorem traced_of_solve {fuel : Nat} {m : maze_t} {c r : Int} {b : Bool} {m2 : maze_t}
    (h : solveMazeDFS fuel m c r = some (b, m2)) :
    ∃ log, solveMazeDFSTraced fuel m c r = some (b, m2, log) := by
  rw [solveMazeDFS_eq_eraseLog] at h
  rcases hx : solveMazeDFSTraced fuel m c r with _ | ⟨b3, m3, log3⟩
  · rw [hx] at h; cases h
  · rw [hx] at h
    simp only [eraseLog, Option.some.injEq, Prod.mk.injEq] at h
    obtain ⟨rfl, rfl⟩ := h
    exact ⟨log3, rfl⟩

theorem solve_of_traced {fuel : Nat} {m : maze_t} {c r : Int} {b : Bool} {m2 : maze_t}
    {log : List Event} (h : solveMazeDFSTraced fuel m c r = some (b, m2, log)) :
    solveMazeDFS fuel m c r = some (b, m2) := by
  rw [solveMazeDFS_eq_eraseLog, h]
  rfl

/-! ## More recursion depth does not change a result -/

theorem orElseTraced_mono {f1 f2 g1 g2 : maze_t → Traced}
    (h1 : ∀ m x, f1 m = some x → g1 m = some x)
    (h2 : ∀ m x, f2 m = some x → g2 m = some x)
    {m : maze_t} {x : Bool × maze_t × List Event}
    (h : orElseTraced f1 f2 m = some x) : orElseTraced g1 g2 m = some x := by
  unfold orElseTraced at h ⊢
  rcases e1 : f1 m with _ | ⟨_ | _, m1, log1⟩
  · rw [e1] at h; cases h
  · rw [e1] at h
    rw [h1 _ _ e1]
    simp only at h ⊢
    rcases e2 : f2 m1 with _ | ⟨b2, m3, log2⟩
    · rw [e2] at h; cases h
    · rw [e2] at h
      rw [h2 _ _ e2]
      exact h
  · rw [e1] at h
    rw [h1 _ _ e1]
    exact h

theorem tryAll_mono {fuel : Nat}
    (ih : ∀ m c r x, solveMazeDFSTraced fuel m c r = some x →
      solveMazeDFSTraced (fuel + 1) m c r = some x)
    {c r : Int} {m : maze_t} {x : Bool × maze_t × List Event}
    (h : tryAll fuel c r m = some x) : tryAll (fuel + 1) c r m = some x := by
  unfold tryAll at h ⊢
  refine orElseTraced_mono (fun m x h => ih _ _ _ _ h) ?_ h
  intro m x h
  refine orElseTraced_mono (fun m x h => ih _ _ _ _ h) ?_ h
  intro m x h
  exact orElseTraced_mono (fun m x h => ih _ _ _ _ h) (fun m x h => ih _ _ _ _ h) h

theorem traced_mono_succ :
    ∀ fuel m c r x, solveMazeDFSTraced fuel m c r = some x →
      solveMazeDFSTraced (fuel + 1) m c r = some x := by
  intro fuel
  induction fuel with
  | zero => intro m c r x h; simp [solveMazeDFSTraced] at h
  | succ fuel ih =>
    intro m c r x h
    by_cases hoob : c < 0 ∨ c ≥ m.width ∨ r < 0 ∨ r ≥ m.height
    · rw [traced_oob fuel hoob] at h
      rw [traced_oob (fuel + 1) hoob]; exact h
    · have hin : InBounds m c r := by unfold InBounds; omega
      rcases hcell : cellAt m c r with _ | cur
      · rw [solveMazeDFSTraced, if_neg hoob, hcell] at h
        cases h
      · by_cases hE : cur = 'E'
        · subst hE
          rw [traced_goal fuel hin hcell] at h
          rw [traced_goal (fuel + 1) hin hcell]; exact h
        · by_cases hO : cur = ' '
          · subst hO
            rw [traced_open fuel hin hcell] at h
            rw [traced_open (fuel + 1) hin hcell]
            rcases hall : tryAll fuel c r (setCell m c r '*') with _ | y
            · rw [hall] at h; cases h
            · rw [hall] at h
              rw [tryAll_mono ih hall]
              exact h
          · by_cases hS : cur = 'S'
            · subst hS
              rw [traced_start fuel hin hcell] at h
              rw [traced_start (fuel + 1) hin hcell]
              rcases hall : tryAll fuel c r m with _ | y
              · rw [hall] at h; cases h
              · rw [hall] at h
                rw [tryAll_mono ih hall]
                exact h
            · rw [traced_blocked fuel hin hcell hE hO hS] at h
              rw [traced_blocked (fuel + 1) hin hcell hE hO hS]; exact h

theorem traced_mono {fuel fuel2 : Nat} (hle : fuel ≤ fuel2) {m : maze_t} {c r : Int}
    {x : Bool × maze_t × List Event} (h : solveMazeDFSTraced fuel m c r = some x) :
    solveMazeDFSTraced fuel2 m c r = some x := by
  induction hle with
  | refl => exact h
  | step _ ih => exact traced_mono_succ _ _ _ _ _ ih

theorem solve_mono {fuel fuel2 : Nat} (hle : fuel ≤ fuel2) {m : maze_t} {c r : Int}
    {x : Bool × maze_t} (h : solveMazeDFS fuel m c r = some x) :
    solveMazeDFS fuel2 m c r = some x := by
  obtain ⟨b, m2⟩ := x
  obtain ⟨log, hl⟩ := traced_of_solve h
  exact solve_of_traced (traced_mono hle hl)

/-- A call has at most one result, whatever the recursion depth. -/
theorem returns_unique {m : maze_t} {c r : Int} {fuel fuel2 : Nat}
    {x y : Bool × maze_t × List Event}
    (h1 : solveMazeDFSTraced fuel m c r = some x)
    (h2 : solveMazeDFSTraced fuel2 m c r = some y) : x = y := by
  have a := traced_mono (Nat.le_max_left fuel fuel2) h1
  have b := traced_mono (Nat.le_max_right fuel fuel2) h2
  rw [a] at b
  exact Option.some.inj b

/-! ## What a call may change -/

theorem Changes.refl (b : Bool) (m : maze_t) : Changes b m m :=
  ⟨rfl, rfl, rfl, rfl, rfl, rfl, fun _ _ => Or.inl rfl⟩

theorem Changes.weaken {b : Bool} {m m2 : maze_t} (h : Changes b m m2) : Changes true m m2 := by
  refine ⟨h.width, h.height, h.startColumn, h.startRow, h.endColumn, h.endRow, ?_⟩
  intro c r
  rcases h.cell c r with h1 | ⟨h1, h2 | ⟨_, h2⟩⟩
  · exact Or.inl h1
  · exact Or.inr ⟨h1, Or.inl h2⟩
  · exact Or.inr ⟨h1, Or.inr ⟨rfl, h2⟩⟩

theorem Changes.trans {b b2 : Bool} {m m1 m2 : maze_t} (h1 : Changes b m m1)
    (h2 : Changes b2 m1 m2) (hb : b = true → b2 = true) : Changes b2 m m2 := by
  refine ⟨h2.width.trans h1.width, h2.height.trans h1.height,
    h2.startColumn.trans h1.startColumn, h2.startRow.trans h1.startRow,
    h2.endColumn.trans h1.endColumn, h2.endRow.trans h1.endRow, ?_⟩
  intro c r
  rcases h1.cell c r with e1 | ⟨o1, t1 | ⟨bt, s1⟩⟩
  · rw [← e1]; exact h2.cell c r
  · rcases h2.cell c r with e2 | ⟨o2, _⟩
    · exact Or.inr ⟨o1, Or.inl (e2.trans t1)⟩
    · rw [t1] at o2; cases o2
  · rcases h2.cell c r with e2 | ⟨o2, _⟩
    · exact Or.inr ⟨o1, Or.inr ⟨hb bt, e2.trans s1⟩⟩
    · rw [s1] at o2; cases o2

/-- A cell that is not open is not changed. -/
theorem Changes.keep {b : Bool} {m m2 : maze_t} (h : Changes b m m2) {c r : Int}
    (hne : cellAt m c r ≠ some ' ') : cellAt m2 c r = cellAt m c r := by
  rcases h.cell c r with e | ⟨o, _⟩
  · exact e
  · exact absurd o hne

/-- A cell that is open afterwards was open before. -/
theorem Changes.open_before {b : Bool} {m m2 : maze_t} (h : Changes b m m2) {c r : Int}
    (ho : cellAt m2 c r = some ' ') : cellAt m c r = some ' ' := by
  rcases h.cell c r with e | ⟨o, _⟩
  · rw [← e]; exact ho
  · exact o

/-- A character other than the three the solver handles sits where it sat. -/
theorem Changes.same_of_after {b : Bool} {m m2 : maze_t} (h : Changes b m m2) {c r : Int}
    {a : Char} (ha : cellAt m2 c r = some a) (h1 : a ≠ '~') (h2 : a ≠ '*') :
    cellAt m c r = some a := by
  rcases h.cell c r with e | ⟨_, t | ⟨_, s⟩⟩
  · rw [← e]; exact ha
  · rw [t] at ha; exact absurd (Option.some.inj ha).symm h1
  · rw [s] at ha; exact absurd (Option.some.inj ha).symm h2

theorem changes_setCell_star {m : maze_t} {c r : Int} (h : cellAt m c r = some ' ') :
    Changes true m (setCell m c r '*') := by
  obtain ⟨hc, hr⟩ := cellAt_nonneg h
  refine ⟨setCell_width .., setCell_height .., setCell_startColumn .., setCell_startRow ..,
    setCell_endColumn .., setCell_endRow .., ?_⟩
  intro c2 r2
  by_cases hp : c2 = c ∧ r2 = r
  · obtain ⟨rfl, rfl⟩ := hp
    exact Or.inr ⟨h, Or.inr ⟨rfl, cellAt_setCell_same '*' h⟩⟩
  · left
    apply cellAt_setCell_other '*' hc hr
    by_cases hcc : c2 = c
    · right; intro hrr; exact hp ⟨hcc, hrr⟩
    · left; exact hcc

theorem tried_changes {Q : maze_t → Int → Int → Bool → maze_t → List Event → Prop}
    (hQ : ∀ m c r b m2 log, Q m c r b m2 log → Changes b m m2)
    {ps : List (Int × Int)} {m : maze_t} {b : Bool} {m2 : maze_t} {log : List Event}
    (h : Tried Q ps m b m2 log) : Changes b m m2 := by
  induction h with
  | nil m => exact Changes.refl _ _
  | found h => exact hQ _ _ _ _ _ _ h
  | next h _ ih => exact Changes.trans (hQ _ _ _ _ _ _ h) ih (fun e => by cases e)

/-- The frame of one visit of an open cell that fails: the cell goes to `'~'`. -/
theorem changes_failed {m m2 : maze_t} {c r : Int} (h : cellAt m c r = some ' ')
    (hch : Changes false (setCell m c r '*') m2) :
    Changes false m (setCell m2 c r '~') ∧ cellAt m2 c r = some '*' := by
  obtain ⟨hc, hr⟩ := cellAt_nonneg h
  have hstar : cellAt (setCell m c r '*') c r = some '*' := cellAt_setCell_same '*' h
  have hm2 : cellAt m2 c r = some '*' := by
    rw [hch.keep (by rw [hstar]; decide)]; exact hstar
  refine ⟨⟨?_, ?_, ?_, ?_, ?_, ?_, ?_⟩, hm2⟩
  · rw [setCell_width, hch.width, setCell_width]
  · rw [setCell_height, hch.height, setCell_height]
  · rw [setCell_startColumn, hch.startColumn, setCell_startColumn]
  · rw [setCell_startRow, hch.startRow, setCell_startRow]
  · rw [setCell_endColumn, hch.endColumn, setCell_endColumn]
  · rw [setCell_endRow, hch.endRow, setCell_endRow]
  · intro c2 r2
    by_cases hp : c2 = c ∧ r2 = r
    · obtain ⟨rfl, rfl⟩ := hp
      exact Or.inr ⟨h, Or.inl (cellAt_setCell_same '~' hm2)⟩
    · have hne : c2 ≠ c ∨ r2 ≠ r := by
        by_cases hcc : c2 = c
        · right; intro hrr; exact hp ⟨hcc, hrr⟩
        · left; exact hcc
      rw [cellAt_setCell_other '~' hc hr hne]
      have e := cellAt_setCell_other (m := m) '*' hc hr hne
      rcases hch.cell c2 r2 with e1 | ⟨o1, t1 | ⟨bt, _⟩⟩
      · left; rw [e1, e]
      · right; rw [e] at o1; exact ⟨o1, Or.inl t1⟩
      · cases bt

/-- The frame of one visit of an open cell that succeeds: the cell keeps `'*'`. -/
theorem changes_found {m m2 : maze_t} {c r : Int} (h : cellAt m c r = some ' ')
    (hch : Changes true (setCell m c r '*') m2) :
    Changes true m m2 ∧ cellAt m2 c r = some '*' := by
  have hstar : cellAt (setCell m c r '*') c r = some '*' := cellAt_setCell_same '*' h
  have hm2 : cellAt m2 c r = some '*' := by
    rw [hch.keep (by rw [hstar]; decide)]; exact hstar
  exact ⟨Changes.trans (changes_setCell_star h) hch (fun _ => rfl), hm2⟩

/-- Every call that returns respects the frame. -/
theorem traced_changes {fuel : Nat} {m : maze_t} {c r : Int} {b : Bool} {m2 : maze_t}
    {log : List Event} (h : solveMazeDFSTraced fuel m c r = some (b, m2, log)) :
    Changes b m m2 := by
  refine solve_induction (fun m _ _ b m2 _ => Changes b m m2) ?_ ?_ ?_ ?_ ?_ ?_
    fuel m c r b m2 log h
  · intro m c r _; exact Changes.refl _ _
  · intro m c r _ _; exact Changes.refl _ _
  · intro m c r cur _ _ _ _ _; exact Changes.refl _ _
  · intro m c r m2 log _ hcell ht
    exact (changes_found hcell (tried_changes (fun _ _ _ _ _ _ q => q.2) ht)).1
  · intro m c r m2 log _ hcell ht
    exact (changes_failed hcell (tried_changes (fun _ _ _ _ _ _ q => q.2) ht)).1
  · intro m c r b m2 log _ _ ht
    exact tried_changes (fun _ _ _ _ _ _ q => q.2) ht

theorem returns_changes {m : maze_t} {c r : Int} {b : Bool} {m2 : maze_t}
    {log : List Event} (h : Returns m c r b m2 log) : Changes b m m2 := by
  obtain ⟨fuel, hf⟩ := h
  exact traced_changes hf

theorem solve_changes {fuel : Nat} {m : maze_t} {c r : Int} {b : Bool} {m2 : maze_t}
    (h : solveMazeDFS fuel m c r = some (b, m2)) : Changes b m m2 := by
  obtain ⟨log, hl⟩ := traced_of_solve h
  exact traced_changes hl

/-- The frame of the calls made from one cell. -/
theorem tried_returns_changes
    {Q : maze_t → Int → Int → Bool → maze_t → List Event → Prop}
    {ps : List (Int × Int)} {m : maze_t} {b : Bool} {m2 : maze_t} {log : List Event}
    (h : Tried (fun m c r b m2 log => Returns m c r b m2 log ∧ Q m c r b m2 log)
      ps m b m2 log) : Changes b m m2 :=
  tried_changes (fun _ _ _ _ _ _ q => returns_changes q.1) h

/-! ## Termination -/

theorem inside_of_wellFormed {m : maze_t} (h : WellFormed m) : Inside m := by
  intro c r hin
  obtain ⟨h1, h2, h3, h4⟩ := hin
  exact cellAt_isSome_of_wellFormed h h1 h2 h3 h4

theorem uniqueStart_of_count {m : maze_t} (h : countChar m 'S' = 1) : UniqueStart m :=
  fun _ _ _ _ h1 h2 => unique_of_countChar_one h h1 h2

theorem Changes.inside {b : Bool} {m m2 : maze_t} (h : Changes b m m2) (hi : Inside m) :
    Inside m2 := by
  intro c r hin
  have hin2 : InBounds m c r := by
    unfold InBounds at hin ⊢
    rw [h.width, h.height] at hin
    exact hin
  obtain ⟨a, ha⟩ := hi c r hin2
  rcases h.cell c r with e | ⟨_, t | ⟨_, s⟩⟩
  · exact ⟨a, e.trans ha⟩
  · exact ⟨_, t⟩
  · exact ⟨_, s⟩

theorem Changes.uniqueStart {b : Bool} {m m2 : maze_t} (h : Changes b m m2)
    (hu : UniqueStart m) : UniqueStart m2 := by
  intro c r c2 r2 h1 h2
  exact hu c r c2 r2 (h.same_of_after h1 (by decide) (by decide))
    (h.same_of_after h2 (by decide) (by decide))

theorem countOpen_setCell_star {m : maze_t} {c r : Int} (h : cellAt m c r = some ' ') :
    countChar (setCell m c r '*') ' ' + 1 = countChar m ' ' := by
  have := countChar_setCell ' ' '*' h
  simpa using this

theorem countOpen_setCell_tilde {m : maze_t} {c r : Int} (h : cellAt m c r = some '*') :
    countChar (setCell m c r '~') ' ' = countChar m ' ' := by
  have := countChar_setCell ' ' '~' h
  simpa using this

theorem tried_countOpen {Q : maze_t → Int → Int → Bool → maze_t → List Event → Prop}
    (hQ : ∀ m c r b m2 log, Q m c r b m2 log → countChar m2 ' ' ≤ countChar m ' ')
    {ps : List (Int × Int)} {m : maze_t} {b : Bool} {m2 : maze_t} {log : List Event}
    (h : Tried Q ps m b m2 log) : countChar m2 ' ' ≤ countChar m ' ' := by
  induction h with
  | nil m => exact Nat.le_refl _
  | found h => exact hQ _ _ _ _ _ _ h
  | next h _ ih => exact Nat.le_trans ih (hQ _ _ _ _ _ _ h)

/-- A call never increases the number of open cells. -/
theorem traced_countOpen {fuel : Nat} {m : maze_t} {c r : Int} {b : Bool} {m2 : maze_t}
    {log : List Event} (h : solveMazeDFSTraced fuel m c r = some (b, m2, log)) :
    countChar m2 ' ' ≤ countChar m ' ' := by
  refine solve_induction (fun m _ _ _ m2 _ => countChar m2 ' ' ≤ countChar m ' ')
    ?_ ?_ ?_ ?_ ?_ ?_ fuel m c r b m2 log h
  · intro m c r _; exact Nat.le_refl _
  · intro m c r _ _; exact Nat.le_refl _
  · intro m c r cur _ _ _ _ _; exact Nat.le_refl _
  · intro m c r m2 log _ hcell ht
    have h1 := tried_countOpen (fun _ _ _ _ _ _ q => q.2) ht
    have h2 := countOpen_setCell_star hcell
    omega
  · intro m c r m2 log _ hcell ht
    have h1 := tried_countOpen (fun _ _ _ _ _ _ q => q.2) ht
    have h2 := countOpen_setCell_star hcell
    have h3 := (changes_failed hcell (tried_returns_changes ht)).2
    rw [countOpen_setCell_tilde h3]
    omega
  · intro m c r b m2 log _ _ ht
    exact tried_countOpen (fun _ _ _ _ _ _ q => q.2) ht

theorem orElseTraced_total (P : maze_t → Prop) {f1 f2 : maze_t → Traced}
    (h1 : ∀ m, P m → ∃ x, f1 m = some x)
    (hP : ∀ m b m2 log, P m → f1 m = some (b, m2, log) → P m2)
    (h2 : ∀ m, P m → ∃ x, f2 m = some x) :
    ∀ m, P m → ∃ x, orElseTraced f1 f2 m = some x := by
  intro m hm
  obtain ⟨⟨b, m1, log1⟩, e1⟩ := h1 m hm
  unfold orElseTraced
  rw [e1]
  cases b with
  | true => exact ⟨_, rfl⟩
  | false =>
    obtain ⟨⟨b2, m3, log2⟩, e2⟩ := h2 m1 (hP _ _ _ _ hm e1)
    simp only
    rw [e2]
    exact ⟨_, rfl⟩

theorem orElseTraced_preserves (P : maze_t → Prop) {f1 f2 : maze_t → Traced}
    (hP1 : ∀ m b m2 log, P m → f1 m = some (b, m2, log) → P m2)
    (hP2 : ∀ m b m2 log, P m → f2 m = some (b, m2, log) → P m2) :
    ∀ m b m2 log, P m → orElseTraced f1 f2 m = some (b, m2, log) → P m2 := by
  intro m b m2 log hm h
  unfold orElseTraced at h
  rcases e1 : f1 m with _ | ⟨_ | _, m1, log1⟩
  · rw [e1] at h; cases h
  · rw [e1] at h
    simp only at h
    rcases e2 : f2 m1 with _ | ⟨b2, m3, log2⟩
    · rw [e2] at h; cases h
    · rw [e2] at h
      simp only [Option.some.injEq, Prod.mk.injEq] at h
      obtain ⟨rfl, rfl, rfl⟩ := h
      exact hP2 _ _ _ _ (hP1 _ _ _ _ hm e1) e2
  · rw [e1] at h
    simp only [Option.some.injEq, Prod.mk.injEq] at h
    obtain ⟨rfl, rfl, rfl⟩ := h
    exact hP1 _ _ _ _ hm e1

/-- The four calls made from a cell all return when each of them returns on
every maze satisfying an invariant of the calls. -/
theorem tryAll_total (P : maze_t → Prop) {fuel : Nat} {c r : Int}
    (hP : ∀ m c r b m2 log, P m → solveMazeDFSTraced fuel m c r = some (b, m2, log) → P m2)
    (hcall : ∀ m, P m → ∀ p ∈ dirs c r, ∃ x, solveMazeDFSTraced fuel m p.1 p.2 = some x) :
    ∀ m, P m → ∃ x, tryAll fuel c r m = some x := by
  unfold tryAll
  have hd : ∀ p, p ∈ dirs c r ↔
      p = (c + 1, r) ∨ p = (c, r + 1) ∨ p = (c - 1, r) ∨ p = (c, r - 1) := by
    intro p; simp [dirs]
  refine orElseTraced_total P
    (fun m hm => hcall m hm (c + 1, r) ((hd _).2 (Or.inl rfl)))
    (fun m b m2 log hm h => hP _ _ _ _ _ _ hm h) ?_
  refine orElseTraced_total P
    (fun m hm => hcall m hm (c, r + 1) ((hd _).2 (Or.inr (Or.inl rfl))))
    (fun m b m2 log hm h => hP _ _ _ _ _ _ hm h) ?_
  refine orElseTraced_total P
    (fun m hm => hcall m hm (c - 1, r) ((hd _).2 (Or.inr (Or.inr (Or.inl rfl)))))
    (fun m b m2 log hm h => hP _ _ _ _ _ _ hm h) ?_
  exact fun m hm => hcall m hm (c, r - 1) ((hd _).2 (Or.inr (Or.inr (Or.inr rfl))))

theorem not_start_of_dirs {m : maze_t} (hu : UniqueStart m) {c r : Int}
    (hs : cellAt m c r = some 'S') {p : Int × Int} (hp : p ∈ dirs c r) :
    cellAt m p.1 p.2 ≠ some 'S' := by
  intro h
  have := hu c r p.1 p.2 hs h
  simp only [dirs, List.mem_cons, List.mem_singleton, List.not_mem_nil, or_false] at hp
  rcases hp with rfl | rfl | rfl | rfl <;> simp at this

theorem bounded_step {k fuel : Nat} {m : maze_t} {c r : Int} {b : Bool} {m2 : maze_t}
    {log : List Event} (hm : Bounded k m)
    (h : solveMazeDFSTraced fuel m c r = some (b, m2, log)) : Bounded k m2 := by
  have hch := traced_changes h
  exact ⟨hch.inside hm.1, hch.uniqueStart hm.2.1, Nat.le_trans (traced_countOpen h) hm.2.2⟩

/-- A call that is not on the start cell returns at depth `2 * k + 1` when every
call on a maze with fewer than `k` open cells returns at depth `2 * k`. -/
theorem total_nonstart (k : Nat)
    (hrec : ∀ m c r, Inside m → UniqueStart m → countChar m ' ' + 1 ≤ k →
      ∃ x, solveMazeDFSTraced (2 * k) m c r = some x) :
    ∀ m c r, Bounded k m → cellAt m c r ≠ some 'S' →
      ∃ x, solveMazeDFSTraced (2 * k + 1) m c r = some x := by
  intro m c r hm hns
  by_cases hoob : c < 0 ∨ c ≥ m.width ∨ r < 0 ∨ r ≥ m.height
  · exact ⟨_, traced_oob _ hoob⟩
  · have hin : InBounds m c r := by unfold InBounds; omega
    obtain ⟨cur, hcell⟩ := hm.1 c r hin
    by_cases hE : cur = 'E'
    · subst hE; exact ⟨_, traced_goal _ hin hcell⟩
    · by_cases hO : cur = ' '
      · subst hO
        rw [traced_open _ hin hcell]
        have hmark : Bounded k (setCell m c r '*') ∧
            countChar (setCell m c r '*') ' ' + 1 ≤ k := by
          have hch := changes_setCell_star hcell
          have hcnt := countOpen_setCell_star hcell
          have := hm.2.2
          exact ⟨⟨hch.inside hm.1, hch.uniqueStart hm.2.1, by omega⟩, by omega⟩
        obtain ⟨⟨b, m2, log⟩, hx⟩ := @tryAll_total
          (fun x => Bounded k x ∧ countChar x ' ' + 1 ≤ k) (2 * k) c r
          (fun x c r b x2 log hx h =>
            ⟨bounded_step hx.1 h, Nat.le_trans (Nat.succ_le_succ (traced_countOpen h)) hx.2⟩)
          (fun x hx p _ => hrec x p.1 p.2 hx.1.1 hx.1.2.1 hx.2)
          (setCell m c r '*') hmark
        rw [hx]
        cases b <;> exact ⟨_, rfl⟩
      · by_cases hS : cur = 'S'
        · subst hS; exact absurd hcell hns
        · exact ⟨_, traced_blocked _ hin hcell hE hO hS⟩

/-- Every call returns at depth `2 * k + 2` when every call that is not on the
start cell returns at depth `2 * k + 1`. -/
theorem total_any (k : Nat)
    (hrec : ∀ m c r, Bounded k m → cellAt m c r ≠ some 'S' →
      ∃ x, solveMazeDFSTraced (2 * k + 1) m c r = some x) :
    ∀ m c r, Bounded k m → ∃ x, solveMazeDFSTraced (2 * k + 2) m c r = some x := by
  intro m c r hm
  by_cases hs : cellAt m c r = some 'S'
  · by_cases hoob : c < 0 ∨ c ≥ m.width ∨ r < 0 ∨ r ≥ m.height
    · exact ⟨_, traced_oob _ hoob⟩
    · have hin : InBounds m c r := by unfold InBounds; omega
      rw [traced_start _ hin hs]
      obtain ⟨⟨b, m2, log⟩, hx⟩ := @tryAll_total
        (fun x => Bounded k x ∧ cellAt x c r = some 'S') (2 * k + 1) c r
        (fun x c2 r2 b x2 log hx h =>
          ⟨bounded_step hx.1 h, by
            rw [(traced_changes h).keep (by rw [hx.2]; decide)]; exact hx.2⟩)
        (fun x hx p hp => hrec x p.1 p.2 hx.1 (not_start_of_dirs hx.1.2.1 hx.2 hp))
        m ⟨hm, hs⟩
      rw [hx]
      exact ⟨_, rfl⟩
  · obtain ⟨x, hx⟩ := hrec m c r hm hs
    exact ⟨x, traced_mono_succ _ _ _ _ _ hx⟩

/-- With at most one start cell and `k` open cells at most, recursion depth
`2 * k + 2` suffices. -/
theorem traced_total :
    ∀ k m c r, Bounded k m → ∃ x, solveMazeDFSTraced (2 * k + 2) m c r = some x := by
  intro k
  induction k with
  | zero =>
    apply total_any 0
    apply total_nonstart 0
    intro m c r _ _ h
    omega
  | succ k ih =>
    apply total_any (k + 1)
    apply total_nonstart (k + 1)
    intro m c r hi hu hk
    have : 2 * (k + 1) = 2 * k + 2 := by ring
    rw [this]
    exact ih m c r ⟨hi, hu, by omega⟩

/-- A well-formed maze with exactly one start cell: every call returns, at any
recursion depth from `2 * (number of open cells) + 2` on. -/
theorem traced_terminates {m : maze_t} (hwf : WellFormed m) (hS : countChar m 'S' = 1)
    (c r : Int) :
    ∃ b m2 log, ∀ fuel, 2 * countChar m ' ' + 2 ≤ fuel →
      solveMazeDFSTraced fuel m c r = some (b, m2, log) := by
  obtain ⟨⟨b, m2, log⟩, hx⟩ := traced_total (countChar m ' ') m c r
    ⟨inside_of_wellFormed hwf, uniqueStart_of_count hS, Nat.le_refl _⟩
  exact ⟨b, m2, log, fun fuel hle => traced_mono hle hx⟩

/-! ## Reachability: a result 1 comes with a route -/

theorem adjacent_iff_dirs (c r : Int) (y : Int × Int) :
    adjacent (c, r) y ↔ y ∈ dirs c r := by
  obtain ⟨a, b⟩ := y
  simp only [adjacent, dirs, List.mem_cons, List.mem_singleton, List.not_mem_nil, or_false,
    Prod.mk.injEq]
  constructor
  · rintro (⟨h1, h2 | h2⟩ | ⟨h1, h2 | h2⟩)
    · left; exact ⟨h2, h1.symm⟩
    · right; right; left; exact ⟨h2, h1.symm⟩
    · right; left; exact ⟨h1.symm, h2⟩
    · right; right; right; exact ⟨h1.symm, h2⟩
  · rintro (⟨h1, h2⟩ | ⟨h1, h2⟩ | ⟨h1, h2⟩ | ⟨h1, h2⟩)
    · left; exact ⟨h2.symm, Or.inl h1⟩
    · right; exact ⟨h1.symm, Or.inl h2⟩
    · left; exact ⟨h2.symm, Or.inr h1⟩
    · right; exact ⟨h1.symm, Or.inr h2⟩

theorem walk_before {b : Bool} {m m2 : maze_t} (hch : Changes b m m2) {p q : Int × Int}
    (h : Walk m2 p q) : Walk m p q := by
  induction h with
  | here p => exact Walk.here p
  | step hp hadj _ ih =>
    refine Walk.step ?_ hadj ih
    rcases hp with hp | hp
    · exact Or.inl (hch.open_before hp)
    · exact Or.inr (hch.same_of_after hp (by decide) (by decide))

theorem reaches_before {b : Bool} {m m2 : maze_t} (hch : Changes b m m2) {p : Int × Int}
    (h : Reaches m2 p) : Reaches m p := by
  obtain ⟨q, hq, hw⟩ := h
  exact ⟨q, hch.same_of_after hq (by decide) (by decide), walk_before hch hw⟩

theorem tried_reaches {ps : List (Int × Int)} {m : maze_t} {b : Bool} {m2 : maze_t}
    {log : List Event}
    (h : Tried (fun m c r b m2 log => Returns m c r b m2 log ∧ (b = true → Reaches m (c, r)))
      ps m b m2 log) :
    b = true → ∃ p ∈ ps, Reaches m p := by
  induction h with
  | nil m => intro e; cases e
  | found h => intro _; exact ⟨_, List.mem_cons_self _ _, h.2 rfl⟩
  | next h _ ih =>
    intro e
    obtain ⟨p, hp, hr⟩ := ih e
    exact ⟨p, List.mem_cons_of_mem _ hp, reaches_before (returns_changes h.1) hr⟩

/-- Soundness of the search: a call that returns 1 was made on a cell from
which a walk of the entry maze leads to an end cell. -/
theorem traced_reaches {fuel : Nat} {m : maze_t} {c r : Int} {m2 : maze_t}
    {log : List Event} (h : solveMazeDFSTraced fuel m c r = some (true, m2, log)) :
    Reaches m (c, r) := by
  refine solve_induction (fun m c r b _ _ => b = true → Reaches m (c, r))
    ?_ ?_ ?_ ?_ ?_ ?_ fuel m c r true m2 log h rfl
  · intro m c r _ e; cases e
  · intro m c r _ hcell _; exact ⟨(c, r), hcell, Walk.here _⟩
  · intro m c r cur _ _ _ _ _ e; cases e
  · intro m c r m2 log _ hcell ht _
    obtain ⟨p, hp, hr⟩ := tried_reaches ht rfl
    obtain ⟨q, hq, hw⟩ := reaches_before (changes_setCell_star hcell) hr
    exact ⟨q, hq, Walk.step (Or.inl hcell) ((adjacent_iff_dirs c r p).2 hp) hw⟩
  · intro m c r m2 log _ _ _ e; cases e
  · intro m c r b m2 log _ hcell ht e
    obtain ⟨p, hp, q, hq, hw⟩ := tried_reaches ht e
    exact ⟨q, hq, Walk.step (Or.inr hcell) ((adjacent_iff_dirs c r p).2 hp) hw⟩

theorem openRoute_cons {m : maze_t} {p x q : Int × Int} (hadj : adjacent p x)
    (hx : cellAt m x.1 x.2 = some ' ') (h : OpenRoute m x q) : OpenRoute m p q := by
  obtain ⟨mid, hmid, hchain⟩ := h
  refine ⟨x :: mid, ?_, ?_⟩
  · intro y hy
    rcases List.mem_cons.1 hy with rfl | hy
    · exact hx
    · exact hmid y hy
  · exact List.Chain.cons hadj hchain

theorem openRoute_single {m : maze_t} {p q : Int × Int} (hadj : adjacent p q) :
    OpenRoute m p q :=
  ⟨[], ⟨fun x hx => absurd hx (List.not_mem_nil x), List.Chain.cons hadj List.Chain.nil⟩⟩

/-- A walk to `q` contains a route to `q`, from its first cell or from the start cell. -/
theorem Walk.route {m : maze_t} (hu : UniqueStart m) {s : Int × Int}
    (hs : cellAt m s.1 s.2 = some 'S') {p q : Int × Int} (h : Walk m p q) :
    p = q ∨
      ((cellAt m p.1 p.2 = some ' ' ∨ cellAt m p.1 p.2 = some 'S') ∧ OpenRoute m p q) ∨
      OpenRoute m s q := by
  induction h with
  | here p => exact Or.inl rfl
  | @step p x q hp hadj hw ih =>
    rcases ih with rfl | ⟨hx | hx, hr⟩ | hr
    · exact Or.inr (Or.inl ⟨hp, openRoute_single hadj⟩)
    · exact Or.inr (Or.inl ⟨hp, openRoute_cons hadj hx hr⟩)
    · have hxs := hu s.1 s.2 x.1 x.2 hs hx
      have : x = s := Prod.ext hxs.1 hxs.2
      rw [this] at hr
      exact Or.inr (Or.inr hr)
    · exact Or.inr (Or.inr hr)

/-- A call on the start cell that returns 1: a route leads from the start cell
to an end cell through cells that were open at entry. -/
theorem traced_route {fuel : Nat} {m : maze_t} {c r : Int} {m2 : maze_t}
    {log : List Event} (hu : UniqueStart m) (hs : cellAt m c r = some 'S')
    (h : solveMazeDFSTraced fuel m c r = some (true, m2, log)) :
    ∃ q : Int × Int, cellAt m q.1 q.2 = some 'E' ∧ OpenRoute m (c, r) q := by
  obtain ⟨q, hq, hw⟩ := traced_reaches h
  refine ⟨q, hq, ?_⟩
  rcases hw.route hu (s := (c, r)) hs with e | ⟨_, hr⟩ | hr
  · rw [← e] at hq
    rw [hs] at hq
    cases hq
  · exact hr
  · exact hr

/-! ## Reachability: a result 0 leaves no route -/

theorem fits_of_wellFormed {m : maze_t} (h : WellFormed m) : Fits m := by
  intro c r a hcell
  obtain ⟨hc, hr⟩ := cellAt_nonneg hcell
  obtain ⟨cs, hrow, hcol⟩ := cellAt_rows hcell
  obtain ⟨hh, hw⟩ := h
  have h1 : r.toNat < m.cells.length := (List.getElem?_eq_some_iff.1 hrow).1
  have h2 : c.toNat < cs.length := (List.getElem?_eq_some_iff.1 hcol).1
  have h3 := hw cs (List.getElem?_mem hrow)
  unfold InBounds
  omega

theorem Changes.fits {b : Bool} {m m2 : maze_t} (h : Changes b m m2) (hf : Fits m) :
    Fits m2 := by
  intro c r a hcell
  have : ∃ a2, cellAt m c r = some a2 := by
    rcases h.cell c r with e | ⟨o, _⟩
    · exact ⟨a, e ▸ hcell⟩
    · exact ⟨_, o⟩
  obtain ⟨a2, ha2⟩ := this
  have hin := hf c r a2 ha2
  unfold InBounds at hin ⊢
  rw [h.width, h.height]
  exact hin

theorem Dead.after {b : Bool} {m m2 : maze_t} (hch : Changes b m m2) {p : Int × Int}
    (h : Dead m p) : Dead m2 p :=
  ⟨fun e => h.1 (hch.open_before e),
   fun e => h.2 (hch.same_of_after e (by decide) (by decide))⟩

theorem Dead.setCell_tilde {m : maze_t} {c r : Int} (hc : 0 ≤ c) (hr : 0 ≤ r)
    (hcell : cellAt m c r = some '*') {p : Int × Int} (h : Dead m p) :
    Dead (setCell m c r '~') p := by
  by_cases hp : p.1 = c ∧ p.2 = r
  · unfold Dead
    rw [hp.1, hp.2, cellAt_setCell_same '~' hcell]
    exact ⟨by decide, by decide⟩
  · have hne : p.1 ≠ c ∨ p.2 ≠ r := by
      by_cases hcc : p.1 = c
      · right; intro hrr; exact hp ⟨hcc, hrr⟩
      · left; exact hcc
    unfold Dead
    rw [cellAt_setCell_other '~' hc hr hne]
    exact h

theorem closed_refl (m : maze_t) : Closed m m := by
  intro x h1 h2
  rw [h1] at h2
  cases h2

theorem tried_exhausted {ps : List (Int × Int)} {m : maze_t} {b : Bool} {m2 : maze_t}
    {log : List Event}
    (h : Tried (fun m c r b m2 log => Returns m c r b m2 log ∧
      (Fits m → b = false → Exhausted m c r m2)) ps m b m2 log) :
    Fits m → b = false → Closed m m2 ∧ ∀ p ∈ ps, Dead m2 p := by
  induction h with
  | nil m => intro _ _; exact ⟨closed_refl m, fun p hp => by cases hp⟩
  | found h => intro _ e; cases e
  | @next p ps m m1 m2 b log1 log2 h ht ih =>
    intro hf e
    have hch1 := returns_changes h.1
    have hch2 := tried_returns_changes ht
    obtain ⟨hcl1, hd1, _⟩ := h.2 hf rfl
    obtain ⟨hcl2, hd2⟩ := ih (hch1.fits hf) e
    refine ⟨?_, ?_⟩
    · intro x hx1 hx2 y hadj
      rcases hch1.cell x.1 x.2 with e1 | ⟨_, t1 | ⟨bt, _⟩⟩
      · exact hcl2 x (e1.trans hx1) hx2 y hadj
      · exact (hcl1 x hx1 t1 y hadj).after hch2
      · cases bt
    · intro q hq
      rcases List.mem_cons.1 hq with rfl | hq
      · exact hd1.after hch2
      · exact hd2 q hq

/-- Completeness invariant: a call that returns 0 leaves its cell dead, and
every cell it rejected surrounded by dead cells. -/
theorem traced_exhausted {fuel : Nat} {m : maze_t} {c r : Int} {m2 : maze_t}
    {log : List Event} (hf : Fits m)
    (h : solveMazeDFSTraced fuel m c r = some (false, m2, log)) :
    Exhausted m c r m2 := by
  refine solve_induction
    (fun m c r b m2 _ => Fits m → b = false → Exhausted m c r m2)
    ?_ ?_ ?_ ?_ ?_ ?_ fuel m c r false m2 log h hf rfl
  · intro m c r hoob hf _
    have hnone : cellAt m c r = none := by
      rcases hcell : cellAt m c r with _ | a
      · rfl
      · exact absurd hoob (not_oob_of_inBounds (hf c r a hcell))
    refine ⟨closed_refl m, ⟨?_, ?_⟩, ?_⟩
    · show cellAt m c r ≠ some ' '
      rw [hnone]; exact fun e => by cases e
    · show cellAt m c r ≠ some 'E'
      rw [hnone]; exact fun e => by cases e
    · intro hs; rw [hnone] at hs; cases hs
  · intro m c r _ _ _ e; cases e
  · intro m c r cur _ hcell hE hO hS _ _
    refine ⟨closed_refl m, ⟨?_, ?_⟩, ?_⟩
    · show cellAt m c r ≠ some ' '
      rw [hcell]; exact fun e => hO (Option.some.inj e)
    · show cellAt m c r ≠ some 'E'
      rw [hcell]; exact fun e => hE (Option.some.inj e)
    · intro hs; rw [hcell] at hs; exact absurd (Option.some.inj hs) hS
  · intro m c r m2 log _ _ _ _ e; cases e
  · intro m c r m2 log _ hcell ht hf _
    obtain ⟨hc, hr⟩ := cellAt_nonneg hcell
    have hmark := changes_setCell_star hcell
    have hch := tried_returns_changes ht
    obtain ⟨hcl, hd⟩ := tried_exhausted ht (hmark.fits hf) rfl
    have hstar := (changes_failed hcell hch).2
    refine ⟨?_, ?_, ?_⟩
    · intro x hx1 hx2 y hadj
      by_cases hp : x.1 = c ∧ x.2 = r
      · have hxe : x = (c, r) := Prod.ext hp.1 hp.2
        rw [hxe] at hadj
        exact (hd y ((adjacent_iff_dirs c r y).1 hadj)).setCell_tilde hc hr hstar
      · have hne : x.1 ≠ c ∨ x.2 ≠ r := by
          by_cases hcc : x.1 = c
          · right; intro hrr; exact hp ⟨hcc, hrr⟩
          · left; exact hcc
        rw [cellAt_setCell_other '~' hc hr hne] at hx2
        have hx1m : cellAt (setCell m c r '*') x.1 x.2 = some ' ' := by
          rw [cellAt_setCell_other '*' hc hr hne]; exact hx1
        exact (hcl x hx1m hx2 y hadj).setCell_tilde hc hr hstar
    · show cellAt (setCell m2 c r '~') c r ≠ some ' ' ∧ cellAt (setCell m2 c r '~') c r ≠ some 'E'
      rw [cellAt_setCell_same '~' hstar]
      exact ⟨by decide, by decide⟩
    · intro hs; rw [hcell] at hs; cases hs
  · intro m c r b m2 log _ hcell ht hf e
    obtain ⟨hcl, hd⟩ := tried_exhausted ht hf e
    have hch := tried_returns_changes ht
    refine ⟨hcl, ?_, ?_⟩
    · show cellAt m2 c r ≠ some ' ' ∧ cellAt m2 c r ≠ some 'E'
      rw [hch.keep (by rw [hcell]; decide), hcell]
      exact ⟨by decide, by decide⟩
    · intro _ y hadj
      exact hd y ((adjacent_iff_dirs c r y).1 hadj)

/-- No route leaves a cell whose neighbours are dead, when rejected cells are closed. -/
theorem no_route_of_closed {m m2 : maze_t} (hch : Changes false m m2) (hcl : Closed m m2)
    {q : Int × Int} (hq : cellAt m q.1 q.2 = some 'E') :
    ∀ (mid : List (Int × Int)) (p : Int × Int), (∀ y, adjacent p y → Dead m2 y) →
      (∀ x ∈ mid, cellAt m x.1 x.2 = some ' ') → List.Chain adjacent p (mid ++ [q]) →
      False := by
  intro mid
  induction mid with
  | nil =>
    intro p hp _ hchain
    simp only [List.nil_append, List.chain_cons] at hchain
    have hd := hp q hchain.1
    apply hd.2
    rw [hch.keep (by rw [hq]; decide)]
    exact hq
  | cons x rest ih =>
    intro p hp hmid hchain
    simp only [List.cons_append, List.chain_cons] at hchain
    have hx := hmid x (List.mem_cons_self _ _)
    have hd := hp x hchain.1
    have hx2 : cellAt m2 x.1 x.2 = some '~' := by
      rcases hch.cell x.1 x.2 with e | ⟨_, t | ⟨bt, _⟩⟩
      · exact absurd (e.trans hx) hd.1
      · exact t
      · cases bt
    exact ih x (hcl x hx hx2) (fun y hy => hmid y (List.mem_cons_of_mem _ hy)) hchain.2

/-- A call on the start cell that returns 0: no route leads from the start cell
to an end cell through cells that were open at entry. -/
theorem traced_no_route {fuel : Nat} {m : maze_t} {c r : Int} {m2 : maze_t}
    {log : List Event} (hf : Fits m) (hs : cellAt m c r = some 'S')
    (h : solveMazeDFSTraced fuel m c r = some (false, m2, log))
    {q : Int × Int} (hq : cellAt m q.1 q.2 = some 'E') : ¬ OpenRoute m (c, r) q := by
  rintro ⟨mid, hmid, hchain⟩
  obtain ⟨hcl, _, hn⟩ := traced_exhausted hf h
  exact no_route_of_closed (traced_changes h) hcl hq mid (c, r) (hn hs) hmid hchain

/-! ## Logs: the order of the writes to a cell -/

theorem writesTo_nil (c r : Int) : writesTo [] c r = [] := rfl

theorem writesTo_append (l1 l2 : List Event) (c r : Int) :
    writesTo (l1 ++ l2) c r = writesTo l1 c r ++ writesTo l2 c r := by
  unfold writesTo
  exact List.filterMap_append _ _ _

theorem writesTo_visit (l : List Event) (c r c2 r2 : Int) :
    writesTo (Event.visit c2 r2 :: l) c r = writesTo l c r := by
  unfold writesTo
  rw [List.filterMap_cons]

theorem writesTo_write_same (l : List Event) (c r : Int) (old : Option Char) (new : Char) :
    writesTo (Event.write c r old new :: l) c r = (old, new) :: writesTo l c r := by
  unfold writesTo
  rw [List.filterMap_cons]
  simp

theorem writesTo_write_other (l : List Event) {c r c2 r2 : Int} (old : Option Char)
    (new : Char) (h : ¬ (c2 = c ∧ r2 = r)) :
    writesTo (Event.write c2 r2 old new :: l) c r = writesTo l c r := by
  unfold writesTo
  rw [List.filterMap_cons]
  simp [h]

theorem writeOrder_refl (m : maze_t) : WriteOrder m m [] :=
  fun _ _ => Or.inl ⟨rfl, rfl⟩

theorem writeOrder_append {m m1 m2 : maze_t} {l1 l2 : List Event}
    (h1 : WriteOrder m m1 l1) (h2 : WriteOrder m1 m2 l2) : WriteOrder m m2 (l1 ++ l2) := by
  intro c r
  rw [writesTo_append]
  rcases h1 c r with ⟨w1, e1⟩ | ⟨w1, o1, s1⟩ | ⟨w1, o1, s1⟩
  · rw [w1, List.nil_append, ← e1]
    exact h2 c r
  · rcases h2 c r with ⟨w2, e2⟩ | ⟨_, o2, _⟩ | ⟨_, o2, _⟩
    · rw [w1, w2, List.append_nil]
      exact Or.inr (Or.inl ⟨rfl, o1, e2.trans s1⟩)
    · rw [s1] at o2; cases o2
    · rw [s1] at o2; cases o2
  · rcases h2 c r with ⟨w2, e2⟩ | ⟨_, o2, _⟩ | ⟨_, o2, _⟩
    · rw [w1, w2, List.append_nil]
      exact Or.inr (Or.inr ⟨rfl, o1, e2.trans s1⟩)
    · rw [s1] at o2; cases o2
    · rw [s1] at o2; cases o2

theorem tried_writeOrder {Q : maze_t → Int → Int → Bool → maze_t → List Event → Prop}
    (hQ : ∀ m c r b m2 log, Q m c r b m2 log → WriteOrder m m2 log)
    {ps : List (Int × Int)} {m : maze_t} {b : Bool} {m2 : maze_t} {log : List Event}
    (h : Tried Q ps m b m2 log) : WriteOrder m m2 log := by
  induction h with
  | nil m => exact writeOrder_refl m
  | found h => exact hQ _ _ _ _ _ _ h
  | next h _ ih => exact writeOrder_append (hQ _ _ _ _ _ _ h) ih

theorem ne_cell {c r c2 r2 : Int} (hp : ¬ (c2 = c ∧ r2 = r)) : c2 ≠ c ∨ r2 ≠ r := by
  by_cases hcc : c2 = c
  · right; intro hrr; exact hp ⟨hcc, hrr⟩
  · left; exact hcc

/-- Writes of a visit of an open cell, up to the end of the calls made from it. -/
theorem writeOrder_mark {m m2 : maze_t} {c r : Int} {log : List Event}
    (hcell : cellAt m c r = some ' ') (h : WriteOrder (setCell m c r '*') m2 log) :
    WriteOrder m m2 (Event.visit c r :: Event.write c r (some ' ') '*' :: log) ∧
      writesTo log c r = [] ∧ cellAt m2 c r = some '*' := by
  obtain ⟨hc, hr⟩ := cellAt_nonneg hcell
  have hstar : cellAt (setCell m c r '*') c r = some '*' := cellAt_setCell_same '*' hcell
  have hown : writesTo log c r = [] ∧ cellAt m2 c r = some '*' := by
    rcases h c r with ⟨w, e⟩ | ⟨_, o, _⟩ | ⟨_, o, _⟩
    · exact ⟨w, e.trans hstar⟩
    · rw [hstar] at o; cases o
    · rw [hstar] at o; cases o
  refine ⟨?_, hown⟩
  intro c2 r2
  by_cases hp : c2 = c ∧ r2 = r
  · obtain ⟨rfl, rfl⟩ := hp
    rw [writesTo_visit, writesTo_write_same, hown.1]
    exact Or.inr (Or.inl ⟨rfl, hcell, hown.2⟩)
  · rw [writesTo_visit, writesTo_write_other _ _ _ (fun e => hp ⟨e.1.symm, e.2.symm⟩)]
    have e := cellAt_setCell_other (m := m) '*' hc hr (ne_cell hp)
    rw [← e]
    exact h c2 r2

/-- Every call that returns wrote to each cell in the permitted order. -/
theorem traced_writeOrder {fuel : Nat} {m : maze_t} {c r : Int} {b : Bool} {m2 : maze_t}
    {log : List Event} (h : solveMazeDFSTraced fuel m c r = some (b, m2, log)) :
    WriteOrder m m2 log := by
  refine solve_induction (fun m _ _ _ m2 log => WriteOrder m m2 log) ?_ ?_ ?_ ?_ ?_ ?_
    fuel m c r b m2 log h
  · intro m c r _; exact writeOrder_refl m
  · intro m c r _ _; exact writeOrder_refl m
  · intro m c r cur _ _ _ _ _; exact writeOrder_refl m
  · intro m c r m2 log _ hcell ht
    exact (writeOrder_mark hcell (tried_writeOrder (fun _ _ _ _ _ _ q => q.2) ht)).1
  · intro m c r m2 log _ hcell ht
    obtain ⟨hc, hr⟩ := cellAt_nonneg hcell
    obtain ⟨hwo, hw, hstar⟩ :=
      writeOrder_mark hcell (tried_writeOrder (fun _ _ _ _ _ _ q => q.2) ht)
    intro c2 r2
    have happ : Event.visit c r :: Event.write c r (some ' ') '*' ::
        (log ++ [Event.write c r (cellAt m2 c r) '~'])
        = (Event.visit c r :: Event.write c r (some ' ') '*' :: log)
          ++ [Event.write c r (cellAt m2 c r) '~'] := rfl
    rw [happ, writesTo_append]
    by_cases hp : c2 = c ∧ r2 = r
    · obtain ⟨rfl, rfl⟩ := hp
      rw [writesTo_visit, writesTo_write_same, hw, writesTo_write_same, writesTo_nil, hstar]
      exact Or.inr (Or.inr ⟨rfl, hcell, cellAt_setCell_same '~' hstar⟩)
    · rw [writesTo_write_other _ _ _ (fun e => hp ⟨e.1.symm, e.2.symm⟩), writesTo_nil,
        List.append_nil, cellAt_setCell_other '~' hc hr (ne_cell hp)]
      exact hwo c2 r2
  · intro m c r b m2 log _ _ ht
    intro c2 r2
    rw [writesTo_visit]
    exact tried_writeOrder (fun _ _ _ _ _ _ q => q.2) ht c2 r2

/-! ## Logs: counting visits -/

theorem visitCount_nil (c r : Int) : visitCount [] c r = 0 := rfl

theorem visitCount_append (l1 l2 : List Event) (c r : Int) :
    visitCount (l1 ++ l2) c r = visitCount l1 c r + visitCount l2 c r := by
  unfold visitCount
  exact List.count_append _ _ _

theorem visitCount_visit (l : List Event) (c r c2 r2 : Int) :
    visitCount (Event.visit c2 r2 :: l) c r
      = visitCount l c r + (if c2 = c ∧ r2 = r then 1 else 0) := by
  unfold visitCount
  rw [List.count_cons]
  simp

theorem visitCount_write (l : List Event) (c r c2 r2 : Int) (old : Option Char)
    (new : Char) : visitCount (Event.write c2 r2 old new :: l) c r = visitCount l c r := by
  unfold visitCount
  rw [List.count_cons]
  simp

theorem totalVisits_nil : totalVisits [] = 0 := rfl

theorem totalVisits_append (l1 l2 : List Event) :
    totalVisits (l1 ++ l2) = totalVisits l1 + totalVisits l2 := by
  unfold totalVisits
  rw [List.filter_append, List.length_append]

theorem totalVisits_visit (l : List Event) (c r : Int) :
    totalVisits (Event.visit c r :: l) = totalVisits l + 1 := by
  unfold totalVisits
  simp [Event.isVisit]

theorem totalVisits_write (l : List Event) (c r : Int) (old : Option Char) (new : Char) :
    totalVisits (Event.write c r old new :: l) = totalVisits l := by
  unfold totalVisits
  simp [Event.isVisit]

theorem Changes.startAt {b : Bool} {m m2 : maze_t} (h : Changes b m m2) {sc sr : Int}
    (hs : StartAt m sc sr) : StartAt m2 sc sr := by
  refine ⟨?_, ?_⟩
  · rw [h.keep (by rw [hs.1]; decide)]; exact hs.1
  · intro c r hc
    exact hs.2 c r (h.same_of_after hc (by decide) (by decide))

theorem Changes.not_start {b : Bool} {m m2 : maze_t} (h : Changes b m m2) {c r : Int}
    (hn : cellAt m c r ≠ some 'S') : cellAt m2 c r ≠ some 'S' :=
  fun e => hn (h.same_of_after e (by decide) (by decide))

theorem starWrites_append (l1 l2 : List Event) (c r : Int) :
    starWrites (l1 ++ l2) c r = starWrites l1 c r + starWrites l2 c r := by
  unfold starWrites
  rw [writesTo_append, List.count_append]

theorem nbrVisits_append (l1 l2 : List Event) (sc sr : Int) :
    nbrVisits (l1 ++ l2) sc sr = nbrVisits l1 sc sr + nbrVisits l2 sc sr := by
  unfold nbrVisits
  simp only [visitCount_append]
  omega

/-! ### Each visit of a cell other than the start cell writes `'*'` to it -/

theorem tried_visitsMarked {ps : List (Int × Int)} {m : maze_t} {b : Bool} {m2 : maze_t}
    {log : List Event}
    (h : Tried (fun m c r b m2 log => Returns m c r b m2 log ∧ VisitsMarked m log)
      ps m b m2 log) : VisitsMarked m log := by
  induction h with
  | nil m => intro c r _; rfl
  | found h => exact h.2
  | next h _ ih =>
    intro c r hn
    rw [visitCount_append, starWrites_append, h.2 c r hn,
      ih c r ((returns_changes h.1).not_start hn)]

theorem visitsMarked_mark {m : maze_t} {c r : Int} {log : List Event}
    (hcell : cellAt m c r = some ' ') (h : VisitsMarked (setCell m c r '*') log) :
    VisitsMarked m (Event.visit c r :: Event.write c r (some ' ') '*' :: log) := by
  obtain ⟨hc, hr⟩ := cellAt_nonneg hcell
  intro c2 r2 hn
  by_cases hp : c2 = c ∧ r2 = r
  · obtain ⟨rfl, rfl⟩ := hp
    have hx := h c2 r2 (by rw [cellAt_setCell_same '*' hcell]; decide)
    unfold starWrites at hx ⊢
    rw [visitCount_visit, visitCount_write, writesTo_visit, writesTo_write_same,
      List.count_cons_self, hx]
    simp
  · have hx := h c2 r2 (by rw [cellAt_setCell_other '*' hc hr (ne_cell hp)]; exact hn)
    unfold starWrites at hx ⊢
    rw [visitCount_visit, visitCount_write, writesTo_visit,
      writesTo_write_other _ _ _ (fun e => hp ⟨e.1.symm, e.2.symm⟩), hx,
      if_neg (fun e => hp ⟨e.1.symm, e.2.symm⟩)]
    rfl

theorem traced_visitsMarked {fuel : Nat} {m : maze_t} {c r : Int} {b : Bool} {m2 : maze_t}
    {log : List Event} (h : solveMazeDFSTraced fuel m c r = some (b, m2, log)) :
    VisitsMarked m log := by
  refine solve_induction (fun m _ _ _ _ log => VisitsMarked m log) ?_ ?_ ?_ ?_ ?_ ?_
    fuel m c r b m2 log h
  · intro m c r _ c2 r2 _; rfl
  · intro m c r _ _ c2 r2 _; rfl
  · intro m c r cur _ _ _ _ _ c2 r2 _; rfl
  · intro m c r m2 log _ hcell ht
    exact visitsMarked_mark hcell (tried_visitsMarked ht)
  · intro m c r m2 log _ hcell ht
    have h1 := visitsMarked_mark hcell (tried_visitsMarked ht)
    intro c2 r2 hn
    have happ : Event.visit c r :: Event.write c r (some ' ') '*' ::
        (log ++ [Event.write c r (cellAt m2 c r) '~'])
        = (Event.visit c r :: Event.write c r (some ' ') '*' :: log)
          ++ [Event.write c r (cellAt m2 c r) '~'] := rfl
    rw [happ, visitCount_append, starWrites_append, h1 c2 r2 hn, visitCount_write,
      visitCount_nil]
    have : starWrites [Event.write c r (cellAt m2 c r) '~'] c2 r2 = 0 := by
      unfold starWrites
      by_cases hp : c = c2 ∧ r = r2
      · obtain ⟨rfl, rfl⟩ := hp
        rw [writesTo_write_same, writesTo_nil]
        simp
      · rw [writesTo_write_other _ _ _ hp, writesTo_nil]
        rfl
    rw [this]
  · intro m c r b m2 log _ hcell ht c2 r2 hn
    have hne : ¬ (c = c2 ∧ r = r2) := by
      rintro ⟨rfl, rfl⟩; exact hn hcell
    have h1 := tried_visitsMarked ht c2 r2 hn
    unfold starWrites at h1 ⊢
    rw [visitCount_visit, writesTo_visit, if_neg hne, h1]
    rfl

/-- A cell that is not a start cell is visited at most once. -/
theorem traced_visit_once {fuel : Nat} {m : maze_t} {c r : Int} {b : Bool} {m2 : maze_t}
    {log : List Event} (h : solveMazeDFSTraced fuel m c r = some (b, m2, log))
    {c2 r2 : Int} (hn : cellAt m c2 r2 ≠ some 'S') : visitCount log c2 r2 ≤ 1 := by
  rw [traced_visitsMarked h c2 r2 hn]
  unfold starWrites
  rcases traced_writeOrder h c2 r2 with ⟨w, _⟩ | ⟨w, _⟩ | ⟨w, _⟩ <;> rw [w] <;> decide

/-! ### Visits of other cells use up open cells -/

theorem tried_visitsPaid {sc sr : Int} {ps : List (Int × Int)} {m : maze_t} {b : Bool}
    {m2 : maze_t} {log : List Event}
    (h : Tried (fun m c r b m2 log => Returns m c r b m2 log ∧
      (StartAt m sc sr → VisitsPaid sc sr m m2 log)) ps m b m2 log) :
    StartAt m sc sr → VisitsPaid sc sr m m2 log := by
  induction h with
  | nil m => intro _; unfold VisitsPaid; simp [totalVisits_nil, visitCount_nil]
  | found h => exact h.2
  | next h _ ih =>
    intro hs
    have h1 := h.2 hs
    have h2 := ih ((returns_changes h.1).startAt hs)
    unfold VisitsPaid at h1 h2 ⊢
    rw [totalVisits_append, visitCount_append]
    omega

theorem traced_visitsPaid {fuel : Nat} {m : maze_t} {c r : Int} {b : Bool} {m2 : maze_t}
    {log : List Event} {sc sr : Int} (hs : StartAt m sc sr)
    (h : solveMazeDFSTraced fuel m c r = some (b, m2, log)) :
    VisitsPaid sc sr m m2 log := by
  refine solve_induction
    (fun m _ _ _ m2 log => StartAt m sc sr → VisitsPaid sc sr m m2 log)
    ?_ ?_ ?_ ?_ ?_ ?_ fuel m c r b m2 log h hs
  · intro m c r _ _; unfold VisitsPaid; simp [totalVisits_nil, visitCount_nil]
  · intro m c r _ _ _; unfold VisitsPaid; simp [totalVisits_nil, visitCount_nil]
  · intro m c r cur _ _ _ _ _ _; unfold VisitsPaid; simp [totalVisits_nil, visitCount_nil]
  · intro m c r m2 log _ hcell ht hs
    have hne : ¬ (c = sc ∧ r = sr) := by
      rintro ⟨rfl, rfl⟩
      rw [hs.1] at hcell; cases hcell
    have h1 := tried_visitsPaid ht ((changes_setCell_star hcell).startAt hs)
    have h2 := countOpen_setCell_star hcell
    unfold VisitsPaid at h1 ⊢
    rw [totalVisits_visit, totalVisits_write, visitCount_visit, visitCount_write, if_neg hne]
    omega
  · intro m c r m2 log _ hcell ht hs
    have hne : ¬ (c = sc ∧ r = sr) := by
      rintro ⟨rfl, rfl⟩
      rw [hs.1] at hcell; cases hcell
    have h1 := tried_visitsPaid ht ((changes_setCell_star hcell).startAt hs)
    have h2 := countOpen_setCell_star hcell
    have h3 := (changes_failed hcell (tried_returns_changes ht)).2
    unfold VisitsPaid at h1 ⊢
    rw [totalVisits_visit, totalVisits_write, totalVisits_append, totalVisits_write,
      totalVisits_nil, visitCount_visit, visitCount_write, visitCount_append,
      visitCount_write, visitCount_nil, if_neg hne, countOpen_setCell_tilde h3]
    omega
  · intro m c r b m2 log _ hcell ht hs
    have he := hs.2 c r hcell
    have h1 := tried_visitsPaid ht hs
    unfold VisitsPaid at h1 ⊢
    rw [totalVisits_visit, visitCount_visit, if_pos he]
    omega

/-! ### The start cell is entered again only from a visited neighbour -/

theorem dirs_count_le (c r sc sr : Int) :
    (dirs c r).count (sc, sr) ≤ nbrVisits [Event.visit c r] sc sr := by
  unfold dirs nbrVisits
  simp only [List.count_cons, List.count_nil, visitCount_visit, visitCount_nil, beq_iff_eq,
    Prod.mk.injEq]
  split_ifs <;> omega

theorem dirs_count_self (sc sr : Int) : (dirs sc sr).count (sc, sr) = 0 := by
  unfold dirs
  simp only [List.count_cons, List.count_nil, beq_iff_eq, Prod.mk.injEq]
  split_ifs <;> omega

theorem nbrVisits_self (sc sr : Int) : nbrVisits [Event.visit sc sr] sc sr = 0 := by
  unfold nbrVisits
  simp only [visitCount_visit, visitCount_nil]
  split_ifs <;> omega

theorem tried_startVisits {sc sr : Int} {ps : List (Int × Int)} {m : maze_t} {b : Bool}
    {m2 : maze_t} {log : List Event}
    (h : Tried (fun m c r b m2 log => Returns m c r b m2 log ∧
      (StartAt m sc sr → StartVisits sc sr (if c = sc ∧ r = sr then 1 else 0) log))
      ps m b m2 log) :
    StartAt m sc sr → StartVisits sc sr (ps.count (sc, sr)) log := by
  induction h with
  | nil m => intro _; unfold StartVisits; simp [visitCount_nil]
  | @found p ps m m2 log h =>
    intro hs
    have h1 := h.2 hs
    unfold StartVisits at h1 ⊢
    rw [List.count_cons]
    have : (if p.1 = sc ∧ p.2 = sr then 1 else 0) ≤ if (p == (sc, sr)) = true then 1 else 0 := by
      by_cases hp : p.1 = sc ∧ p.2 = sr
      · have : p = (sc, sr) := Prod.ext hp.1 hp.2
        simp [this]
      · rw [if_neg hp]; exact Nat.zero_le _
    omega
  | @next p ps m m1 m2 b log1 log2 h _ ih =>
    intro hs
    have h1 := h.2 hs
    have h2 := ih ((returns_changes h.1).startAt hs)
    unfold StartVisits at h1 h2 ⊢
    rw [List.count_cons, visitCount_append, nbrVisits_append]
    have : (if p.1 = sc ∧ p.2 = sr then 1 else 0) ≤ if (p == (sc, sr)) = true then 1 else 0 := by
      by_cases hp : p.1 = sc ∧ p.2 = sr
      · have : p = (sc, sr) := Prod.ext hp.1 hp.2
        simp [this]
      · rw [if_neg hp]; exact Nat.zero_le _
    omega

theorem nbrVisits_cons_visit (l : List Event) (c r sc sr : Int) :
    nbrVisits (Event.visit c r :: l) sc sr
      = nbrVisits [Event.visit c r] sc sr + nbrVisits l sc sr :=
  nbrVisits_append [Event.visit c r] l sc sr

theorem nbrVisits_cons_write (l : List Event) (c r sc sr : Int) (old : Option Char)
    (new : Char) : nbrVisits (Event.write c r old new :: l) sc sr = nbrVisits l sc sr := by
  unfold nbrVisits
  simp only [visitCount_write]

theorem traced_startVisits {fuel : Nat} {m : maze_t} {c r : Int} {b : Bool} {m2 : maze_t}
    {log : List Event} {sc sr : Int} (hs : StartAt m sc sr)
    (h : solveMazeDFSTraced fuel m c r = some (b, m2, log)) :
    StartVisits sc sr (if c = sc ∧ r = sr then 1 else 0) log := by
  refine solve_induction
    (fun m c r _ _ log =>
      StartAt m sc sr → StartVisits sc sr (if c = sc ∧ r = sr then 1 else 0) log)
    ?_ ?_ ?_ ?_ ?_ ?_ fuel m c r b m2 log h hs
  · intro m c r _ _; unfold StartVisits; simp [visitCount_nil]
  · intro m c r _ _ _; unfold StartVisits; simp [visitCount_nil]
  · intro m c r cur _ _ _ _ _ _; unfold StartVisits; simp [visitCount_nil]
  · intro m c r m2 log _ hcell ht hs
    have hne : ¬ (c = sc ∧ r = sr) := by
      rintro ⟨rfl, rfl⟩
      rw [hs.1] at hcell; cases hcell
    have h1 := tried_startVisits ht ((changes_setCell_star hcell).startAt hs)
    have h2 := dirs_count_le c r sc sr
    unfold StartVisits at h1 ⊢
    rw [visitCount_visit, visitCount_write, nbrVisits_cons_visit, nbrVisits_cons_write,
      if_neg hne]
    omega
  · intro m c r m2 log _ hcell ht hs
    have hne : ¬ (c = sc ∧ r = sr) := by
      rintro ⟨rfl, rfl⟩
      rw [hs.1] at hcell; cases hcell
    have h1 := tried_startVisits ht ((changes_setCell_star hcell).startAt hs)
    have h2 := dirs_count_le c r sc sr
    unfold StartVisits at h1 ⊢
    rw [visitCount_visit, visitCount_write, visitCount_append, visitCount_write,
      visitCount_nil, nbrVisits_cons_visit, nbrVisits_cons_write, nbrVisits_append,
      nbrVisits_cons_write, if_neg hne]
    have : nbrVisits [] sc sr = 0 := rfl
    omega
  · intro m c r b m2 log _ hcell ht hs
    obtain ⟨rfl, rfl⟩ := hs.2 c r hcell
    have h1 := tried_startVisits ht hs
    unfold StartVisits at h1 ⊢
    rw [visitCount_visit, nbrVisits_cons_visit, nbrVisits_self, dirs_count_self] at *
    simp only [and_self, if_true]
    omega

/-- In a call on a maze with its only start cell at `(sc, sr)`, the start cell
is visited at most five times. -/
theorem traced_start_visits_le {fuel : Nat} {m : maze_t} {c r : Int} {b : Bool}
    {m2 : maze_t} {log : List Event} {sc sr : Int} (hs : StartAt m sc sr)
    (h : solveMazeDFSTraced fuel m c r = some (b, m2, log)) :
    visitCount log sc sr ≤ 5 := by
  have h1 := traced_startVisits hs h
  have hn : ∀ c2 r2, ¬ (c2 = sc ∧ r2 = sr) → visitCount log c2 r2 ≤ 1 := by
    intro c2 r2 hne
    exact traced_visit_once h (fun e => hne (hs.2 c2 r2 e))
  have a1 := hn (sc + 1) sr (by omega)
  have a2 := hn sc (sr + 1) (by omega)
  have a3 := hn (sc - 1) sr (by omega)
  have a4 := hn sc (sr - 1) (by omega)
  unfold StartVisits nbrVisits at h1
  have : (if c = sc ∧ r = sr then 1 else 0) ≤ 1 := by split_ifs <;> omega
  omega

/-! ### The number of open cells of a well-formed maze with a start cell -/

theorem wellFormed_setCell {m : maze_t} (h : WellFormed m) (c r : Int) (ch : Char) :
    WellFormed (setCell m c r ch) := by
  by_cases hn : 0 ≤ c ∧ 0 ≤ r
  · obtain ⟨hh, hw⟩ := h
    rcases hrow : m.cells[r.toNat]? with _ | cs
    · unfold setCell
      rw [if_pos hn, hrow]
      exact ⟨hh, hw⟩
    · refine ⟨?_, ?_⟩
      · rw [setCell_cells ch hn.1 hn.2 hrow, List.length_set, setCell_height]
        exact hh
      · intro x hx
        rw [setCell_cells ch hn.1 hn.2 hrow] at hx
        rw [setCell_width]
        rcases List.mem_or_eq_of_mem_set hx with hx | rfl
        · exact hw x hx
        · rw [List.length_set]
          exact hw cs (List.getElem?_mem hrow)
  · unfold setCell
    rw [if_neg hn]
    exact h

theorem countOpen_lt_area {m : maze_t} (hwf : WellFormed m) {sc sr : Int}
    (hs : cellAt m sc sr = some 'S') : (countChar m ' ' : Int) + 1 ≤ m.width * m.height := by
  have h1 := countChar_setCell ' ' ' ' hs
  simp only [Char.reduceEq, if_false, if_true, add_zero] at h1
  have h2 := countChar_le_area (wellFormed_setCell hwf sc sr ' ') ' '
  rw [setCell_width, setCell_height, h1] at h2
  exact_mod_cast h2

/-- The work bound of a call on a well-formed maze with exactly one start cell. -/
theorem traced_totalVisits_le {fuel : Nat} {m : maze_t} {c r : Int} {b : Bool}
    {m2 : maze_t} {log : List Event} {sc sr : Int} (hwf : WellFormed m)
    (hs : StartAt m sc sr) (h : solveMazeDFSTraced fuel m c r = some (b, m2, log)) :
    (totalVisits log : Int) ≤ m.width * m.height + 4 := by
  have h1 := traced_visitsPaid hs h
  have h2 := traced_start_visits_le hs h
  have h3 := countOpen_lt_area hwf hs.1
  unfold VisitsPaid at h1
  have h4 : (totalVisits log : Int) ≤ (countChar m ' ' : Int) + 5 := by
    have : totalVisits log ≤ countChar m ' ' + 5 := by omega
    exact_mod_cast this
  linarith

theorem startAt_of_count {m : maze_t} (hS : countChar m 'S' = 1) {sc sr : Int}
    (hs : cellAt m sc sr = some 'S') : StartAt m sc sr :=
  ⟨hs, fun _ _ h => unique_of_countChar_one hS hs h⟩

/-! ## Example mazes -/

/-! ## The properties of `solveMazeDFS` -/

theorem chain_next {α : Type} {R : α → α → Prop} :
    ∀ (l : List α) (a e : α), List.Chain R a (l ++ [e]) →
      ∀ x ∈ l, ∃ y, (y ∈ l ∨ y = e) ∧ R x y := by
  intro l
  induction l with
  | nil => intro a e _ x hx; cases hx
  | cons x0 rest ih =>
    intro a e hchain x hx
    simp only [List.cons_append, List.chain_cons] at hchain
    rcases List.mem_cons.1 hx with rfl | hx
    · cases rest with
      | nil =>
        simp only [List.nil_append, List.chain_cons] at hchain
        exact ⟨e, Or.inr rfl, hchain.2.1⟩
      | cons y0 rest2 =>
        simp only [List.cons_append, List.chain_cons] at hchain
        exact ⟨y0, Or.inl (List.mem_cons_of_mem _ (List.mem_cons_self _ _)), hchain.2.1⟩
    · obtain ⟨y, hy, hr⟩ := ih x0 e hchain.2 x hx
      rcases hy with hy | hy
      · exact ⟨y, Or.inl (List.mem_cons_of_mem _ hy), hr⟩
      · exact ⟨y, Or.inr hy, hr⟩

/-- C1. Reachability correctness: on a well-formed maze with exactly one `'S'`
and exactly one `'E'`, the call at the `'S'` cell returns (at every recursion
depth from `2 * open cells + 2` on), and its result is 1 exactly when a
sequence of cells leads from the `'S'` cell to the `'E'` cell, consecutive cells
adjacent and every intermediate cell open in the maze before the call;
otherwise the result is 0. -/
theorem solveMazeDFS_reachability (m : maze_t) (sc sr ec er : Int)
    (hwf : WellFormed m) (hS : countChar m 'S' = 1) (hE : countChar m 'E' = 1)
    (hs : cellAt m sc sr = some 'S') (he : cellAt m ec er = some 'E') :
    ∃ b m2,
      (∀ fuel, 2 * countChar m ' ' + 2 ≤ fuel → solveMazeDFS fuel m sc sr = some (b, m2)) ∧
      (b = true ↔ OpenRoute m (sc, sr) (ec, er)) ∧
      (b = false ↔ ¬ OpenRoute m (sc, sr) (ec, er)) := by
  obtain ⟨b, m2, log, hret⟩ := traced_terminates hwf hS sc sr
  have hrun := hret _ (Nat.le_refl _)
  have hiff : b = true ↔ OpenRoute m (sc, sr) (ec, er) := by
    constructor
    · intro hb
      subst hb
      obtain ⟨q, hq, hroute⟩ := traced_route (uniqueStart_of_count hS) hs hrun
      obtain ⟨h1, h2⟩ := unique_of_countChar_one hE he hq
      have : q = (ec, er) := Prod.ext h1 h2
      rw [this] at hroute
      exact hroute
    · intro hroute
      cases b with
      | true => rfl
      | false =>
        exact absurd hroute
          (traced_no_route (q := (ec, er)) (fits_of_wellFormed hwf) hs hrun he)
  refine ⟨b, m2, fun fuel hle => solve_of_traced (hret fuel hle), hiff, ?_⟩
  rw [← hiff]
  cases b <;> simp

theorem solveMazeDFS_reachability_example :
    (WellFormed mazeAround ∧ countChar mazeAround 'S' = 1 ∧ countChar mazeAround 'E' = 1 ∧
      cellAt mazeAround 0 0 = some 'S' ∧ cellAt mazeAround 2 2 = some 'E') ∧
    ∃ b m2,
      (∀ fuel, 2 * countChar mazeAround ' ' + 2 ≤ fuel →
        solveMazeDFS fuel mazeAround 0 0 = some (b, m2)) ∧
      (b = true ↔ OpenRoute mazeAround (0, 0) (2, 2)) ∧
      (b = false ↔ ¬ OpenRoute mazeAround (0, 0) (2, 2)) :=
  ⟨⟨by decide, by decide, by decide, by decide, by decide⟩,
    solveMazeDFS_reachability mazeAround 0 0 2 2 (by decide) (by decide) (by decide)
      (by decide) (by decide)⟩

/-- C2, at the failing input: on the 2x3 maze with rows `"S "`, `" #"`, `"E#"`
the call at the start returns 1 and leaves `'*'` on the cells (1,0) and (0,1),
both open before; no ordering of these cells is a chain of adjacent cells from
the start cell to the end cell (0,2). The cell (1,0) is a dead end that
keeps its `'*'` because the search went back through the start cell. -/
theorem solveMazeDFS_stray_marker :
    solveMazeDFS 5 mazeSpur 0 0 = some (true, mazeSpurSolved) ∧
    ¬ ∃ path : List (Int × Int), path.Nodup ∧
      (∀ p : Int × Int, p ∈ path ↔
        (cellAt mazeSpurSolved p.1 p.2 = some '*' ∧ cellAt mazeSpur p.1 p.2 = some ' ')) ∧
      List.Chain adjacent (0, 0) (path ++ [(0, 2)]) := by
  refine ⟨by decide, ?_⟩
  rintro ⟨path, _, hmem, hchain⟩
  have h10 : ((1, 0) : Int × Int) ∈ path := (hmem (1, 0)).2 (by decide)
  obtain ⟨y, hy, hadj⟩ := chain_next path (0, 0) (0, 2) hchain (1, 0) h10
  have hd := (adjacent_iff_dirs 1 0 y).1 hadj
  have key : ∀ z ∈ dirs 1 0,
      ¬ (cellAt mazeSpurSolved z.1 z.2 = some '*' ∧ cellAt mazeSpur z.1 z.2 = some ' ') ∧
        z ≠ (0, 2) := by decide
  rcases hy with hy | hy
  · exact (key y hd).1 ((hmem y).1 hy)
  · exact (key y hd).2 hy

/-- C3. Rejected marking on failure: when a call returns 0, every cell whose
value differs between the maze before and the maze after held `' '` before and
holds `'~'` after; every cell the call wrote to holds `'~'` at the end, so no
`'*'` it wrote is left; and on the 3x1 maze `"S#E"` the call at the start
returns 0 and leaves the maze unchanged. -/
theorem solveMazeDFS_failure_marks (fuel : Nat) (m : maze_t) (col row : Int) (m2 : maze_t)
    (h : solveMazeDFS fuel m col row = some (false, m2)) :
    (∀ c r, cellAt m2 c r ≠ cellAt m c r →
      cellAt m c r = some ' ' ∧ cellAt m2 c r = some '~') ∧
    (∀ log, solveMazeDFSTraced fuel m col row = some (false, m2, log) →
      ∀ c r, writesTo log c r ≠ [] → cellAt m2 c r = some '~') ∧
    solveMazeDFS 2 mazeWalled 0 0 = some (false, mazeWalled) := by
  have hch := solve_changes h
  have hcell : ∀ c r, cellAt m2 c r ≠ cellAt m c r →
      cellAt m c r = some ' ' ∧ cellAt m2 c r = some '~' := by
    intro c r hne
    rcases hch.cell c r with e | ⟨o, t | ⟨bt, _⟩⟩
    · exact absurd e hne
    · exact ⟨o, t⟩
    · cases bt
  refine ⟨hcell, ?_, by decide⟩
  intro log hl c r hw
  rcases traced_writeOrder hl c r with ⟨w, _⟩ | ⟨_, o, s⟩ | ⟨_, _, s⟩
  · exact absurd w hw
  · have := hcell c r (by rw [o, s]; decide)
    exact this.2
  · exact s

theorem solveMazeDFS_failure_marks_example :
    solveMazeDFS 4 mazePair 0 0 = some (false, ofRows 2 1 ["S~"]) ∧
    ((∀ c r, cellAt (ofRows 2 1 ["S~"]) c r ≠ cellAt mazePair c r →
      cellAt mazePair c r = some ' ' ∧ cellAt (ofRows 2 1 ["S~"]) c r = some '~') ∧
    (∀ log, solveMazeDFSTraced 4 mazePair 0 0 = some (false, ofRows 2 1 ["S~"], log) →
      ∀ c r, writesTo log c r ≠ [] → cellAt (ofRows 2 1 ["S~"]) c r = some '~') ∧
    solveMazeDFS 2 mazeWalled 0 0 = some (false, mazeWalled)) :=
  ⟨by decide, solveMazeDFS_failure_marks 4 mazePair 0 0 (ofRows 2 1 ["S~"]) (by decide)⟩

/-- C4. Frame of the solver: a call that returns leaves width, height, the
start coordinates and the end coordinates unchanged; every cell that did not
hold `' '` before the call holds the same character after it (a cell outside
the buffer stays outside); a cell that held `' '` holds `' '`, `'*'` or `'~'`. -/
theorem solveMazeDFS_frame (fuel : Nat) (m : maze_t) (col row : Int) (b : Bool)
    (m2 : maze_t) (h : solveMazeDFS fuel m col row = some (b, m2)) :
    m2.width = m.width ∧ m2.height = m.height ∧
    m2.startColumn = m.startColumn ∧ m2.startRow = m.startRow ∧
    m2.endColumn = m.endColumn ∧ m2.endRow = m.endRow ∧
    (∀ c r, cellAt m c r ≠ some ' ' → cellAt m2 c r = cellAt m c r) ∧
    (∀ c r, cellAt m c r = some ' ' →
      cellAt m2 c r = some ' ' ∨ cellAt m2 c r = some '*' ∨ cellAt m2 c r = some '~') := by
  have hch := solve_changes h
  refine ⟨hch.width, hch.height, hch.startColumn, hch.startRow, hch.endColumn, hch.endRow,
    fun c r hne => hch.keep hne, ?_⟩
  intro c r ho
  rcases hch.cell c r with e | ⟨_, t | ⟨_, s⟩⟩
  · exact Or.inl (e.trans ho)
  · exact Or.inr (Or.inr t)
  · exact Or.inr (Or.inl s)

theorem solveMazeDFS_frame_example :
    solveMazeDFS 6 mazeAround 0 0 = some (true, ofRows 3 3 ["S**", " #*", "  E"]) ∧
    ((ofRows 3 3 ["S**", " #*", "  E"]).width = mazeAround.width ∧
    (ofRows 3 3 ["S**", " #*", "  E"]).height = mazeAround.height ∧
    (ofRows 3 3 ["S**", " #*", "  E"]).startColumn = mazeAround.startColumn ∧
    (ofRows 3 3 ["S**", " #*", "  E"]).startRow = mazeAround.startRow ∧
    (ofRows 3 3 ["S**", " #*", "  E"]).endColumn = mazeAround.endColumn ∧
    (ofRows 3 3 ["S**", " #*", "  E"]).endRow = mazeAround.endRow ∧
    (∀ c r, cellAt mazeAround c r ≠ some ' ' →
      cellAt (ofRows 3 3 ["S**", " #*", "  E"]) c r = cellAt mazeAround c r) ∧
    (∀ c r, cellAt mazeAround c r = some ' ' →
      cellAt (ofRows 3 3 ["S**", " #*", "  E"]) c r = some ' ' ∨
      cellAt (ofRows 3 3 ["S**", " #*", "  E"]) c r = some '*' ∨
      cellAt (ofRows 3 3 ["S**", " #*", "  E"]) c r = some '~')) :=
  ⟨by decide,
    solveMazeDFS_frame 6 mazeAround 0 0 true (ofRows 3 3 ["S**", " #*", "  E"]) (by decide)⟩

/-- C5. No mutation on out-of-bounds: for every maze and every coordinate with
`col < 0`, `col >= width`, `row < 0` or `row >= height`, the call returns 0 and
the maze after the call is the maze before the call. -/
theorem solveMazeDFS_out_of_bounds (m : maze_t) (col row : Int)
    (h : col < 0 ∨ col ≥ m.width ∨ row < 0 ∨ row ≥ m.height) (fuel : Nat) :
    solveMazeDFS (fuel + 1) m col row = some (false, m) :=
  solve_of_traced (traced_oob fuel h)

theorem solveMazeDFS_out_of_bounds_example :
    ((3 : Int) < 0 ∨ (3 : Int) ≥ mazeAround.width ∨ (1 : Int) < 0 ∨
      (1 : Int) ≥ mazeAround.height) ∧
    solveMazeDFS (0 + 1) mazeAround 3 1 = some (false, mazeAround) :=
  ⟨by decide, solveMazeDFS_out_of_bounds mazeAround 3 1 (by decide) 0⟩

/-- C6. Goal check: on an in-bounds cell holding `'E'` the call returns 1 and
the maze is unchanged; recursion depth one suffices, so no recursive call is
made, and the instrumented call logs no visit and no write. -/
theorem solveMazeDFS_goal (m : maze_t) (col row : Int)
    (hc : 0 ≤ col ∧ col < m.width) (hr : 0 ≤ row ∧ row < m.height)
    (hcell : cellAt m col row = some 'E') (fuel : Nat) :
    solveMazeDFS (fuel + 1) m col row = some (true, m) ∧
    solveMazeDFS 1 m col row = some (true, m) ∧
    solveMazeDFSTraced (fuel + 1) m col row = some (true, m, []) := by
  have hin : InBounds m col row := ⟨hc.1, hc.2, hr.1, hr.2⟩
  exact ⟨solve_of_traced (traced_goal fuel hin hcell),
    solve_of_traced (traced_goal 0 hin hcell), traced_goal fuel hin hcell⟩

theorem solveMazeDFS_goal_example :
    ((0 : Int) ≤ 2 ∧ (2 : Int) < mazeAround.width) ∧
    ((0 : Int) ≤ 2 ∧ (2 : Int) < mazeAround.height) ∧
    cellAt mazeAround 2 2 = some 'E' ∧
    (solveMazeDFS (3 + 1) mazeAround 2 2 = some (true, mazeAround) ∧
    solveMazeDFS 1 mazeAround 2 2 = some (true, mazeAround) ∧
    solveMazeDFSTraced (3 + 1) mazeAround 2 2 = some (true, mazeAround, [])) :=
  ⟨by decide, by decide, by decide,
    solveMazeDFS_goal mazeAround 2 2 (by decide) (by decide) (by decide) 3⟩

/-- C7. Passability check: on an in-bounds cell holding a character other than
`' '`, `'S'` and `'E'` (a wall, or a `'*'` or `'~'` already written) the call
returns 0 and the maze is unchanged. -/
theorem solveMazeDFS_blocked (m : maze_t) (col row : Int) (ch : Char)
    (hc : 0 ≤ col ∧ col < m.width) (hr : 0 ≤ row ∧ row < m.height)
    (hcell : cellAt m col row = some ch)
    (hO : ch ≠ ' ') (hS : ch ≠ 'S') (hE : ch ≠ 'E') (fuel : Nat) :
    solveMazeDFS (fuel + 1) m col row = some (false, m) :=
  solve_of_traced (traced_blocked fuel ⟨hc.1, hc.2, hr.1, hr.2⟩ hcell hE hO hS)

theorem solveMazeDFS_blocked_example :
    ((0 : Int) ≤ 1 ∧ (1 : Int) < mazeAround.width) ∧
    ((0 : Int) ≤ 1 ∧ (1 : Int) < mazeAround.height) ∧
    cellAt mazeAround 1 1 = some '#' ∧
    solveMazeDFS (0 + 1) mazeAround 1 1 = some (false, mazeAround) :=
  ⟨by decide, by decide, by decide,
    solveMazeDFS_blocked mazeAround 1 1 '#' (by decide) (by decide) (by decide)
      (by decide) (by decide) (by decide) 0⟩

/-- C8. Termination: on a well-formed maze with exactly one `'S'` cell the call
at any coordinate returns a boolean result and a final maze, the same at every
recursion depth from `2 * open cells + 2` on. -/
theorem solveMazeDFS_terminates (m : maze_t) (hwf : WellFormed m)
    (hS : countChar m 'S' = 1) (col row : Int) :
    ∃ b m2, ∀ fuel, 2 * countChar m ' ' + 2 ≤ fuel →
      solveMazeDFS fuel m col row = some (b, m2) := by
  obtain ⟨b, m2, log, hret⟩ := traced_terminates hwf hS col row
  exact ⟨b, m2, fun fuel hle => solve_of_traced (hret fuel hle)⟩

theorem solveMazeDFS_terminates_example :
    (WellFormed mazeAround ∧ countChar mazeAround 'S' = 1) ∧
    ∃ b m2, ∀ fuel, 2 * countChar mazeAround ' ' + 2 ≤ fuel →
      solveMazeDFS fuel mazeAround 1 2 = some (b, m2) :=
  ⟨⟨by decide, by decide⟩, solveMazeDFS_terminates mazeAround (by decide) (by decide) 1 2⟩

/-- C9, at the failing input: on the 2x1 maze `"S "`, which has exactly one
`'S'` cell, the call at the start visits the start cell twice (once more from
the open cell beside it, since the start cell is never marked) and makes three
visits in all, more than `width * height = 2`. -/
theorem solveMazeDFS_start_revisited :
    (WellFormed mazePair ∧ countChar mazePair 'S' = 1 ∧ cellAt mazePair 0 0 = some 'S') ∧
    ∃ b m2 log, solveMazeDFSTraced 4 mazePair 0 0 = some (b, m2, log) ∧
      visitCount log 0 0 = 2 ∧ totalVisits log = 3 ∧
      ¬ ((totalVisits log : Int) ≤ mazePair.width * mazePair.height) :=
  ⟨⟨by decide, by decide, by decide⟩,
    false, ofRows 2 1 ["S~"],
    [Event.visit 0 0, Event.visit 1 0, Event.write 1 0 (some ' ') '*', Event.visit 0 0,
      Event.write 1 0 (some '*') '~'],
    by decide, by decide, by decide, by decide⟩

/-- The work that the search does: on a well-formed maze with exactly one
`'S'` cell, the call at the `'S'` cell returns, every cell other than the `'S'`
cell is visited at most once, the `'S'` cell at most five times, and the total
number of visits is at most `width * height + 4`. -/
theorem solveMazeDFS_work_bound (m : maze_t) (sc sr : Int) (hwf : WellFormed m)
    (hS : countChar m 'S' = 1) (hs : cellAt m sc sr = some 'S') :
    ∃ b m2 log,
      (∀ fuel, 2 * countChar m ' ' + 2 ≤ fuel →
        solveMazeDFSTraced fuel m sc sr = some (b, m2, log)) ∧
      (∀ c r, ¬ (c = sc ∧ r = sr) → visitCount log c r ≤ 1) ∧
      visitCount log sc sr ≤ 5 ∧
      (totalVisits log : Int) ≤ m.width * m.height + 4 := by
  obtain ⟨b, m2, log, hret⟩ := traced_terminates hwf hS sc sr
  have hrun := hret _ (Nat.le_refl _)
  have hst := startAt_of_count hS hs
  refine ⟨b, m2, log, hret, ?_, traced_start_visits_le hst hrun,
    traced_totalVisits_le hwf hst hrun⟩
  intro c r hne
  exact traced_visit_once hrun (fun e => hne (hst.2 c r e))

theorem solveMazeDFS_work_bound_example :
    (WellFormed mazePair ∧ countChar mazePair 'S' = 1 ∧ cellAt mazePair 0 0 = some 'S') ∧
    ∃ b m2 log,
      (∀ fuel, 2 * countChar mazePair ' ' + 2 ≤ fuel →
        solveMazeDFSTraced fuel mazePair 0 0 = some (b, m2, log)) ∧
      (∀ c r, ¬ (c = 0 ∧ r = 0) → visitCount log c r ≤ 1) ∧
      visitCount log 0 0 ≤ 5 ∧
      (totalVisits log : Int) ≤ mazePair.width * mazePair.height + 4 :=
  ⟨⟨by decide, by decide, by decide⟩,
    solveMazeDFS_work_bound mazePair 0 0 (by decide) (by decide) (by decide)⟩

/-- C10. Monotonic marker transition: on a well-formed maze with exactly one
`'S'` cell a call returns, and the writes it made to any single cell are: none;
or one write of `'*'` to the cell holding `' '`; or that write followed by one
write of `'~'` to the cell holding `'*'`. So no cell is written after it holds
`'~'`, and no cell holding `'*'` is written with `'*'` again. -/
theorem solveMazeDFS_marker_transition (m : maze_t) (hwf : WellFormed m)
    (hS : countChar m 'S' = 1) (col row : Int) :
    ∃ b m2 log,
      (∀ fuel, 2 * countChar m ' ' + 2 ≤ fuel →
        solveMazeDFSTraced fuel m col row = some (b, m2, log)) ∧
      ∀ c r, writesTo log c r = [] ∨ writesTo log c r = [(some ' ', '*')] ∨
        writesTo log c r = [(some ' ', '*'), (some '*', '~')] := by
  obtain ⟨b, m2, log, hret⟩ := traced_terminates hwf hS col row
  have hrun := hret _ (Nat.le_refl _)
  refine ⟨b, m2, log, hret, ?_⟩
  intro c r
  rcases traced_writeOrder hrun c r with ⟨w, _⟩ | ⟨w, _⟩ | ⟨w, _⟩
  · exact Or.inl w
  · exact Or.inr (Or.inl w)
  · exact Or.inr (Or.inr w)

theorem solveMazeDFS_marker_transition_example :
    (WellFormed mazeAround ∧ countChar mazeAround 'S' = 1) ∧
    ∃ b m2 log,
      (∀ fuel, 2 * countChar mazeAround ' ' + 2 ≤ fuel →
        solveMazeDFSTraced fuel mazeAround 0 0 = some (b, m2, log)) ∧
      ∀ c r, writesTo log c r = [] ∨ writesTo log c r = [(some ' ', '*')] ∨
        writesTo log c r = [(some ' ', '*'), (some '*', '~')] :=
  ⟨⟨by decide, by decide⟩,
    solveMazeDFS_marker_transition mazeAround (by decide) (by decide) 0 0⟩

/-! ## What the search changes lies on a walk from the cell of the call -/

theorem tried_changed_walk {ps : List (Int × Int)} {m : maze_t} {b : Bool} {m2 : maze_t}
    {log : List Event}
    (h : Tried (fun m c r b m2 log => Returns m c r b m2 log ∧
      (∀ x : Int × Int, cellAt m2 x.1 x.2 ≠ cellAt m x.1 x.2 → Walk m (c, r) x))
      ps m b m2 log) :
    ∀ x : Int × Int, cellAt m2 x.1 x.2 ≠ cellAt m x.1 x.2 → ∃ p ∈ ps, Walk m p x := by
  induction h with
  | nil m => intro x hx; exact absurd rfl hx
  | found h => intro x hx; exact ⟨_, List.mem_cons_self _ _, h.2 x hx⟩
  | @next p ps m m1 m2 b log1 log2 h _ ih =>
    intro x hx
    by_cases h1 : cellAt m1 x.1 x.2 = cellAt m x.1 x.2
    · obtain ⟨q, hq, hw⟩ := ih x (by rw [h1]; exact hx)
      exact ⟨q, List.mem_cons_of_mem _ hq, walk_before (returns_changes h.1) hw⟩
    · exact ⟨_, List.mem_cons_self _ _, h.2 x h1⟩

/-- Every cell a call changes is joined to the cell of the call by a walk over
cells that were open, or the start cell, when the call was made. -/
theorem traced_changed_walk {fuel : Nat} {m : maze_t} {c r : Int} {b : Bool} {m2 : maze_t}
    {log : List Event} (h : solveMazeDFSTraced fuel m c r = some (b, m2, log)) :
    ∀ x : Int × Int, cellAt m2 x.1 x.2 ≠ cellAt m x.1 x.2 → Walk m (c, r) x := by
  refine solve_induction
    (fun m c r _ m2 _ =>
      ∀ x : Int × Int, cellAt m2 x.1 x.2 ≠ cellAt m x.1 x.2 → Walk m (c, r) x)
    ?_ ?_ ?_ ?_ ?_ ?_ fuel m c r b m2 log h
  · intro m c r _ x hx; exact absurd rfl hx
  · intro m c r _ _ x hx; exact absurd rfl hx
  · intro m c r cur _ _ _ _ _ x hx; exact absurd rfl hx
  · intro m c r m2 log _ hcell ht x hx
    obtain ⟨hc, hr⟩ := cellAt_nonneg hcell
    by_cases hp : x.1 = c ∧ x.2 = r
    · have : x = (c, r) := Prod.ext hp.1 hp.2
      rw [this]; exact Walk.here _
    · have e := cellAt_setCell_other (m := m) '*' hc hr (ne_cell hp)
      obtain ⟨p, hpd, hw⟩ := tried_changed_walk ht x (by rw [e]; exact hx)
      exact Walk.step (Or.inl hcell) ((adjacent_iff_dirs c r p).2 hpd)
        (walk_before (changes_setCell_star hcell) hw)
  · intro m c r m2 log _ hcell ht x hx
    obtain ⟨hc, hr⟩ := cellAt_nonneg hcell
    by_cases hp : x.1 = c ∧ x.2 = r
    · have : x = (c, r) := Prod.ext hp.1 hp.2
      rw [this]; exact Walk.here _
    · have e := cellAt_setCell_other (m := m) '*' hc hr (ne_cell hp)
      rw [cellAt_setCell_other '~' hc hr (ne_cell hp)] at hx
      obtain ⟨p, hpd, hw⟩ := tried_changed_walk ht x (by rw [e]; exact hx)
      exact Walk.step (Or.inl hcell) ((adjacent_iff_dirs c r p).2 hpd)
        (walk_before (changes_setCell_star hcell) hw)
  · intro m c r b m2 log _ hcell ht x hx
    obtain ⟨p, hpd, hw⟩ := tried_changed_walk ht x hx
    exact Walk.step (Or.inr hcell) ((adjacent_iff_dirs c r p).2 hpd) hw

/-- After a call that returned 0, every open cell at the end of a chain of open
cells that starts beside a cell with dead neighbours holds `'~'`. -/
theorem rejected_of_closed {m m2 : maze_t} (hch : Changes false m m2) (hcl : Closed m m2) :
    ∀ (mid : List (Int × Int)) (p x : Int × Int), (∀ y, adjacent p y → Dead m2 y) →
      (∀ y ∈ mid, cellAt m y.1 y.2 = some ' ') → cellAt m x.1 x.2 = some ' ' →
      List.Chain adjacent p (mid ++ [x]) → cellAt m2 x.1 x.2 = some '~' := by
  have step : ∀ (p y : Int × Int), (∀ z, adjacent p z → Dead m2 z) → adjacent p y →
      cellAt m y.1 y.2 = some ' ' → cellAt m2 y.1 y.2 = some '~' := by
    intro p y hp hadj hy
    have hd := hp y hadj
    rcases hch.cell y.1 y.2 with e | ⟨_, t | ⟨bt, _⟩⟩
    · exact absurd (e.trans hy) hd.1
    · exact t
    · cases bt
  intro mid
  induction mid with
  | nil =>
    intro p x hp _ hx hchain
    simp only [List.nil_append, List.chain_cons] at hchain
    exact step p x hp hchain.1 hx
  | cons y rest ih =>
    intro p x hp hmid hx hchain
    simp only [List.cons_append, List.chain_cons] at hchain
    have hy := hmid y (List.mem_cons_self _ _)
    have hy2 := step p y hp hchain.1 hy
    exact ih y x (hcl y hy hy2) (fun z hz => hmid z (List.mem_cons_of_mem _ hz)) hx hchain.2

/-! ## A result 1 leaves a marked route -/

theorem markedWalk_before {b : Bool} {m m1 m2 : maze_t} (hch : Changes b m m1)
    {p q : Int × Int} (h : MarkedWalk m1 m2 p q) : MarkedWalk m m2 p q := by
  induction h with
  | here p => exact MarkedWalk.here p
  | step hp hadj _ ih =>
    refine MarkedWalk.step ?_ hadj ih
    rcases hp with ⟨hp1, hp2⟩ | hp
    · exact Or.inl ⟨hch.open_before hp1, hp2⟩
    · exact Or.inr (hch.same_of_after hp (by decide) (by decide))

theorem tried_markedWalk {ps : List (Int × Int)} {m : maze_t} {b : Bool} {m2 : maze_t}
    {log : List Event}
    (h : Tried (fun m c r b m2 log => Returns m c r b m2 log ∧
      (b = true → ∃ q : Int × Int, cellAt m q.1 q.2 = some 'E' ∧ MarkedWalk m m2 (c, r) q))
      ps m b m2 log) :
    b = true → ∃ p ∈ ps, ∃ q : Int × Int,
      cellAt m q.1 q.2 = some 'E' ∧ MarkedWalk m m2 p q := by
  induction h with
  | nil m => intro e; cases e
  | found h => intro _; exact ⟨_, List.mem_cons_self _ _, h.2 rfl⟩
  | next h _ ih =>
    intro e
    obtain ⟨p, hp, q, hq, hw⟩ := ih e
    have hch := returns_changes h.1
    exact ⟨p, List.mem_cons_of_mem _ hp, q, hch.same_of_after hq (by decide) (by decide),
      markedWalk_before hch hw⟩

/-- A call that returns 1 leaves a walk from its cell to an end cell over cells
it marked `'*'` (and the start cell). -/
theorem traced_markedWalk {fuel : Nat} {m : maze_t} {c r : Int} {m2 : maze_t}
    {log : List Event} (h : solveMazeDFSTraced fuel m c r = some (true, m2, log)) :
    ∃ q : Int × Int, cellAt m q.1 q.2 = some 'E' ∧ MarkedWalk m m2 (c, r) q := by
  refine solve_induction
    (fun m c r b m2 _ =>
      b = true → ∃ q : Int × Int, cellAt m q.1 q.2 = some 'E' ∧ MarkedWalk m m2 (c, r) q)
    ?_ ?_ ?_ ?_ ?_ ?_ fuel m c r true m2 log h rfl
  · intro m c r _ e; cases e
  · intro m c r _ hcell _; exact ⟨(c, r), hcell, MarkedWalk.here _⟩
  · intro m c r cur _ _ _ _ _ e; cases e
  · intro m c r m2 log _ hcell ht _
    obtain ⟨p, hp, q, hq, hw⟩ := tried_markedWalk ht rfl
    have hmark := changes_setCell_star hcell
    have hstar := (changes_found hcell (tried_returns_changes ht)).2
    exact ⟨q, hmark.same_of_after hq (by decide) (by decide),
      MarkedWalk.step (Or.inl ⟨hcell, hstar⟩) ((adjacent_iff_dirs c r p).2 hp)
        (markedWalk_before hmark hw)⟩
  · intro m c r m2 log _ _ _ e; cases e
  · intro m c r b m2 log _ hcell ht e
    obtain ⟨p, hp, q, hq, hw⟩ := tried_markedWalk ht e
    exact ⟨q, hq, MarkedWalk.step (Or.inr hcell) ((adjacent_iff_dirs c r p).2 hp) hw⟩

theorem markedRoute_cons {m m2 : maze_t} {p x q : Int × Int} (hadj : adjacent p x)
    (hx : cellAt m x.1 x.2 = some ' ' ∧ cellAt m2 x.1 x.2 = some '*')
    (h : MarkedRoute m m2 x q) : MarkedRoute m m2 p q := by
  obtain ⟨mid, hmid, hchain⟩ := h
  refine ⟨x :: mid, ?_, List.Chain.cons hadj hchain⟩
  intro y hy
  rcases List.mem_cons.1 hy with rfl | hy
  · exact hx
  · exact hmid y hy

theorem markedRoute_single {m m2 : maze_t} {p q : Int × Int} (hadj : adjacent p q) :
    MarkedRoute m m2 p q :=
  ⟨[], ⟨fun x hx => absurd hx (List.not_mem_nil x), List.Chain.cons hadj List.Chain.nil⟩⟩

theorem markedWalk_route {m m2 : maze_t} (hu : UniqueStart m) {s : Int × Int}
    (hs : cellAt m s.1 s.2 = some 'S') {p q : Int × Int} (h : MarkedWalk m m2 p q) :
    p = q ∨
      (((cellAt m p.1 p.2 = some ' ' ∧ cellAt m2 p.1 p.2 = some '*') ∨
        cellAt m p.1 p.2 = some 'S') ∧ MarkedRoute m m2 p q) ∨
      MarkedRoute m m2 s q := by
  induction h with
  | here p => exact Or.inl rfl
  | @step p x q hp hadj hw ih =>
    rcases ih with rfl | ⟨hx | hx, hr⟩ | hr
    · exact Or.inr (Or.inl ⟨hp, markedRoute_single hadj⟩)
    · exact Or.inr (Or.inl ⟨hp, markedRoute_cons hadj hx hr⟩)
    · have hxs := hu s.1 s.2 x.1 x.2 hs hx
      have : x = s := Prod.ext hxs.1 hxs.2
      rw [this] at hr
      exact Or.inr (Or.inr hr)
    · exact Or.inr (Or.inr hr)

/-- A call on the start cell that returns 1 leaves a route from the start cell
to an end cell whose intermediate cells were open and now hold `'*'`. -/
theorem traced_markedRoute {fuel : Nat} {m : maze_t} {c r : Int} {m2 : maze_t}
    {log : List Event} (hu : UniqueStart m) (hs : cellAt m c r = some 'S')
    (h : solveMazeDFSTraced fuel m c r = some (true, m2, log)) :
    ∃ q : Int × Int, cellAt m q.1 q.2 = some 'E' ∧ MarkedRoute m m2 (c, r) q := by
  obtain ⟨q, hq, hw⟩ := traced_markedWalk h
  refine ⟨q, hq, ?_⟩
  rcases markedWalk_route hu (s := (c, r)) hs hw with e | ⟨_, hr⟩ | hr
  · rw [← e] at hq
    rw [hs] at hq
    cases hq
  · exact hr
  · exact hr

/-! ## The loader `createMaze` and the printer `printMaze` -/

/-! ## Reading the header -/

theorem isSpace_not_isDigit {c : Char} (h : isDigit c = true) : isSpace c = false := by
  unfold isDigit at h
  unfold isSpace
  simp only [decide_eq_true_eq] at h
  have h2 : ∀ d : Char, d.toNat < 48 → c ≠ d := by
    intro d hd e; rw [e] at h; omega
  simp only [Bool.or_eq_true, decide_eq_true_eq, not_or, Bool.decide_or,
    Bool.or_eq_false_iff, decide_eq_false_iff_not]
  exact ⟨h2 ' ' (by decide), h2 '\t' (by decide), h2 '\n' (by decide),
    h2 (Char.ofNat 11) (by decide), h2 (Char.ofNat 12) (by decide), h2 '\r' (by decide)⟩

theorem isDigit_ne_sign {c : Char} (h : isDigit c = true) : c ≠ '-' ∧ c ≠ '+' := by
  unfold isDigit at h
  simp only [decide_eq_true_eq] at h
  constructor
  · intro e; rw [e] at h; revert h; decide
  · intro e; rw [e] at h; revert h; decide

theorem takeWhile_run {p : Char → Bool} (ds rest : List Char) (hds : ∀ d ∈ ds, p d = true)
    (hrest : ∀ c cs, rest = c :: cs → p c = false) :
    (ds ++ rest).takeWhile p = ds ∧ (ds ++ rest).dropWhile p = rest := by
  induction ds with
  | nil =>
    cases rest with
    | nil => exact ⟨rfl, rfl⟩
    | cons c cs =>
      have hc := hrest c cs rfl
      simp [List.takeWhile_cons, List.dropWhile_cons, hc]
  | cons d ds ih =>
    have hd := hds d (List.mem_cons_self _ _)
    have := ih (fun x hx => hds x (List.mem_cons_of_mem _ hx))
    simp [List.takeWhile_cons, List.dropWhile_cons, hd, this.1, this.2]

/-- The digits of a `%d` conversion are read up to the first character that is
not a digit. -/
theorem scanDigits_run (ds rest : List Char) (hne : ds ≠ [])
    (hds : ∀ d ∈ ds, isDigit d = true) (hrest : ∀ c cs, rest = c :: cs → isDigit c = false) :
    scanDigits (ds ++ rest) = some (decimalValue ds, rest) := by
  obtain ⟨h1, h2⟩ := takeWhile_run ds rest hds hrest
  unfold scanDigits
  rw [h1, h2, if_neg hne]

theorem skipSpace_run (ws rest : List Char) (hws : ∀ c ∈ ws, isSpace c = true)
    (hrest : ∀ c cs, rest = c :: cs → isSpace c = false) :
    skipSpace (ws ++ rest) = rest :=
  (takeWhile_run ws rest hws hrest).2

/-- An unsigned integer text is converted by `%d` to its value. -/
theorem scanInt_digits (ds rest : List Char) (hne : ds ≠ [])
    (hds : ∀ d ∈ ds, isDigit d = true) (hrest : ∀ c cs, rest = c :: cs → isDigit c = false) :
    scanInt (ds ++ rest) = some ((decimalValue ds : Int), rest) := by
  cases ds with
  | nil => exact absurd rfl hne
  | cons d ds2 =>
    have hd := hds d (List.mem_cons_self _ _)
    have hskip : skipSpace (d :: ds2 ++ rest) = d :: ds2 ++ rest := by
      have := skipSpace_run [] (d :: ds2 ++ rest) (fun c hc => absurd hc (List.not_mem_nil c))
        (by
          intro c cs e
          simp only [List.cons_append, List.cons.injEq] at e
          rw [← e.1]; exact isSpace_not_isDigit hd)
      simpa using this
    have hsc := scanDigits_run (d :: ds2) rest hne hds hrest
    obtain ⟨hm, hp⟩ := isDigit_ne_sign hd
    unfold scanInt
    rw [hskip]
    simp only [List.cons_append] at hsc ⊢
    split
    · rename_i t heq
      simp only [List.cons.injEq] at heq
      exact absurd heq.1 hm
    · rename_i t heq
      simp only [List.cons.injEq] at heq
      exact absurd heq.1 hp
    · rw [hsc]

theorem dropWhile_head {p : Char → Bool} :
    ∀ (l : List Char) (c : Char) (cs : List Char), l.dropWhile p = c :: cs → p c = false := by
  intro l
  induction l with
  | nil => intro c cs h; cases h
  | cons x xs ih =>
    intro c cs h
    rw [List.dropWhile_cons] at h
    by_cases hx : p x = true
    · rw [if_pos hx] at h; exact ih c cs h
    · rw [if_neg hx] at h
      simp only [List.cons.injEq] at h
      rw [← h.1]
      exact Bool.eq_false_iff.2 hx

theorem scanDigits_sound {s : List Char} {n : Nat} {rest : List Char}
    (h : scanDigits s = some (n, rest)) :
    ∃ ds : List Char, ds ≠ [] ∧ (∀ d ∈ ds, isDigit d = true) ∧ s = ds ++ rest ∧
      n = decimalValue ds ∧ NoDigitAhead rest := by
  unfold scanDigits at h
  by_cases he : s.takeWhile isDigit = []
  · rw [if_pos he] at h; cases h
  · rw [if_neg he] at h
    simp only [Option.some.injEq, Prod.mk.injEq] at h
    obtain ⟨h1, h2⟩ := h
    refine ⟨s.takeWhile isDigit, he, fun d hd => List.mem_takeWhile_imp hd, ?_, h1.symm, ?_⟩
    · rw [← h2]; exact (List.takeWhile_append_dropWhile isDigit s).symm
    · intro c cs e
      rw [← h2] at e
      exact dropWhile_head s c cs e

theorem space_ne_sign : isSpace '-' = false ∧ isSpace '+' = false := by
  constructor <;> decide

/-- Leading white space does not change what `%d` converts. -/
theorem scanInt_skip (ws s : List Char) (hws : ∀ c ∈ ws, isSpace c = true) :
    scanInt (ws ++ s) = scanInt s := by
  have : skipSpace (ws ++ s) = skipSpace s := by
    unfold skipSpace
    exact List.dropWhile_append_of_pos hws
  unfold scanInt
  rw [this]

theorem skipSpace_nonspace (c : Char) (s : List Char) (hc : isSpace c = false) :
    skipSpace (c :: s) = c :: s := by
  unfold skipSpace
  rw [List.dropWhile_cons, if_neg (by rw [hc]; exact Bool.false_ne_true)]

/-- What `%d` converts is an integer text, after white space. -/
theorem scanInt_sound {s : List Char} {v : Int} {rest : List Char}
    (h : scanInt s = some (v, rest)) :
    ∃ ws t : List Char, s = ws ++ (t ++ rest) ∧ (∀ c ∈ ws, isSpace c = true) ∧
      IntegerText t v ∧ NoDigitAhead rest := by
  have hsplit : s = s.takeWhile isSpace ++ skipSpace s :=
    (List.takeWhile_append_dropWhile isSpace s).symm
  have hws : ∀ c ∈ s.takeWhile isSpace, isSpace c = true := fun c hc => List.mem_takeWhile_imp hc
  unfold scanInt at h
  split at h
  · rename_i t heq
    rcases hd : scanDigits t with _ | ⟨n, r⟩
    · rw [hd] at h; cases h
    · rw [hd] at h
      simp only [Option.some.injEq, Prod.mk.injEq] at h
      obtain ⟨hv, hr⟩ := h
      obtain ⟨ds, hne, hds, ht, hn, hno⟩ := scanDigits_sound hd
      refine ⟨s.takeWhile isSpace, '-' :: ds, ?_, hws, ⟨ds, hne, hds, Or.inr (Or.inr ⟨rfl, ?_⟩)⟩,
        hr ▸ hno⟩
      · rw [← hr, List.cons_append, ← ht, ← heq]; exact hsplit
      · rw [← hv, hn]
  · rename_i t heq
    rcases hd : scanDigits t with _ | ⟨n, r⟩
    · rw [hd] at h; cases h
    · rw [hd] at h
      simp only [Option.some.injEq, Prod.mk.injEq] at h
      obtain ⟨hv, hr⟩ := h
      obtain ⟨ds, hne, hds, ht, hn, hno⟩ := scanDigits_sound hd
      refine ⟨s.takeWhile isSpace, '+' :: ds, ?_, hws, ⟨ds, hne, hds, Or.inr (Or.inl ⟨rfl, ?_⟩)⟩,
        hr ▸ hno⟩
      · rw [← hr, List.cons_append, ← ht, ← heq]; exact hsplit
      · rw [← hv, hn]
  · rename_i t _ _
    rcases hd : scanDigits (skipSpace s) with _ | ⟨n, r⟩
    · rw [hd] at h; cases h
    · rw [hd] at h
      simp only [Option.some.injEq, Prod.mk.injEq] at h
      obtain ⟨hv, hr⟩ := h
      obtain ⟨ds, hne, hds, ht, hn, hno⟩ := scanDigits_sound hd
      refine ⟨s.takeWhile isSpace, ds, ?_, hws, ⟨ds, hne, hds, Or.inl ⟨rfl, ?_⟩⟩, hr ▸ hno⟩
      · rw [← hr, ← ht]; exact hsplit
      · rw [← hv, hn]

/-- An integer text after white space is converted by `%d` to its value. -/
theorem scanInt_complete (ws t rest : List Char) (v : Int)
    (hws : ∀ c ∈ ws, isSpace c = true) (ht : IntegerText t v) (hrest : NoDigitAhead rest) :
    scanInt (ws ++ (t ++ rest)) = some (v, rest) := by
  rw [scanInt_skip ws _ hws]
  obtain ⟨ds, hne, hds, h | h | h⟩ := ht
  · obtain ⟨rfl, rfl⟩ := h
    exact scanInt_digits t rest hne hds hrest
  · obtain ⟨rfl, rfl⟩ := h
    unfold scanInt
    rw [List.cons_append, skipSpace_nonspace _ _ space_ne_sign.2]
    simp only
    rw [scanDigits_run ds rest hne hds hrest]
  · obtain ⟨rfl, rfl⟩ := h
    unfold scanInt
    rw [List.cons_append, skipSpace_nonspace _ _ space_ne_sign.1]
    simp only
    rw [scanDigits_run ds rest hne hds hrest]

theorem integerText_head {t : List Char} {v : Int} (h : IntegerText t v) :
    ∃ c cs, t = c :: cs ∧ isSpace c = false := by
  obtain ⟨ds, hne, hds, h | h | h⟩ := h
  · cases ds with
    | nil => exact absurd rfl hne
    | cons d ds2 =>
      exact ⟨d, ds2, h.1, isSpace_not_isDigit (hds d (List.mem_cons_self _ _))⟩
  · exact ⟨'+', ds, h.1, space_ne_sign.2⟩
  · exact ⟨'-', ds, h.1, space_ne_sign.1⟩

/-- The two conversions of the header on an input that begins with two integers. -/
theorem scanInt_twice {input : List Char} {w h : Int}
    (hb : BeginsWithTwoIntegers input w h) :
    ∃ s1 rest, scanInt input = some (w, s1) ∧ scanInt (skipSpace s1) = some (h, rest) := by
  obtain ⟨ws1, t1, ws2, t2, rest, rfl, hws1, hws2, ht1, ht2, hno1, hno2⟩ := hb
  obtain ⟨c, cs, hc, hcs⟩ := integerText_head ht2
  have hno : NoDigitAhead (ws2 ++ (t2 ++ rest)) := by
    intro x xs e
    cases ws2 with
    | nil =>
      rw [hc] at e
      simp only [List.nil_append, List.cons_append, List.cons.injEq] at e
      exact hno1 x cs (by rw [hc, List.nil_append, e.1])
    | cons y ys =>
      simp only [List.cons_append, List.cons.injEq] at e
      exact hno1 x (ys ++ t2) (by rw [List.cons_append, e.1])
  refine ⟨ws2 ++ (t2 ++ rest), rest, scanInt_complete ws1 t1 _ w hws1 ht1 hno, ?_⟩
  have hskip : skipSpace (ws2 ++ (t2 ++ rest)) = t2 ++ rest := by
    apply skipSpace_run ws2 _ hws2
    intro x xs e
    rw [hc] at e
    simp only [List.cons_append, List.cons.injEq] at e
    rw [← e.1]; exact hcs
  rw [hskip]
  have := scanInt_complete [] t2 rest h (fun c hc => absurd hc (List.not_mem_nil c)) ht2 hno2
  simpa using this

/-- Two successful conversions mean that the input begins with two integers. -/
theorem begins_of_scanInt {input s1 rest : List Char} {w h : Int}
    (h1 : scanInt input = some (w, s1)) (h2 : scanInt (skipSpace s1) = some (h, rest)) :
    BeginsWithTwoIntegers input w h := by
  obtain ⟨ws1, t1, e1, hws1, ht1, hno1⟩ := scanInt_sound h1
  obtain ⟨ws2, t2, e2, hws2, ht2, hno2⟩ := scanInt_sound h2
  have hsplit : s1 = s1.takeWhile isSpace ++ skipSpace s1 :=
    (List.takeWhile_append_dropWhile isSpace s1).symm
  refine ⟨ws1, t1, s1.takeWhile isSpace ++ ws2, t2, rest, ?_, hws1, ?_, ht1, ht2, ?_, hno2⟩
  · rw [e1, List.append_assoc, ← e2, ← hsplit]
  · intro c hc
    rcases List.mem_append.1 hc with hc | hc
    · exact List.mem_takeWhile_imp hc
    · exact hws2 c hc
  · intro x xs e
    apply hno1 x (xs ++ rest)
    calc s1 = s1.takeWhile isSpace ++ skipSpace s1 := hsplit
      _ = s1.takeWhile isSpace ++ (ws2 ++ (t2 ++ rest)) := by rw [e2]
      _ = (s1.takeWhile isSpace ++ ws2 ++ t2) ++ rest := by simp only [List.append_assoc]
      _ = x :: (xs ++ rest) := by rw [e]; rfl

/-! ## Reading the rows -/

theorem noteCell_frame (maze : maze_t) (i j : Int) (ch : Char) :
    (noteCell maze i j ch).width = maze.width ∧ (noteCell maze i j ch).height = maze.height ∧
    (noteCell maze i j ch).cells = maze.cells := by
  unfold noteCell
  split
  · exact ⟨rfl, rfl, rfl⟩
  · split <;> exact ⟨rfl, rfl, rfl⟩

theorem noteCell_start (maze : maze_t) (i j : Int) (ch : Char) :
    (ch = 'S' → (noteCell maze i j ch).startColumn = j ∧ (noteCell maze i j ch).startRow = i) ∧
    (ch ≠ 'S' → (noteCell maze i j ch).startColumn = maze.startColumn ∧
      (noteCell maze i j ch).startRow = maze.startRow) := by
  unfold noteCell
  constructor
  · intro h; rw [if_pos h]; exact ⟨rfl, rfl⟩
  · intro h; rw [if_neg h]
    split <;> exact ⟨rfl, rfl⟩

theorem noteCell_end (maze : maze_t) (i j : Int) (ch : Char) :
    (ch = 'E' → (noteCell maze i j ch).endColumn = j ∧ (noteCell maze i j ch).endRow = i) ∧
    (ch ≠ 'E' → (noteCell maze i j ch).endColumn = maze.endColumn ∧
      (noteCell maze i j ch).endRow = maze.endRow) := by
  unfold noteCell
  constructor
  · intro h
    have hs : ch ≠ 'S' := by rw [h]; decide
    rw [if_neg hs, if_pos h]; exact ⟨rfl, rfl⟩
  · intro h
    split
    · exact ⟨rfl, rfl⟩
    · simp only [if_neg h, and_self]

theorem readCells_cons (i : Int) (n : Nat) (j : Int) (maze : maze_t) (ch : Char)
    (s : List Char) :
    readCells i (n + 1) j maze (ch :: s) =
      (ch :: (readCells i n (j + 1) (noteCell maze i j ch) s).1,
        (readCells i n (j + 1) (noteCell maze i j ch) s).2.1,
        (readCells i n (j + 1) (noteCell maze i j ch) s).2.2) := rfl

theorem lastInRow_cons {ch x : Char} {r : List Char} {c : Nat}
    (h : LastInRow ch (x :: r) c) :
    (c = 0 ∧ x = ch ∧ ch ∉ r) ∨ (∃ c2, c = c2 + 1 ∧ LastInRow ch r c2) := by
  obtain ⟨h1, h2⟩ := h
  cases c with
  | zero =>
    left
    simp only [List.getElem?_cons_zero, Option.some.injEq] at h1
    refine ⟨rfl, h1, ?_⟩
    intro hmem
    obtain ⟨n, hn⟩ := List.mem_iff_getElem?.1 hmem
    exact h2 (n + 1) (Nat.succ_pos n) (by rw [List.getElem?_cons_succ]; exact hn)
  | succ c2 =>
    right
    refine ⟨c2, rfl, ?_, ?_⟩
    · rw [List.getElem?_cons_succ] at h1; exact h1
    · intro c3 hc3
      have := h2 (c3 + 1) (Nat.succ_lt_succ hc3)
      rw [List.getElem?_cons_succ] at this
      exact this

/-- The inner loop on a stream that begins with the row `r`: it reads `r`,
leaves the rest, and leaves the start (end) coordinates at the last `'S'`
(`'E'`) of the row, or unchanged when the row has none. -/
theorem readCells_row (i : Int) :
    ∀ (r : List Char) (j : Int) (maze : maze_t) (s : List Char),
      (readCells i r.length j maze (r ++ s)).1 = r ∧
      (readCells i r.length j maze (r ++ s)).2.2 = s ∧
      (readCells i r.length j maze (r ++ s)).2.1.width = maze.width ∧
      (readCells i r.length j maze (r ++ s)).2.1.height = maze.height ∧
      (readCells i r.length j maze (r ++ s)).2.1.cells = maze.cells ∧
      ('S' ∉ r →
        (readCells i r.length j maze (r ++ s)).2.1.startColumn = maze.startColumn ∧
        (readCells i r.length j maze (r ++ s)).2.1.startRow = maze.startRow) ∧
      (∀ c, LastInRow 'S' r c →
        (readCells i r.length j maze (r ++ s)).2.1.startColumn = j + c ∧
        (readCells i r.length j maze (r ++ s)).2.1.startRow = i) ∧
      ('E' ∉ r →
        (readCells i r.length j maze (r ++ s)).2.1.endColumn = maze.endColumn ∧
        (readCells i r.length j maze (r ++ s)).2.1.endRow = maze.endRow) ∧
      (∀ c, LastInRow 'E' r c →
        (readCells i r.length j maze (r ++ s)).2.1.endColumn = j + c ∧
        (readCells i r.length j maze (r ++ s)).2.1.endRow = i) := by
  intro r
  induction r with
  | nil =>
    intro j maze s
    refine ⟨rfl, rfl, rfl, rfl, rfl, fun _ => ⟨rfl, rfl⟩, ?_, fun _ => ⟨rfl, rfl⟩, ?_⟩
    · intro c hc; simp [LastInRow] at hc
    · intro c hc; simp [LastInRow] at hc
  | cons x r ih =>
    intro j maze s
    obtain ⟨h1, h2, h3, h4, h5, h6, h7, h8, h9⟩ := ih (j + 1) (noteCell maze i j x) s
    obtain ⟨f1, f2, f3⟩ := noteCell_frame maze i j x
    obtain ⟨s1, s2⟩ := noteCell_start maze i j x
    obtain ⟨e1, e2⟩ := noteCell_end maze i j x
    rw [List.length_cons, List.cons_append, readCells_cons]
    refine ⟨by rw [h1], h2, h3.trans f1, h4.trans f2, h5.trans f3, ?_, ?_, ?_, ?_⟩
    · intro hno
      have hx : x ≠ 'S' := fun e => hno (e ▸ List.mem_cons_self _ _)
      have hr : 'S' ∉ r := fun e => hno (List.mem_cons_of_mem _ e)
      exact ⟨(h6 hr).1.trans (s2 hx).1, (h6 hr).2.trans (s2 hx).2⟩
    · intro c hc
      rcases lastInRow_cons hc with ⟨rfl, hx, hr⟩ | ⟨c2, rfl, hc2⟩
      · refine ⟨(h6 hr).1.trans ?_, (h6 hr).2.trans (s1 hx).2⟩
        rw [(s1 hx).1]; simp
      · refine ⟨(h7 c2 hc2).1.trans ?_, (h7 c2 hc2).2⟩
        push_cast; ring
    · intro hno
      have hx : x ≠ 'E' := fun e => hno (e ▸ List.mem_cons_self _ _)
      have hr : 'E' ∉ r := fun e => hno (List.mem_cons_of_mem _ e)
      exact ⟨(h8 hr).1.trans (e2 hx).1, (h8 hr).2.trans (e2 hx).2⟩
    · intro c hc
      rcases lastInRow_cons hc with ⟨rfl, hx, hr⟩ | ⟨c2, rfl, hc2⟩
      · refine ⟨(h8 hr).1.trans ?_, (h8 hr).2.trans (e1 hx).2⟩
        rw [(e1 hx).1]; simp
      · refine ⟨(h9 c2 hc2).1.trans ?_, (h9 c2 hc2).2⟩
        push_cast; ring

theorem readRows_succ (env : Env) (n : Nat) (i : Int) (maze : maze_t) (s : List Char) :
    readRows env (n + 1) i maze s =
      if env.mallocRow i maze.width then
        readRows env n (i + 1)
          { (readCells i maze.width.toNat 0 maze s).2.1 with
            cells := (readCells i maze.width.toNat 0 maze s).2.1.cells
              ++ [(readCells i maze.width.toNat 0 maze s).1] }
          (fgetc (readCells i maze.width.toNat 0 maze s).2.2).2
      else Loaded.null := rfl

theorem lastInRows_cons {ch : Char} {r : List Char} {rows : List (List Char)} {k c : Nat}
    (h : LastInRows ch (r :: rows) k c) :
    (k = 0 ∧ LastInRow ch r c ∧ ∀ r2 ∈ rows, ch ∉ r2) ∨
      (∃ k2, k = k2 + 1 ∧ LastInRows ch rows k2 c) := by
  obtain ⟨r0, h1, h2, h3⟩ := h
  cases k with
  | zero =>
    left
    simp only [List.getElem?_cons_zero, Option.some.injEq] at h1
    refine ⟨rfl, h1 ▸ h2, ?_⟩
    intro r2 hr2
    obtain ⟨n, hn⟩ := List.mem_iff_getElem?.1 hr2
    exact h3 (n + 1) r2 (Nat.succ_pos n) (by rw [List.getElem?_cons_succ]; exact hn)
  | succ k2 =>
    right
    refine ⟨k2, rfl, r0, ?_, h2, ?_⟩
    · rw [List.getElem?_cons_succ] at h1; exact h1
    · intro k3 r3 hk3 hr3
      exact h3 (k3 + 1) r3 (Nat.succ_lt_succ hk3) (by rw [List.getElem?_cons_succ]; exact hr3)

/-- The outer loop on the text of rows of the width of the maze, every row
allocation succeeding: it returns a maze whose buffer has these rows appended
and whose start (end) coordinates are those of the last `'S'` (`'E'`) of the
rows in row-major order, or unchanged when there is none. -/
theorem readRows_rows (env : Env) :
    ∀ (rows : List (List Char)) (i : Int) (maze : maze_t),
      (∀ r ∈ rows, r.length = maze.width.toNat) →
      (∀ k, env.mallocRow k maze.width = true) →
      ∃ m2, readRows env rows.length i maze (rowsText rows) = Loaded.grid m2 ∧
        m2.width = maze.width ∧ m2.height = maze.height ∧ m2.cells = maze.cells ++ rows ∧
        ((∀ r ∈ rows, 'S' ∉ r) →
          m2.startColumn = maze.startColumn ∧ m2.startRow = maze.startRow) ∧
        (∀ k c, LastInRows 'S' rows k c → m2.startColumn = c ∧ m2.startRow = i + k) ∧
        ((∀ r ∈ rows, 'E' ∉ r) →
          m2.endColumn = maze.endColumn ∧ m2.endRow = maze.endRow) ∧
        (∀ k c, LastInRows 'E' rows k c → m2.endColumn = c ∧ m2.endRow = i + k) := by
  intro rows
  induction rows with
  | nil =>
    intro i maze _ _
    refine ⟨maze, rfl, rfl, rfl, by simp, fun _ => ⟨rfl, rfl⟩, ?_, fun _ => ⟨rfl, rfl⟩, ?_⟩
    · intro k c h; obtain ⟨r, hr, _⟩ := h; simp at hr
    · intro k c h; obtain ⟨r, hr, _⟩ := h; simp at hr
  | cons r rest ih =>
    intro i maze hlen halloc
    have hr : maze.width.toNat = r.length := (hlen r (List.mem_cons_self _ _)).symm
    obtain ⟨c1, c2, c3, c4, c5, c6, c7, c8, c9⟩ :=
      readCells_row i r 0 maze ('\n' :: rowsText rest)
    rw [List.length_cons, rowsText, readRows_succ, if_pos (halloc i), hr, c1, c2]
    obtain ⟨m2, g1, g2, g3, g4, g5, g6, g7, g8⟩ := ih (i + 1)
      { (readCells i r.length 0 maze (r ++ '\n' :: rowsText rest)).2.1 with
        cells := (readCells i r.length 0 maze (r ++ '\n' :: rowsText rest)).2.1.cells ++ [r] }
      (by
        intro x hx
        show x.length = (readCells i r.length 0 maze (r ++ '\n' :: rowsText rest)).2.1.width.toNat
        rw [c3]; exact hlen x (List.mem_cons_of_mem _ hx))
      (by
        intro k
        show env.mallocRow k
          (readCells i r.length 0 maze (r ++ '\n' :: rowsText rest)).2.1.width = true
        rw [c3]; exact halloc k)
    refine ⟨m2, g1, g2.trans c3, g3.trans c4, ?_, ?_, ?_, ?_, ?_⟩
    · rw [g4]
      show (readCells i r.length 0 maze (r ++ '\n' :: rowsText rest)).2.1.cells ++ [r] ++ rest
        = maze.cells ++ r :: rest
      rw [c5]; simp
    · intro hno
      have h1 := g5 (fun x hx => hno x (List.mem_cons_of_mem _ hx))
      have h2 := c6 (hno r (List.mem_cons_self _ _))
      exact ⟨h1.1.trans h2.1, h1.2.trans h2.2⟩
    · intro k c hk
      rcases lastInRows_cons hk with ⟨rfl, hrow, hrest⟩ | ⟨k2, rfl, hk2⟩
      · have h1 := g5 hrest
        have h2 := c7 c hrow
        refine ⟨h1.1.trans (h2.1.trans (by simp)), h1.2.trans (h2.2.trans (by simp))⟩
      · have h1 := g6 k2 c hk2
        refine ⟨h1.1, h1.2.trans (by push_cast; ring)⟩
    · intro hno
      have h1 := g7 (fun x hx => hno x (List.mem_cons_of_mem _ hx))
      have h2 := c8 (hno r (List.mem_cons_self _ _))
      exact ⟨h1.1.trans h2.1, h1.2.trans h2.2⟩
    · intro k c hk
      rcases lastInRows_cons hk with ⟨rfl, hrow, hrest⟩ | ⟨k2, rfl, hk2⟩
      · have h1 := g7 hrest
        have h2 := c9 c hrow
        refine ⟨h1.1.trans (h2.1.trans (by simp)), h1.2.trans (h2.2.trans (by simp))⟩
      · have h1 := g8 k2 c hk2
        refine ⟨h1.1, h1.2.trans (by push_cast; ring)⟩

/-- An integer that fits `int` is stored as it is. -/
theorem storeInt_of_fits {v : Int} (h : fitsInt v) : storeInt v = v := by
  unfold fitsInt at h
  unfold storeInt
  omega

/-- What is stored fits `int`. -/
theorem fitsInt_storeInt (v : Int) : fitsInt (storeInt v) := by
  unfold fitsInt storeInt
  omega

/-- The header of a maze file is read as its two numbers, and the white-space
directive that ends the format goes on into the text of the rows. -/
theorem scanHeader_fileText (ds1 ds2 : List Char) (rows : List (List Char))
    (hd1 : ds1 ≠ []) (hd2 : ds2 ≠ [])
    (hds1 : ∀ d ∈ ds1, isDigit d = true) (hds2 : ∀ d ∈ ds2, isDigit d = true)
    (hw : fitsInt (decimalValue ds1)) (hh : fitsInt (decimalValue ds2)) :
    scanHeader (fileText ds1 ds2 rows) =
      Header.read (decimalValue ds1) (decimalValue ds2) (skipSpace (rowsText rows)) := by
  have h1 : scanInt (fileText ds1 ds2 rows)
      = some ((decimalValue ds1 : Int), ' ' :: (ds2 ++ '\n' :: rowsText rows)) :=
    scanInt_digits ds1 _ hd1 hds1 (by
      intro c cs e
      simp only [List.cons.injEq] at e
      rw [← e.1]; decide)
  have h2 : skipSpace (' ' :: (ds2 ++ '\n' :: rowsText rows)) = ds2 ++ '\n' :: rowsText rows := by
    cases ds2 with
    | nil => exact absurd rfl hd2
    | cons d ds =>
      have hd := isSpace_not_isDigit (hds2 d (List.mem_cons_self _ _))
      have := skipSpace_run [' '] (d :: ds ++ '\n' :: rowsText rows)
        (by intro c hc; rw [List.mem_singleton.1 hc]; decide)
        (by
          intro c cs e
          simp only [List.cons_append, List.cons.injEq] at e
          rw [← e.1]; exact hd)
      simpa using this
  have h3 : scanInt (ds2 ++ '\n' :: rowsText rows)
      = some ((decimalValue ds2 : Int), '\n' :: rowsText rows) :=
    scanInt_digits ds2 _ hd2 hds2 (by
      intro c cs e
      simp only [List.cons.injEq] at e
      rw [← e.1]; decide)
  have h4 : skipSpace ('\n' :: rowsText rows) = skipSpace (rowsText rows) := by
    unfold skipSpace
    rw [List.dropWhile_cons, if_pos (by decide)]
  unfold scanHeader
  rw [h1]
  simp only
  rw [h2, h3]
  simp only
  rw [h4, storeInt_of_fits hw, storeInt_of_fits hh]

/-! ## The loader on a well-formed file -/

/-- On the text of a maze file whose rows do not begin with white space, all
allocations succeeding, `createMaze` returns the maze with the dimensions of
the header, the rows of the file as its buffer, and the start (end) coordinates
of the last `'S'` (`'E'`) in row-major order. -/
theorem createMaze_fileText (env : Env) (fileName : String) (fresh : maze_t)
    (ds1 ds2 : List Char) (rows : List (List Char))
    (hopen : env.fopen fileName = some (fileText ds1 ds2 rows))
    (hfresh : env.mallocMaze = some fresh)
    (hd1 : ds1 ≠ []) (hd2 : ds2 ≠ [])
    (hds1 : ∀ d ∈ ds1, isDigit d = true) (hds2 : ∀ d ∈ ds2, isDigit d = true)
    (hw : fitsInt (decimalValue ds1)) (hh : fitsInt (decimalValue ds2))
    (hrows : rows.length = decimalValue ds2)
    (hcols : ∀ r ∈ rows, r.length = decimalValue ds1)
    (hfirst : ∀ c cs, rowsText rows = c :: cs → isSpace c = false)
    (hcells : env.mallocCells (decimalValue ds2) = true)
    (hrow : ∀ k, env.mallocRow k (decimalValue ds1) = true) :
    ∃ m, createMaze env fileName = Loaded.grid m ∧
      m.width = decimalValue ds1 ∧ m.height = decimalValue ds2 ∧ m.cells = rows ∧
      ((∀ r ∈ rows, 'S' ∉ r) →
        m.startColumn = fresh.startColumn ∧ m.startRow = fresh.startRow) ∧
      (∀ k c, LastInRows 'S' rows k c → m.startColumn = c ∧ m.startRow = k) ∧
      ((∀ r ∈ rows, 'E' ∉ r) →
        m.endColumn = fresh.endColumn ∧ m.endRow = fresh.endRow) ∧
      (∀ k c, LastInRows 'E' rows k c → m.endColumn = c ∧ m.endRow = k) := by
  have hskip : skipSpace (rowsText rows) = rowsText rows := by
    have := skipSpace_run [] (rowsText rows) (fun c hc => absurd hc (List.not_mem_nil c)) hfirst
    simpa using this
  obtain ⟨m, g1, g2, g3, g4, g5, g6, g7, g8⟩ := readRows_rows env rows 0
    { fresh with width := decimalValue ds1, height := decimalValue ds2, cells := [] }
    (by intro r hr; rw [hcols r hr]; simp)
    hrow
  refine ⟨m, ?_, g2, g3, by simpa using g4, g5, ?_, g7, ?_⟩
  · unfold createMaze
    rw [hopen, hfresh]
    simp only
    rw [scanHeader_fileText ds1 ds2 rows hd1 hd2 hds1 hds2 hw hh, hskip]
    simp only
    have hn : ((decimalValue ds2 : Nat) : Int).toNat = rows.length := by
      rw [Int.toNat_natCast, hrows]
    rw [if_pos hcells, hn]
    exact g1
  · intro k c hk
    have := g6 k c hk
    exact ⟨this.1, this.2.trans (by simp)⟩
  · intro k c hk
    have := g8 k c hk
    exact ⟨this.1, this.2.trans (by simp)⟩

/-- A cell holding `ch` with no such cell after it in row-major order is the
last one in the rows of the buffer. -/
theorem lastInRows_of_cellAt {m : maze_t} {ch : Char} {c r : Int}
    (h : cellAt m c r = some ch)
    (hlast : ∀ c2 r2, cellAt m c2 r2 = some ch → r2 < r ∨ (r2 = r ∧ c2 ≤ c)) :
    LastInRows ch m.cells r.toNat c.toNat := by
  obtain ⟨hc, hr⟩ := cellAt_nonneg h
  obtain ⟨cs, hrow, hcol⟩ := cellAt_rows h
  refine ⟨cs, hrow, ⟨hcol, ?_⟩, ?_⟩
  · intro c2 hc2 e
    have hcell : cellAt m (c2 : Int) r = some ch := by
      rw [cellAt_of_rows (Int.natCast_nonneg c2) hr hrow, Int.toNat_natCast]; exact e
    rcases hlast _ _ hcell with h1 | ⟨_, h1⟩ <;> omega
  · intro k2 r2 hk2 hr2 hmem
    obtain ⟨n, hn⟩ := List.mem_iff_getElem?.1 hmem
    have hcell : cellAt m (n : Int) (k2 : Int) = some ch := by
      rw [cellAt_of_rows (Int.natCast_nonneg n) (Int.natCast_nonneg k2)
        (by rw [Int.toNat_natCast]; exact hr2), Int.toNat_natCast]
      exact hn
    rcases hlast _ _ hcell with h1 | ⟨h1, _⟩ <;> omega

/-! ## The printer -/

theorem printRow_succ (maze : maze_t) (i : Int) (n : Nat) (j : Int) :
    printRow maze i (n + 1) j =
      match cellAt maze j i with
      | none => none
      | some ch =>
        match printRow maze i n (j + 1) with
        | none => none
        | some out => some (ch :: out) := rfl

theorem printRows_succ (maze : maze_t) (n : Nat) (i : Int) :
    printRows maze (n + 1) i =
      match printRow maze i maze.width.toNat 0 with
      | none => none
      | some out =>
        match printRows maze n (i + 1) with
        | none => none
        | some more => some (out ++ more) := rfl

/-- One printed line is the rest of the row and a newline. -/
theorem printRow_row {maze : maze_t} {i : Int} {cs : List Char} (hi : 0 ≤ i)
    (hrow : maze.cells[i.toNat]? = some cs) :
    ∀ (n : Nat) (j : Int), 0 ≤ j → n + j.toNat = cs.length →
      printRow maze i n j = some (cs.drop j.toNat ++ ['\n']) := by
  intro n
  induction n with
  | zero =>
    intro j _ hn
    have : cs.drop j.toNat = [] := List.drop_of_length_le (by omega)
    rw [this]; rfl
  | succ n ih =>
    intro j hj hn
    have hlt : j.toNat < cs.length := by omega
    have hcell : cellAt maze j i = some cs[j.toNat] := by
      rw [cellAt_of_rows hj hi hrow]; exact List.getElem?_eq_getElem hlt
    have hnext := ih (j + 1) (by omega) (by omega)
    have htn : (j + 1).toNat = j.toNat + 1 := by omega
    rw [printRow_succ, hcell]
    simp only
    rw [hnext, htn]
    simp only
    rw [← List.cons_append, List.drop_eq_getElem_cons hlt]

/-- The printed lines are the rows of the buffer from row `i` on. -/
theorem printRows_rows {maze : maze_t}
    (hcols : ∀ r ∈ maze.cells, r.length = maze.width.toNat) :
    ∀ (n : Nat) (i : Int), 0 ≤ i → n + i.toNat = maze.cells.length →
      printRows maze n i = some (rowsText (maze.cells.drop i.toNat)) := by
  intro n
  induction n with
  | zero =>
    intro i _ hn
    have : maze.cells.drop i.toNat = [] := List.drop_of_length_le (by omega)
    rw [this]; rfl
  | succ n ih =>
    intro i hi hn
    have hlt : i.toNat < maze.cells.length := by omega
    have hrow : maze.cells[i.toNat]? = some maze.cells[i.toNat] := List.getElem?_eq_getElem hlt
    have hlen := hcols _ (List.getElem_mem hlt)
    have hline := printRow_row hi hrow maze.width.toNat 0 (le_refl 0) (by simp [hlen])
    have hnext := ih (i + 1) (by omega) (by omega)
    have htn : (i + 1).toNat = i.toNat + 1 := by omega
    rw [printRows_succ, hline]
    simp only
    rw [hnext, htn]
    simp only [Int.toNat_zero, List.drop_zero]
    rw [List.drop_eq_getElem_cons hlt, rowsText, List.append_assoc]
    rfl

/-- On a maze whose buffer matches its dimensions `printMaze` prints the rows
of the buffer, each followed by a newline. -/
theorem printMaze_rows {maze : maze_t} (hrows : maze.cells.length = maze.height.toNat)
    (hcols : ∀ r ∈ maze.cells, r.length = maze.width.toNat) :
    printMaze (some maze) = some (rowsText maze.cells) := by
  have := printRows_rows hcols maze.height.toNat 0 (le_refl 0) (by simp [hrows])
  simpa [printMaze] using this

/-! ## The dimensions of a maze that `createMaze` returns -/

theorem readCells_succ (i : Int) (n : Nat) (j : Int) (maze : maze_t) (s : List Char) :
    readCells i (n + 1) j maze s =
      ((fgetc s).1 :: (readCells i n (j + 1) (noteCell maze i j (fgetc s).1) (fgetc s).2).1,
        (readCells i n (j + 1) (noteCell maze i j (fgetc s).1) (fgetc s).2).2.1,
        (readCells i n (j + 1) (noteCell maze i j (fgetc s).1) (fgetc s).2).2.2) := rfl

/-- The inner loop reads `n` characters and keeps dimensions and buffer. -/
theorem readCells_frame (i : Int) :
    ∀ (n : Nat) (j : Int) (maze : maze_t) (s : List Char),
      (readCells i n j maze s).1.length = n ∧
      (readCells i n j maze s).2.1.width = maze.width ∧
      (readCells i n j maze s).2.1.height = maze.height ∧
      (readCells i n j maze s).2.1.cells = maze.cells := by
  intro n
  induction n with
  | zero => intro j maze s; exact ⟨rfl, rfl, rfl, rfl⟩
  | succ n ih =>
    intro j maze s
    obtain ⟨h1, h2, h3, h4⟩ := ih (j + 1) (noteCell maze i j (fgetc s).1) (fgetc s).2
    obtain ⟨f1, f2, f3⟩ := noteCell_frame maze i j (fgetc s).1
    rw [readCells_succ]
    exact ⟨by simp [h1], h2.trans f1, h3.trans f2, h4.trans f3⟩

/-- The outer loop, when it returns a maze: dimensions are kept, `n` rows of
`width` characters are appended to the buffer, and row allocation succeeded
when there was a row to read. -/
theorem readRows_dims (env : Env) :
    ∀ (n : Nat) (i : Int) (maze : maze_t) (s : List Char) (m2 : maze_t),
      readRows env n i maze s = Loaded.grid m2 →
      m2.width = maze.width ∧ m2.height = maze.height ∧
      m2.cells.length = maze.cells.length + n ∧
      (∀ r ∈ m2.cells, r ∈ maze.cells ∨ r.length = maze.width.toNat) ∧
      (0 < n → env.mallocRow i maze.width = true) := by
  intro n
  induction n with
  | zero =>
    intro i maze s m2 h
    have : m2 = maze := by
      have h2 : Loaded.grid maze = Loaded.grid m2 := h
      injection h2 with h3
      exact h3.symm
    subst this
    exact ⟨rfl, rfl, rfl, fun r hr => Or.inl hr, fun h0 => absurd h0 (Nat.lt_irrefl 0)⟩
  | succ n ih =>
    intro i maze s m2 h
    rw [readRows_succ] at h
    by_cases ha : env.mallocRow i maze.width = true
    · rw [if_pos ha] at h
      obtain ⟨c1, c2, c3, c4⟩ := readCells_frame i maze.width.toNat 0 maze s
      obtain ⟨g1, g2, g3, g4, _⟩ := ih _ _ _ _ h
      refine ⟨g1.trans c2, g2.trans c3, ?_, ?_, fun _ => ha⟩
      · rw [g3]
        show ((readCells i maze.width.toNat 0 maze s).2.1.cells
          ++ [(readCells i maze.width.toNat 0 maze s).1]).length + n = maze.cells.length + (n + 1)
        rw [c4, List.length_append, List.length_singleton]
        omega
      · intro r hr
        rcases g4 r hr with h1 | h1
        · have h2 : r ∈ (readCells i maze.width.toNat 0 maze s).2.1.cells
              ++ [(readCells i maze.width.toNat 0 maze s).1] := h1
          rw [c4] at h2
          rcases List.mem_append.1 h2 with h3 | h3
          · exact Or.inl h3
          · right
            rw [List.mem_singleton.1 h3]; exact c1
        · right
          have h2 : r.length = (readCells i maze.width.toNat 0 maze s).2.1.width.toNat := h1
          rw [c2] at h2; exact h2
    · rw [if_neg ha] at h
      cases h

/-- A maze that `createMaze` returns: the header was read as its width and
height, both allocations of the buffer succeeded, and the buffer has `height`
rows of `width` characters (none for a dimension that is not positive). -/
theorem createMaze_dims {env : Env} {fileName : String} {m : maze_t}
    (h : createMaze env fileName = Loaded.grid m) :
    ∃ input s, env.fopen fileName = some input ∧
      scanHeader input = Header.read m.width m.height s ∧
      env.mallocCells m.height = true ∧
      m.cells.length = m.height.toNat ∧
      (∀ r ∈ m.cells, r.length = m.width.toNat) ∧
      (0 < m.height.toNat → env.mallocRow 0 m.width = true) := by
  unfold createMaze at h
  rcases hopen : env.fopen fileName with _ | input
  · rw [hopen] at h; cases h
  · rw [hopen] at h
    simp only at h
    rcases hfresh : env.mallocMaze with _ | fresh
    · rw [hfresh] at h; cases h
    · rw [hfresh] at h
      simp only at h
      rcases hhead : scanHeader input with _ | ⟨w, ht, s⟩
      · rw [hhead] at h; cases h
      · rw [hhead] at h
        simp only at h
        by_cases hc : env.mallocCells ht = true
        · rw [if_pos hc] at h
          obtain ⟨g1, g2, g3, g4, g5⟩ := readRows_dims env _ _ _ _ _ h
          have e1 : m.width = w := g1
          have e2 : m.height = ht := g2
          refine ⟨input, s, rfl, by rw [e1, e2]; exact hhead, by rw [e2]; exact hc, ?_, ?_, ?_⟩
          · rw [e2, g3]; simp
          · intro r hr
            rcases g4 r hr with h1 | h1
            · exact absurd h1 (List.not_mem_nil r)
            · rw [e1]; exact h1
          · intro hpos
            rw [e1]
            exact g5 (by rw [← e2]; exact hpos)
        · rw [if_neg hc] at h; cases h

/-- What `scanHeader` reads are the two integers the input begins with, as
stored in an `int`. -/
theorem begins_of_scanHeader {input s : List Char} {w h : Int}
    (hh : scanHeader input = Header.read w h s) :
    ∃ w0 h0, BeginsWithTwoIntegers input w0 h0 ∧ w = storeInt w0 ∧ h = storeInt h0 := by
  unfold scanHeader at hh
  rcases h1 : scanInt input with _ | ⟨w1, s1⟩
  · rw [h1] at hh; cases hh
  · rw [h1] at hh
    simp only at hh
    rcases h2 : scanInt (skipSpace s1) with _ | ⟨h3, s2⟩
    · rw [h2] at hh; cases hh
    · rw [h2] at hh
      simp only at hh
      injection hh with e1 e2 e3
      exact ⟨w1, h3, begins_of_scanInt h1 h2, e1.symm, e2.symm⟩

/-- On an input that begins with two integers `scanHeader` reads these two, as
stored in an `int`. -/
theorem scanHeader_of_begins {input : List Char} {w h : Int}
    (hb : BeginsWithTwoIntegers input w h) :
    ∃ s, scanHeader input = Header.read (storeInt w) (storeInt h) s := by
  obtain ⟨s1, rest, h1, h2⟩ := scanInt_twice hb
  unfold scanHeader
  rw [h1]
  simp only
  rw [h2]
  exact ⟨_, rfl⟩

/-- A maze that `createMaze` returns has the two integers the input begins with,
as stored in an `int`, for width and height, whichever way the beginning of
the input is read as two integers. -/
theorem createMaze_stored {env : Env} {fileName : String} {input : List Char} {m : maze_t}
    (hopen : env.fopen fileName = some input)
    (h : createMaze env fileName = Loaded.grid m) {w h0 : Int}
    (hb : BeginsWithTwoIntegers input w h0) :
    m.width = storeInt w ∧ m.height = storeInt h0 := by
  obtain ⟨input2, s, ho, hh, _⟩ := createMaze_dims h
  rw [hopen] at ho
  injection ho with ho
  subst ho
  obtain ⟨s2, hs2⟩ := scanHeader_of_begins hb
  rw [hh] at hs2
  injection hs2 with e1 e2 _
  exact ⟨e1, e2⟩

/-- Without two integers at the beginning of the input `createMaze` returns `NULL`. -/
theorem createMaze_null_of_not_begins {env : Env} {fileName : String} {input : List Char}
    (hopen : env.fopen fileName = some input)
    (hno : ¬ ∃ w h, BeginsWithTwoIntegers input w h) :
    createMaze env fileName = Loaded.null := by
  rcases hres : createMaze env fileName with _ | m
  · rfl
  · exfalso
    obtain ⟨input2, s, ho, hh, _⟩ := createMaze_dims hres
    rw [hopen] at ho
    injection ho with ho
    subst ho
    obtain ⟨w0, h0, hb, _, _⟩ := begins_of_scanHeader hh
    exact hno ⟨w0, h0, hb⟩

/-! ## The properties of `createMaze` and `printMaze`, and of the search on its results -/

/-- On a well-formed maze file whose rows do not begin with white space, all
allocations succeeding, `createMaze` returns a maze with the dimensions of the
header and the rows of the file as its buffer; `printMaze` prints these rows;
and the start (end) coordinates are those of the last cell holding `'S'`
(`'E'`) in row-major order. -/
theorem createMaze_wellFormed_file (env : Env) (fileName : String) (fresh : maze_t)
    (ds1 ds2 : List Char) (rows : List (List Char))
    (hopen : env.fopen fileName = some (fileText ds1 ds2 rows))
    (hfresh : env.mallocMaze = some fresh)
    (hd1 : ds1 ≠ []) (hd2 : ds2 ≠ [])
    (hds1 : ∀ d ∈ ds1, isDigit d = true) (hds2 : ∀ d ∈ ds2, isDigit d = true)
    (hw : fitsInt (decimalValue ds1)) (hh : fitsInt (decimalValue ds2))
    (hrows : rows.length = decimalValue ds2)
    (hcols : ∀ r ∈ rows, r.length = decimalValue ds1)
    (hfirst : ∀ c cs, rowsText rows = c :: cs → isSpace c = false)
    (hcells : env.mallocCells (decimalValue ds2) = true)
    (hrow : ∀ k, env.mallocRow k (decimalValue ds1) = true) :
    ∃ m, createMaze env fileName = Loaded.grid m ∧
      m.width = decimalValue ds1 ∧ m.height = decimalValue ds2 ∧ m.cells = rows ∧
      WellFormed m ∧
      printMaze (some m) = some (rowsText rows) ∧
      (∀ c r, cellAt m c r = some 'S' →
        (∀ c2 r2, cellAt m c2 r2 = some 'S' → r2 < r ∨ (r2 = r ∧ c2 ≤ c)) →
        m.startColumn = c ∧ m.startRow = r) ∧
      (∀ c r, cellAt m c r = some 'E' →
        (∀ c2 r2, cellAt m c2 r2 = some 'E' → r2 < r ∨ (r2 = r ∧ c2 ≤ c)) →
        m.endColumn = c ∧ m.endRow = r) := by
  obtain ⟨m, g1, g2, g3, g4, _, g6, _, g8⟩ := createMaze_fileText env fileName fresh ds1 ds2
    rows hopen hfresh hd1 hd2 hds1 hds2 hw hh hrows hcols hfirst hcells hrow
  have hwf : WellFormed m := by
    refine ⟨?_, ?_⟩
    · rw [g4, g3, hrows]
    · intro r hr
      rw [g4] at hr
      rw [g2, hcols r hr]
  refine ⟨m, g1, g2, g3, g4, hwf, ?_, ?_, ?_⟩
  · rw [← g4]
    apply printMaze_rows
    · rw [g4, g3, hrows]; simp
    · intro r hr
      rw [g4] at hr
      rw [g2, hcols r hr]; simp
  · intro c r hcell hlast
    obtain ⟨hc, hr⟩ := cellAt_nonneg hcell
    have := g6 r.toNat c.toNat (g4 ▸ lastInRows_of_cellAt hcell hlast)
    exact ⟨this.1.trans (Int.toNat_of_nonneg hc), this.2.trans (Int.toNat_of_nonneg hr)⟩
  · intro c r hcell hlast
    obtain ⟨hc, hr⟩ := cellAt_nonneg hcell
    have := g8 r.toNat c.toNat (g4 ▸ lastInRows_of_cellAt hcell hlast)
    exact ⟨this.1.trans (Int.toNat_of_nonneg hc), this.2.trans (Int.toNat_of_nonneg hr)⟩

/-- On a well-formed maze file whose rows do not begin with white space and
hold exactly one `'S'` and exactly one `'E'`, all allocations succeeding,
`createMaze` returns a maze whose start and end coordinates are the column and
row of the `'S'` and of the `'E'`, inside the bounds. -/
theorem createMaze_single_markers (env : Env) (fileName : String) (fresh : maze_t)
    (ds1 ds2 : List Char) (rows : List (List Char))
    (hopen : env.fopen fileName = some (fileText ds1 ds2 rows))
    (hfresh : env.mallocMaze = some fresh)
    (hd1 : ds1 ≠ []) (hd2 : ds2 ≠ [])
    (hds1 : ∀ d ∈ ds1, isDigit d = true) (hds2 : ∀ d ∈ ds2, isDigit d = true)
    (hw : fitsInt (decimalValue ds1)) (hh : fitsInt (decimalValue ds2))
    (hrows : rows.length = decimalValue ds2)
    (hcols : ∀ r ∈ rows, r.length = decimalValue ds1)
    (hfirst : ∀ c cs, rowsText rows = c :: cs → isSpace c = false)
    (hcells : env.mallocCells (decimalValue ds2) = true)
    (hrow : ∀ k, env.mallocRow k (decimalValue ds1) = true)
    (hS : (rows.map (List.count 'S')).sum = 1) (hE : (rows.map (List.count 'E')).sum = 1) :
    ∃ m, createMaze env fileName = Loaded.grid m ∧ m.cells = rows ∧
      (∀ c r, cellAt m c r = some 'S' →
        m.startColumn = c ∧ m.startRow = r ∧ InBounds m c r) ∧
      (∀ c r, cellAt m c r = some 'E' →
        m.endColumn = c ∧ m.endRow = r ∧ InBounds m c r) := by
  obtain ⟨m, g1, _, _, g4, hwf, _, g7, g8⟩ := createMaze_wellFormed_file env fileName fresh
    ds1 ds2 rows hopen hfresh hd1 hd2 hds1 hds2 hw hh hrows hcols hfirst hcells hrow
  have hS2 : countChar m 'S' = 1 := by unfold countChar; rw [g4]; exact hS
  have hE2 : countChar m 'E' = 1 := by unfold countChar; rw [g4]; exact hE
  refine ⟨m, g1, g4, ?_, ?_⟩
  · intro c r hcell
    have := g7 c r hcell (fun c2 r2 h2 => by
      obtain ⟨e1, e2⟩ := unique_of_countChar_one hS2 hcell h2
      right; exact ⟨e2, le_of_eq e1⟩)
    exact ⟨this.1, this.2, fits_of_wellFormed hwf c r _ hcell⟩
  · intro c r hcell
    have := g8 c r hcell (fun c2 r2 h2 => by
      obtain ⟨e1, e2⟩ := unique_of_countChar_one hE2 hcell h2
      right; exact ⟨e2, le_of_eq e1⟩)
    exact ⟨this.1, this.2, fits_of_wellFormed hwf c r _ hcell⟩

/-- C11, at the failing input: the file `"3 1\n SE\n"` is well formed (header
`3 1`, one row `" SE"` of three characters, a newline) with one `'S'` at column
1 and one `'E'` at column 2, and every allocation succeeds; `createMaze`
returns a maze whose row is `"SE\n"` and whose start and end columns are 0 and
1: the white-space directive that ends the format `"%d %d\n"` has read the
space that begins the row. -/
theorem createMaze_start_shifted :
    " SE".toList.length = 3 ∧ " SE".toList[1]? = some 'S' ∧ " SE".toList[2]? = some 'E' ∧
    fileText "3".toList "1".toList [" SE".toList] = "3 1\n SE\n".toList ∧
    createMaze (envOf "3 1\n SE\n") "maze.txt" =
      Loaded.grid { width := 3, height := 1, cells := [['S', 'E', '\n']],
                    startColumn := 0, startRow := 0, endColumn := 1, endRow := 0 } := by
  refine ⟨by decide, by decide, by decide, by decide, by decide⟩

/-- C12, at the failing input: the file `"2 2\n #\nSE\n"` is well formed (header
`2 2`, rows `" #"` and `"SE"`); `createMaze` returns a maze with rows `"#\n"`
and `"E\n"`, and `printMaze` prints `"#\n\nE\n\n"`, not the rows of the file:
the white-space directive that ends the format `"%d %d\n"` has read the space
that begins the first row. -/
theorem printMaze_rows_shifted :
    fileText "2".toList "2".toList [" #".toList, "SE".toList] = "2 2\n #\nSE\n".toList ∧
    rowsText [" #".toList, "SE".toList] = " #\nSE\n".toList ∧
    createMaze (envOf "2 2\n #\nSE\n") "maze.txt" =
      Loaded.grid { width := 2, height := 2, cells := [['#', '\n'], ['E', '\n']],
                    startColumn := 0, startRow := 0, endColumn := 0, endRow := 1 } ∧
    printMaze (some { width := 2, height := 2, cells := [['#', '\n'], ['E', '\n']],
                      startColumn := 0, startRow := 0, endColumn := 0, endRow := 1 })
      = some "#\n\nE\n\n".toList := by
  refine ⟨by decide, by decide, by decide, by decide⟩

/-- C13, as stated, fails: the input `"4294967299 1\nS E\n"` begins with the
two integers 4294967299 and 1, and `createMaze` returns a maze of width 3,
not 4294967299: the `int` keeps the low 32 bits of the number. -/
theorem createMaze_header_truncated :
    BeginsWithTwoIntegers fileWide.toList 4294967299 1 ∧
    createMaze (envOf fileWide) "maze.txt" =
      Loaded.grid { width := 3, height := 1, cells := [['S', ' ', 'E']],
                    startColumn := 0, startRow := 0, endColumn := 2, endRow := 0 } ∧
    (3 : Int) ≠ 4294967299 := by
  refine ⟨?_, by decide, by decide⟩
  refine ⟨[], "4294967299".toList, [' '], ['1'], "\nS E\n".toList, by decide,
    fun c hc => absurd hc (List.not_mem_nil c), by decide,
    ⟨"4294967299".toList, by decide, by decide, Or.inl ⟨rfl, by decide⟩⟩,
    ⟨['1'], by decide, by decide, Or.inl ⟨rfl, by decide⟩⟩, ?_, ?_⟩
  · intro c cs e
    have h2 : [' '] ++ ['1'] = ' ' :: ['1'] := rfl
    rw [h2] at e
    injection e with e1 _
    rw [← e1]; decide
  · intro c cs e
    have h2 : "\nS E\n".toList = '\n' :: "S E\n".toList := by decide
    rw [h2] at e
    injection e with e1 _
    rw [← e1]; decide

/-- A first integer that does not fit `int` followed by a token that is not a
number: `createMaze` returns `NULL`. -/
theorem createMaze_header_wide_mismatch :
    createMaze (envOf "99999999999 x") "maze.txt" = Loaded.null := by
  decide

/-- C13, amended. Malformed header: when the beginning of the input does not
parse as two decimal integers, `createMaze` returns `NULL`, as it does on the
empty input, on a missing second integer and on a token that is not a number.
When the beginning parses as two integers `w` and `h` that both fit `int`, a
maze that `createMaze` returns has width `w` and height `h`. -/
theorem createMaze_header (env : Env) (fileName : String) (input : List Char)
    (hopen : env.fopen fileName = some input) :
    ((¬ ∃ w h, BeginsWithTwoIntegers input w h) → createMaze env fileName = Loaded.null) ∧
    (∀ w h m, BeginsWithTwoIntegers input w h → fitsInt w → fitsInt h →
      createMaze env fileName = Loaded.grid m → m.width = w ∧ m.height = h) ∧
    createMaze (envOf "") "maze.txt" = Loaded.null ∧
    createMaze (envOf "7") "maze.txt" = Loaded.null ∧
    createMaze (envOf "7 x") "maze.txt" = Loaded.null ∧
    createMaze (envOf "maze 7 7") "maze.txt" = Loaded.null := by
  refine ⟨createMaze_null_of_not_begins hopen, ?_, by decide, by decide, by decide,
    by decide⟩
  intro w h m hb hw hh hres
  have := createMaze_stored hopen hres hb
  rw [storeInt_of_fits hw, storeInt_of_fits hh] at this
  exact this

theorem createMaze_header_example :
    (envOf fileAround).fopen "maze.txt" = some fileAround.toList ∧
    (((¬ ∃ w h, BeginsWithTwoIntegers fileAround.toList w h) →
      createMaze (envOf fileAround) "maze.txt" = Loaded.null) ∧
    (∀ w h m, BeginsWithTwoIntegers fileAround.toList w h → fitsInt w → fitsInt h →
      createMaze (envOf fileAround) "maze.txt" = Loaded.grid m →
      m.width = w ∧ m.height = h) ∧
    createMaze (envOf "") "maze.txt" = Loaded.null ∧
    createMaze (envOf "7") "maze.txt" = Loaded.null ∧
    createMaze (envOf "7 x") "maze.txt" = Loaded.null ∧
    createMaze (envOf "maze 7 7") "maze.txt" = Loaded.null) :=
  ⟨rfl, createMaze_header (envOf fileAround) "maze.txt" fileAround.toList rfl⟩

/-- C14. Concrete traversal order: on the 3x3 maze with rows `"S  "`, `" # "`,
`"  E"` the call at the start (column 0, row 0) returns 1, at every recursion
depth from 5 on, and leaves the rows `"S**"`, `" #*"`, `"  E"`: the cells
visited are (0,0), (1,0), (2,0), (2,1) in this order, right before down;
`'S'`, `'E'` and `'#'` are untouched and no cell holds `'~'`. -/
theorem solveMazeDFS_around (fuel : Nat) :
    solveMazeDFS (fuel + 5) mazeAround 0 0 = some (true, mazeAroundSolved) ∧
    solveMazeDFSTraced (fuel + 5) mazeAround 0 0 = some (true, mazeAroundSolved,
      [Event.visit 0 0,
       Event.visit 1 0, Event.write 1 0 (some ' ') '*',
       Event.visit 2 0, Event.write 2 0 (some ' ') '*',
       Event.visit 2 1, Event.write 2 1 (some ' ') '*']) ∧
    cellAt mazeAroundSolved 0 0 = some 'S' ∧ cellAt mazeAroundSolved 2 2 = some 'E' ∧
    cellAt mazeAroundSolved 1 1 = some '#' ∧ countChar mazeAroundSolved '~' = 0 := by
  have ht : solveMazeDFSTraced 5 mazeAround 0 0 = some (true, mazeAroundSolved,
      [Event.visit 0 0,
       Event.visit 1 0, Event.write 1 0 (some ' ') '*',
       Event.visit 2 0, Event.write 2 0 (some ' ') '*',
       Event.visit 2 1, Event.write 2 1 (some ' ') '*']) := by decide
  have hm := traced_mono (Nat.le_add_left 5 fuel) ht
  exact ⟨solve_of_traced hm, hm, by decide, by decide, by decide, by decide⟩

/-- C15. Fully annotated grid on an unsolvable maze: on a well-formed maze with
exactly one `'S'` cell, when the call at the `'S'` cell returns 0, every cell
that was open and can be reached from the `'S'` cell by a sequence of adjacent
open cells holds `'~'` afterwards, and every open cell that cannot still
holds `' '`. -/
theorem solveMazeDFS_fully_annotated (fuel : Nat) (m : maze_t) (sc sr : Int) (m2 : maze_t)
    (hwf : WellFormed m) (hS : countChar m 'S' = 1) (hs : cellAt m sc sr = some 'S')
    (h : solveMazeDFS fuel m sc sr = some (false, m2)) :
    ∀ c r, cellAt m c r = some ' ' →
      (OpenRoute m (sc, sr) (c, r) → cellAt m2 c r = some '~') ∧
      (¬ OpenRoute m (sc, sr) (c, r) → cellAt m2 c r = some ' ') := by
  obtain ⟨log, hl⟩ := traced_of_solve h
  have hch := traced_changes hl
  obtain ⟨hcl, _, hn⟩ := traced_exhausted (fits_of_wellFormed hwf) hl
  intro c r hcell
  constructor
  · rintro ⟨mid, hmid, hchain⟩
    exact rejected_of_closed hch hcl mid (sc, sr) (c, r) (hn hs) hmid hcell hchain
  · intro hno
    by_contra hne
    have hdiff : cellAt m2 c r ≠ cellAt m c r := by rw [hcell]; exact hne
    have hw := traced_changed_walk hl (c, r) hdiff
    rcases hw.route (uniqueStart_of_count hS) (s := (sc, sr)) hs with e | ⟨_, hr⟩ | hr
    · have e1 : sc = c := congrArg Prod.fst e
      have e2 : sr = r := congrArg Prod.snd e
      rw [e1, e2, hcell] at hs
      cases hs
    · exact hno hr
    · exact hno hr

theorem solveMazeDFS_fully_annotated_example :
    (WellFormed (ofRows 4 2 ["S # ", "  # "]) ∧ countChar (ofRows 4 2 ["S # ", "  # "]) 'S' = 1 ∧
      cellAt (ofRows 4 2 ["S # ", "  # "]) 0 0 = some 'S' ∧
      solveMazeDFS 9 (ofRows 4 2 ["S # ", "  # "]) 0 0
        = some (false, ofRows 4 2 ["S~# ", "~~# "])) ∧
    ∀ c r, cellAt (ofRows 4 2 ["S # ", "  # "]) c r = some ' ' →
      (OpenRoute (ofRows 4 2 ["S # ", "  # "]) (0, 0) (c, r) →
        cellAt (ofRows 4 2 ["S~# ", "~~# "]) c r = some '~') ∧
      (¬ OpenRoute (ofRows 4 2 ["S # ", "  # "]) (0, 0) (c, r) →
        cellAt (ofRows 4 2 ["S~# ", "~~# "]) c r = some ' ') :=
  ⟨⟨by decide, by decide, by decide, by decide⟩,
    solveMazeDFS_fully_annotated 9 (ofRows 4 2 ["S # ", "  # "]) 0 0
      (ofRows 4 2 ["S~# ", "~~# "]) (by decide) (by decide) (by decide) (by decide)⟩

/-- C16, as stated, fails: on the header `"0 0"`, when a zero-size allocation
succeeds, `createMaze` returns a maze, of width 0 and height 0 with no rows;
and on the header `"-1 0"` it returns a maze of width -1 and height 0, because
no row is allocated. -/
theorem createMaze_zero_dimensions :
    createMaze (envOf "0 0\n") "maze.txt" = Loaded.grid (ofRows 0 0 []) ∧
    ¬ (0 < (ofRows 0 0 []).width ∧ 0 < (ofRows 0 0 []).height) ∧
    createMaze (envOf "-1 0\n") "maze.txt" = Loaded.grid (ofRows (-1) 0 []) ∧
    ¬ (0 < (ofRows (-1) 0 []).width ∧ 0 < (ofRows (-1) 0 []).height) :=
  ⟨by decide, by decide, by decide, by decide⟩

/-- C16, amended. Dimension invariant of constructed grids: when allocations of
a negative number of elements fail, every maze that `createMaze` returns has
height at least 0 and, if its height is positive, width at least 0, and its
buffer has exactly `height` rows of exactly `width` characters. So a header
whose integers fit `int` and whose height is negative, or whose width is
negative and whose height is positive, such as `"-1 3"`, yields no maze.
Dimensions are not checked to be positive. -/
theorem createMaze_dimensions (env : Env) (fileName : String)
    (hcells : ∀ n, n < 0 → env.mallocCells n = false)
    (hrow : ∀ i n, n < 0 → env.mallocRow i n = false) :
    (∀ m, createMaze env fileName = Loaded.grid m →
      0 ≤ m.height ∧ (0 < m.height → 0 ≤ m.width) ∧
      (m.cells.length : Int) = m.height ∧ (∀ r ∈ m.cells, (r.length : Int) = m.width)) ∧
    (∀ input w h, env.fopen fileName = some input → BeginsWithTwoIntegers input w h →
      fitsInt w → fitsInt h → (h < 0 ∨ (w < 0 ∧ 0 < h)) →
      createMaze env fileName = Loaded.null) := by
  have key : ∀ m, createMaze env fileName = Loaded.grid m →
      0 ≤ m.height ∧ (0 < m.height → 0 ≤ m.width) ∧
      (m.cells.length : Int) = m.height ∧ (∀ r ∈ m.cells, (r.length : Int) = m.width) := by
    intro m h
    obtain ⟨input, s, _, _, hc, hlen, hcols, hfirst⟩ := createMaze_dims h
    have hh : 0 ≤ m.height := by
      by_contra hneg
      rw [hcells m.height (by omega)] at hc
      cases hc
    have hw : 0 < m.height → 0 ≤ m.width := by
      intro hpos
      by_contra hneg
      have := hfirst (by omega)
      rw [hrow 0 m.width (by omega)] at this
      cases this
    refine ⟨hh, hw, by omega, ?_⟩
    intro r hr
    have hpos : 0 < m.cells.length := List.length_pos_of_mem hr
    have := hw (by omega)
    have := hcols r hr
    omega
  refine ⟨key, ?_⟩
  intro input w h hopen hb hw hh hneg
  rcases hres : createMaze env fileName with _ | m
  · rfl
  · exfalso
    obtain ⟨e1, e2⟩ := createMaze_stored hopen hres hb
    rw [storeInt_of_fits hw] at e1
    rw [storeInt_of_fits hh] at e2
    obtain ⟨k1, k2, _, _⟩ := key m hres
    rw [e1, e2] at k2
    rw [e2] at k1
    rcases hneg with h1 | ⟨h1, h2⟩
    · omega
    · have := k2 h2
      omega

theorem createMaze_dimensions_example :
    ((∀ n, n < 0 → (envOf "-1 3\n").mallocCells n = false) ∧
      (∀ i n, n < 0 → (envOf "-1 3\n").mallocRow i n = false)) ∧
    ((∀ m, createMaze (envOf "-1 3\n") "maze.txt" = Loaded.grid m →
      0 ≤ m.height ∧ (0 < m.height → 0 ≤ m.width) ∧
      (m.cells.length : Int) = m.height ∧ (∀ r ∈ m.cells, (r.length : Int) = m.width)) ∧
    (∀ input w h, (envOf "-1 3\n").fopen "maze.txt" = some input →
      BeginsWithTwoIntegers input w h →
      fitsInt w → fitsInt h → (h < 0 ∨ (w < 0 ∧ 0 < h)) →
      createMaze (envOf "-1 3\n") "maze.txt" = Loaded.null)) :=
  ⟨⟨fun n hn => by simp [envOf]; omega, fun i n hn => by simp [envOf]; omega⟩,
    createMaze_dimensions (envOf "-1 3\n") "maze.txt"
      (fun n hn => by simp [envOf]; omega) (fun i n hn => by simp [envOf]; omega)⟩

/-- The dimension invariant on two files: the 3x3 file of the specification
yields a maze whose buffer has 3 rows of 3 characters, and the header `"-1 3"`
yields none. -/
theorem createMaze_dimensions_files :
    (∃ m, createMaze (envOf fileAround) "maze.txt" = Loaded.grid m ∧
      0 ≤ m.height ∧ (0 < m.height → 0 ≤ m.width) ∧
      (m.cells.length : Int) = m.height ∧ (∀ r ∈ m.cells, (r.length : Int) = m.width)) ∧
    BeginsWithTwoIntegers "-1 3\n".toList (-1) 3 ∧
    createMaze (envOf "-1 3\n") "maze.txt" = Loaded.null := by
  refine ⟨⟨{ ofRows 3 3 ["S  ", " # ", "  E"] with endColumn := 2, endRow := 2 }, by decide,
    by decide, by decide, by decide, by decide⟩, ?_, by decide⟩
  refine ⟨[], ['-', '1'], [' '], ['3'], ['\n'], by decide,
    fun c hc => absurd hc (List.not_mem_nil c), by decide,
    ⟨['1'], by decide, by decide, Or.inr (Or.inr ⟨rfl, by decide⟩)⟩,
    ⟨['3'], by decide, by decide, Or.inl ⟨rfl, by decide⟩⟩, ?_, ?_⟩
  · intro c cs e
    have h2 : [' '] ++ ['3'] = ' ' :: ['3'] := rfl
    rw [h2] at e
    injection e with e1 _
    rw [← e1]; decide
  · intro c cs e
    injection e with e1 _
    rw [← e1]; decide

/-- C17. Existence of a marked route on success: on a maze with exactly one
`'S'` and exactly one `'E'`, when the call at the `'S'` cell returns 1, the
final maze still holds `'S'` and `'E'` in their cells, and a sequence of cells
leads from the `'S'` cell to the `'E'` cell, consecutive cells adjacent, whose
intermediate cells all hold `'*'` and all held `' '` before the call. -/
theorem solveMazeDFS_marked_route (fuel : Nat) (m : maze_t) (sc sr ec er : Int)
    (m2 : maze_t) (hS : countChar m 'S' = 1) (hE : countChar m 'E' = 1)
    (hs : cellAt m sc sr = some 'S') (he : cellAt m ec er = some 'E')
    (h : solveMazeDFS fuel m sc sr = some (true, m2)) :
    cellAt m2 sc sr = some 'S' ∧ cellAt m2 ec er = some 'E' ∧
    ∃ mid : List (Int × Int),
      (∀ x ∈ mid, cellAt m x.1 x.2 = some ' ' ∧ cellAt m2 x.1 x.2 = some '*') ∧
      List.Chain adjacent (sc, sr) (mid ++ [(ec, er)]) := by
  obtain ⟨log, hl⟩ := traced_of_solve h
  have hch := traced_changes hl
  obtain ⟨q, hq, hroute⟩ := traced_markedRoute (uniqueStart_of_count hS) hs hl
  obtain ⟨h1, h2⟩ := unique_of_countChar_one hE he hq
  have hqe : q = (ec, er) := Prod.ext h1 h2
  rw [hqe] at hroute
  refine ⟨?_, ?_, hroute⟩
  · rw [hch.keep (by rw [hs]; decide)]; exact hs
  · rw [hch.keep (by rw [he]; decide)]; exact he

theorem solveMazeDFS_marked_route_example :
    (countChar mazeSpur 'S' = 1 ∧ countChar mazeSpur 'E' = 1 ∧
      cellAt mazeSpur 0 0 = some 'S' ∧ cellAt mazeSpur 0 2 = some 'E' ∧
      solveMazeDFS 5 mazeSpur 0 0 = some (true, mazeSpurSolved)) ∧
    (cellAt mazeSpurSolved 0 0 = some 'S' ∧ cellAt mazeSpurSolved 0 2 = some 'E' ∧
    ∃ mid : List (Int × Int),
      (∀ x ∈ mid, cellAt mazeSpur x.1 x.2 = some ' ' ∧
        cellAt mazeSpurSolved x.1 x.2 = some '*') ∧
      List.Chain adjacent (0, 0) (mid ++ [(0, 2)])) :=
  ⟨⟨by decide, by decide, by decide, by decide, by decide⟩,
    solveMazeDFS_marked_route 5 mazeSpur 0 0 0 2 mazeSpurSolved (by decide) (by decide)
      (by decide) (by decide) (by decide)⟩

/-- C18, at the failing input: the file `"3 1\n SS\n"` has header `3 1` and the
row `" SS"`, whose last `'S'` is at column 2; `createMaze` succeeds, with the
row `"SS\n"` and start column 1: the white-space directive that ends the
format `"%d %d\n"` has read the space that begins the row, so every
character of the row is stored one column to the left. -/
theorem createMaze_last_start_shifted :
    " SS".toList.length = 3 ∧ " SS".toList[2]? = some 'S' ∧
    fileText "3".toList "1".toList [" SS".toList] = "3 1\n SS\n".toList ∧
    createMaze (envOf "3 1\n SS\n") "maze.txt" =
      Loaded.grid { width := 3, height := 1, cells := [['S', 'S', '\n']],
                    startColumn := 1, startRow := 0, endColumn := 0, endRow := 0 } := by
  refine ⟨by decide, by decide, by decide, by decide⟩

/-- The file of the 3x3 maze of the specification is loaded as written and
printed back as written. -/
theorem createMaze_fileAround :
    ∃ m, createMaze (envOf fileAround) "maze.txt" = Loaded.grid m ∧
      m.width = 3 ∧ m.height = 3 ∧ m.cells = ["S  ".toList, " # ".toList, "  E".toList] ∧
      WellFormed m ∧
      printMaze (some m) = some "S  \n # \n  E\n".toList ∧
      (∀ c r, cellAt m c r = some 'S' →
        (∀ c2 r2, cellAt m c2 r2 = some 'S' → r2 < r ∨ (r2 = r ∧ c2 ≤ c)) →
        m.startColumn = c ∧ m.startRow = r) ∧
      (∀ c r, cellAt m c r = some 'E' →
        (∀ c2 r2, cellAt m c2 r2 = some 'E' → r2 < r ∨ (r2 = r ∧ c2 ≤ c)) →
        m.endColumn = c ∧ m.endRow = r) :=
  createMaze_wellFormed_file (envOf fileAround) "maze.txt" (ofRows 0 0 [])
    "3".toList "3".toList ["S  ".toList, " # ".toList, "  E".toList]
    (by decide) rfl (by decide) (by decide) (by decide) (by decide) (by decide) (by decide)
    (by decide) (by decide)
    (by
      intro c cs e
      have : c = 'S' := by
        have h2 : rowsText ["S  ".toList, " # ".toList, "  E".toList]
            = 'S' :: "  \n # \n  E\n".toList := by decide
        rw [h2] at e
        injection e with e1 _
        exact e1.symm
      rw [this]; decide)
    (by decide) (fun k => by simp [envOf])

end Maze
